import Mathlib

set_option maxRecDepth 10000

/-!
Verification of the rich-text → Google-Keep-markup conversion engine
(`src/lib/keepFormatter.ts` of the keep-note-converter repository).

Strings are modelled as `List Char` (`Str`), faithful to JavaScript string
semantics for the operations used by the source: the regex class `\s` and
`String.prototype.trim` use the JS whitespace set (which includes the
non-breaking space U+00A0), `String.replace` with a global regex performs a
single left-to-right non-overlapping scan, and `parseInt(s, 10)` returns NaN
(modelled as `none`) when no leading digits are found.

The DOM facilities the source relies on (`DOMParser.parseFromString` with
`text/html`, `innerHTML` assignment/serialization, `textContent`) are external
standard primitives; they are modelled by an explicit HTML tokenizer and
tree-builder below covering the fragment language that actually reaches them,
including the HTML5 behaviours the pipeline depends on: a `<p>` element is
implicitly closed by block-level start tags, a stray `</p>` end tag inserts an
empty `p` element, `script`/`style` take raw text content, void elements
(`br`, `img`, …) never take children, and character entities are decoded in
text and attribute values.

The `diagnostics` trail of the result record is not present in
`src/lib/keepFormatter.ts` (the version under `src/` returns only
`html`/`keepHtml`/`plainText`); it is modelled from the spec (§3, §4.1, §4.2)
and from the repository's own test suite `src/lib/keepFormatter.test.ts`,
which pins down the diagnostic kinds, their payloads and their order.
Definitions that model such missing or external code carry a doc comment
saying so.
-/

/-- JavaScript-style strings: a list of characters. -/
abbrev Str := List Char

/-- Coerce a Lean string literal to the `Str` model. -/
def chars (s : String) : Str := s.toList

/-- The JavaScript whitespace set: matched by the regex class `\s` and removed
by `String.prototype.trim`.  It includes the ASCII whitespace characters, the
non-breaking space U+00A0, and the Unicode space separators. -/
def isJsWs (c : Char) : Bool :=
  c = ' ' || c = '\t' || c = '\n' || c = '\x0b' || c = '\x0c' || c = '\r' ||
  c = '\u00a0' || c = '\u1680' ||
  ('\u2000' ≤ c && c ≤ '\u200a') ||
  c = '\u2028' || c = '\u2029' || c = '\u202f' || c = '\u205f' ||
  c = '\u3000' || c = '\ufeff'

/-- ASCII lower-casing of a character (used for the `i` flag of the source's
regexes and for `tagName.toUpperCase`/`toLowerCase` modelling). -/
def lowerChar (c : Char) : Char :=
  if 'A' ≤ c && c ≤ 'Z' then Char.ofNat (c.toNat + 32) else c

/-- ASCII upper-casing of a character. -/
def upperChar (c : Char) : Char :=
  if 'a' ≤ c && c ≤ 'z' then Char.ofNat (c.toNat - 32) else c

/-- ASCII lower-casing of a string. -/
def lowerStr (s : Str) : Str := s.map lowerChar

/-- ASCII upper-casing of a string (model of `tagName.toUpperCase()`). -/
def upperStr (s : Str) : Str := s.map upperChar

/-- Case-insensitive prefix matcher: if `s` starts with `pat` up to ASCII
case, return the remainder of `s`. -/
def dropCi : Str → Str → Option Str
  | [], s => some s
  | _ :: _, [] => none
  | p :: ps, c :: cs => if lowerChar c = lowerChar p then dropCi ps cs else none

/-- ASCII decimal digit test. -/
def isDigitCh (c : Char) : Bool := '0' ≤ c && c ≤ '9'

/-- ASCII letter test. -/
def isAlphaCh (c : Char) : Bool := ('a' ≤ c && c ≤ 'z') || ('A' ≤ c && c ≤ 'Z')

/-- ASCII letter-or-digit test (tag-name characters). -/
def isAlnumCh (c : Char) : Bool := isAlphaCh c || isDigitCh c

/-- Model of `String.prototype.trim`: strip JS whitespace from both ends. -/
def trimJs (s : Str) : Str :=
  ((s.dropWhile isJsWs).reverse.dropWhile isJsWs).reverse

/-- Model of `rawHtml.replace(/ /g, " ")`: every non-breaking-space
character becomes a plain space. -/
def replaceNbsp (s : Str) : Str :=
  s.map (fun c => if c = '\u00a0' then ' ' else c)

/-- Consume characters up to and including the first `>`; `none` if there is
no `>` (the regex `<[^>]*>` then has no match starting at this `<`). -/
def dropToGt : Str → Option Str
  | [] => none
  | '>' :: rest => some rest
  | _ :: rest => dropToGt rest

/-- Consume characters up to and including the first `>`, returning the
consumed characters (`>` included) together with the remainder. -/
def takeThruGt : Str → Option (Str × Str)
  | [] => none
  | '>' :: r => some (['>'], r)
  | c :: r =>
    match takeThruGt r with
    | some (m, r') => some (c :: m, r')
    | none => none

/-- Model of `.replace(/<[^>]*>/g, "")` (the tag-stripping step of the
empty-input guard): each `<`, when a later `>` exists, is removed together
with everything up to that `>`; a `<` with no following `>` stays. -/
def stripTagsGo : Nat → Str → Str
  | 0, s => s
  | _ + 1, [] => []
  | fuel + 1, '<' :: rest =>
    (match dropToGt rest with
     | some rest' => stripTagsGo fuel rest'
     | none => '<' :: stripTagsGo fuel rest)
  | fuel + 1, c :: rest => c :: stripTagsGo fuel rest

/-- `replace(/<[^>]*>/g, "")` with the fuel fixed to the input length (every
recursive call consumes at least one character, so this fuel suffices). -/
def stripTags (s : Str) : Str := stripTagsGo s.length s

/-- Model of `.replace(/\s+/g, " ")`: each maximal run of JS whitespace
becomes a single space (text-node normalization in `serializeNode`). -/
def collapseWsGo : Bool → Str → Str
  | _, [] => []
  | prevWs, c :: rest =>
    if isJsWs c then
      (if prevWs then [] else [' ']) ++ collapseWsGo true rest
    else c :: collapseWsGo false rest

/-- Whitespace-run collapsing, starting outside a run. -/
def collapseWs (s : Str) : Str := collapseWsGo false s

/-- Model of `escapeHtml` from the source: normalize non-breaking space to a
plain space, then escape `&`, `<`, `>`, `"`.  The source applies the five
`replace` calls in sequence; since no replacement string contains a character
escaped by a later step, the sequential passes coincide with this single
character-wise pass. -/
def escapeHtml (value : Str) : Str :=
  (replaceNbsp value).flatMap (fun c =>
    if c = '&' then chars "&amp;"
    else if c = '<' then chars "&lt;"
    else if c = '>' then chars "&gt;"
    else if c = '"' then chars "&quot;"
    else [c])

/-- Given the characters after a `<`, match the rest of a `br` tag per the
regex `<br\s*\/?>` (case-insensitive), returning the remainder on success. -/
def brTagRest (s : Str) : Option Str :=
  match dropCi (chars "br") s with
  | none => none
  | some s1 =>
    match s1.dropWhile isJsWs with
    | '/' :: '>' :: r => some r
    | '>' :: r => some r
    | _ => none

/-- Given the characters after a `<`, match the rest of a `br` tag and also
return the matched characters (without the leading `<`). -/
def brTagRestTake (s : Str) : Option (Str × Str) :=
  match dropCi (chars "br") s with
  | none => none
  | some s1 =>
    let ws := s1.takeWhile isJsWs
    match s1.dropWhile isJsWs with
    | '/' :: '>' :: r => some (s.take 2 ++ ws ++ chars "/>", r)
    | '>' :: r => some (s.take 2 ++ ws ++ chars ">", r)
    | _ => none

/-- Model of `.replace(/<br\s*\/?>/gi, "")` (first pass of
`isEffectivelyEmpty`). -/
def removeBrTags : Nat → Str → Str
  | 0, s => s
  | _ + 1, [] => []
  | fuel + 1, '<' :: rest =>
    (match brTagRest rest with
     | some r => removeBrTags fuel r
     | none => '<' :: removeBrTags fuel rest)
  | fuel + 1, c :: rest => c :: removeBrTags fuel rest

/-- Model of `.replace(/&nbsp;/gi, " ")` (second pass of
`isEffectivelyEmpty`). -/
def nbspEntityToSpace : Nat → Str → Str
  | 0, s => s
  | _ + 1, [] => []
  | fuel + 1, '&' :: rest =>
    (match dropCi (chars "nbsp;") rest with
     | some r => ' ' :: nbspEntityToSpace fuel r
     | none => '&' :: nbspEntityToSpace fuel rest)
  | fuel + 1, c :: rest => c :: nbspEntityToSpace fuel rest

/-- Model of `.replace(/<[^>]+>/g, "")`: like `stripTags` but the interior
must be non-empty (a literal `<>` survives). -/
def stripTagsPlus : Nat → Str → Str
  | 0, s => s
  | _ + 1, [] => []
  | fuel + 1, '<' :: rest =>
    (match rest with
     | '>' :: _ => '<' :: stripTagsPlus fuel rest
     | _ =>
       match dropToGt rest with
       | some r => stripTagsPlus fuel r
       | none => '<' :: stripTagsPlus fuel rest)
  | fuel + 1, c :: rest => c :: stripTagsPlus fuel rest

/-- Model of `isEffectivelyEmpty` from the source: strip break tags, turn
`&nbsp;` entities into spaces, strip remaining tags, remove all whitespace;
test whether nothing is left. -/
def isEffectivelyEmpty (fragment : Str) : Bool :=
  let s1 := removeBrTags fragment.length fragment
  let s2 := nbspEntityToSpace s1.length s1
  let s3 := stripTagsPlus s2.length s2
  (s3.filter (fun c => !(isJsWs c))).isEmpty

/-- Model of `wrapParagraph` from the source: empty or effectively-empty
content produces nothing, otherwise the trimmed content is wrapped in
`<p>…</p>`. -/
def wrapParagraph (content : Str) : Str :=
  if content = [] then []
  else if isEffectivelyEmpty content then []
  else chars "<p>" ++ trimJs content ++ chars "</p>"

/-- Model of `parseInt(s, 10)`: skip leading JS whitespace, read an optional
sign and then a maximal run of decimal digits; `none` models NaN (no digits).
-/
def jsParseInt (s : Str) : Option Int :=
  let s1 := s.dropWhile isJsWs
  let signed : Int × Str :=
    match s1 with
    | '-' :: r => (-1, r)
    | '+' :: r => (1, r)
    | _ => (1, s1)
  let ds := signed.2.takeWhile isDigitCh
  if ds = [] then none
  else some (signed.1 * (ds.foldl (fun acc c => acc * 10 + (c.toNat - 48)) 0 : Nat))

/-- Render the ordered-list counter the way JS string interpolation renders
the number: NaN (from a non-numeric `start` attribute) prints as `NaN`. -/
def renderCounter : Option Int → Str
  | some n => chars (toString n)
  | none => chars "NaN"

/-- `current += 1` on the counter; NaN is absorbing. -/
def bumpCounter (c : Option Int) : Option Int := c.map (· + 1)

/-- Parsed DOM node, per the spec's data model (§3): a text node holding a
character sequence, or an element node holding a tag identity (stored
upper-case, as `Element.tagName` reports it for HTML elements), an ordered
attribute list (names stored lower-case) and an ordered child list. -/
inductive NNode where
  | text (s : Str)
  | elem (tag : Str) (attrs : List (Str × Str)) (children : List NNode)

/-- First attribute with the given (lower-case) name: model of
`getAttribute`, which returns `null` (here `none`) when absent. -/
def getAttr (attrs : List (Str × Str)) (name : Str) : Option Str :=
  (attrs.find? (fun a => a.1 = name)).map (·.2)

/-- HTML tokens produced by the tokenizer. -/
inductive Tok where
  | text (s : Str)
  | openTag (name : Str) (attrs : List (Str × Str)) (selfClosing : Bool)
  | closeTag (name : Str)

/-- Modelled from the spec: the Markup Parser is an "external/standard
capability, not reimplemented" (§2).  Character-reference decoding for the
entities that occur in this pipeline (`&amp;` `&lt;` `&gt;` `&quot;`
`&nbsp;` `&#...;` decimal).  Unknown references are left as literal text, as
browsers do. -/
def decodeEntity (s : Str) : Option (Char × Str) :=
  match dropCi (chars "amp;") s with
  | some r => some ('&', r)
  | none =>
  match dropCi (chars "lt;") s with
  | some r => some ('<', r)
  | none =>
  match dropCi (chars "gt;") s with
  | some r => some ('>', r)
  | none =>
  match dropCi (chars "quot;") s with
  | some r => some ('"', r)
  | none =>
  match dropCi (chars "nbsp;") s with
  | some r => some ('\u00a0', r)
  | none =>
  match s with
  | '#' :: r =>
    let ds := r.takeWhile isDigitCh
    (match r.dropWhile isDigitCh with
     | ';' :: r' =>
       if ds = [] then none
       else some (Char.ofNat (ds.foldl (fun acc c => acc * 10 + (c.toNat - 48)) 0), r')
     | _ => none)
  | _ => none

/-- Decode character references throughout a string (attribute values). -/
def decodeEntities : Nat → Str → Str
  | 0, s => s
  | _ + 1, [] => []
  | fuel + 1, '&' :: rest =>
    (match decodeEntity rest with
     | some (c, r) => c :: decodeEntities fuel r
     | none => '&' :: decodeEntities fuel rest)
  | fuel + 1, c :: rest => c :: decodeEntities fuel rest

/-- Modelled from the spec (external standard parser): attribute parsing of a
start tag, from just after the tag name to just after the closing `>`.
Returns the attribute list (names lower-cased, values entity-decoded), the
self-closing flag, and the remaining input. -/
def parseAttrs : Nat → Str → List (Str × Str) × Bool × Str
  | 0, s => ([], false, s)
  | fuel + 1, s =>
    match s.dropWhile isJsWs with
    | [] => ([], false, [])
    | '>' :: r => ([], false, r)
    | '/' :: r =>
      (match r.dropWhile isJsWs with
       | '>' :: r' => ([], true, r')
       | r' => parseAttrs fuel r')
    | c :: r =>
      let s1 := c :: r
      let name := s1.takeWhile (fun ch => !(isJsWs ch) && ch ≠ '=' && ch ≠ '>' && ch ≠ '/')
      if name = [] then
        -- stray character; skip it so the scan advances
        parseAttrs fuel r
      else
        let s2 := (s1.drop name.length).dropWhile isJsWs
        match s2 with
        | '=' :: r1 =>
          (match r1.dropWhile isJsWs with
           | '"' :: v =>
             let val := v.takeWhile (· ≠ '"')
             let rest := (v.drop val.length).drop 1
             let (as_, sc, r') := parseAttrs fuel rest
             ((lowerStr name, decodeEntities val.length val) :: as_, sc, r')
           | '\'' :: v =>
             let val := v.takeWhile (· ≠ '\'')
             let rest := (v.drop val.length).drop 1
             let (as_, sc, r') := parseAttrs fuel rest
             ((lowerStr name, decodeEntities val.length val) :: as_, sc, r')
           | r2 =>
             let val := r2.takeWhile (fun ch => !(isJsWs ch) && ch ≠ '>')
             let (as_, sc, r') := parseAttrs fuel (r2.drop val.length)
             ((lowerStr name, decodeEntities val.length val) :: as_, sc, r'))
        | s3 =>
          let (as_, sc, r') := parseAttrs fuel s3
          ((lowerStr name, []) :: as_, sc, r')

/-- Raw-text elements: their content is scanned as literal text up to the
matching end tag (HTML5 script/style data states). -/
def rawTextTags : List Str := [chars "SCRIPT", chars "STYLE"]

/-- Scan raw-text content up to `</name` (case-insensitive), then skip to the
`>` of that end tag.  Returns the raw content, whether the end tag was found,
and the remaining input. -/
def rawTextSplit (nameL : Str) : Nat → Str → Str × Bool × Str
  | 0, s => (s, false, [])
  | _ + 1, [] => ([], false, [])
  | fuel + 1, '<' :: rest =>
    (match rest with
     | '/' :: r =>
       (match dropCi nameL r with
        | some r1 =>
          (match dropToGt r1 with
           | some r2 => ([], true, r2)
           | none => ([], true, []))
        | none =>
          let (content, found, r') := rawTextSplit nameL fuel rest
          ('<' :: content, found, r'))
     | _ =>
       let (content, found, r') := rawTextSplit nameL fuel rest
       ('<' :: content, found, r'))
  | fuel + 1, c :: rest =>
    let (content, found, r') := rawTextSplit nameL fuel rest
    (c :: content, found, r')

/-- Modelled from the spec (external standard parser): the HTML tokenizer for
the fragment language reaching `DOMParser`/`innerHTML` in this pipeline.
`<` followed by a letter starts a tag; `</` a close tag; `<!` bogus/comment
content skipped to `>`; any other `<` is literal text.  Entities are decoded
in text.  Script/style content is consumed as raw text. -/
def tokenize : Nat → Str → List Tok
  | 0, _ => []
  | _ + 1, [] => []
  | fuel + 1, '<' :: rest =>
    (match rest with
     | '/' :: r =>
       if (r.headD ' ').isAlpha then
         let name := r.takeWhile isAlnumCh
         (match dropToGt (r.drop name.length) with
          | some r' => Tok.closeTag (upperStr name) :: tokenize fuel r'
          | none => [Tok.closeTag (upperStr name)])
       else
         (match dropToGt r with
          | some r' => tokenize fuel r'
          | none => [])
     | '!' :: r =>
       (match dropToGt r with
        | some r' => tokenize fuel r'
        | none => [])
     | c :: r =>
       if isAlphaCh c then
         let name := (c :: r).takeWhile isAlnumCh
         let afterName := (c :: r).drop name.length
         let (attrs, sc, rest') := parseAttrs afterName.length afterName
         let nm := upperStr name
         if nm ∈ rawTextTags && !sc then
           let (raw, _found, rest'') := rawTextSplit (lowerStr name) rest'.length rest'
           Tok.openTag nm attrs sc :: Tok.text raw :: Tok.closeTag nm :: tokenize fuel rest''
         else
           Tok.openTag nm attrs sc :: tokenize fuel rest'
       else
         Tok.text ['<'] :: tokenize fuel rest
     | [] => [Tok.text ['<']])
  | fuel + 1, '&' :: rest =>
    (match decodeEntity rest with
     | some (ch, r) => Tok.text [ch] :: tokenize fuel r
     | none => Tok.text ['&'] :: tokenize fuel rest)
  | fuel + 1, c :: rest => Tok.text [c] :: tokenize fuel rest

/-- Void elements: never take children (HTML5). -/
def voidTags : List Str :=
  [chars "AREA", chars "BASE", chars "BR", chars "COL", chars "EMBED",
   chars "HR", chars "IMG", chars "INPUT", chars "LINK", chars "META",
   chars "PARAM", chars "SOURCE", chars "TRACK", chars "WBR"]

/-- Start tags that implicitly close an open `p` element (HTML5 "close a p
element" list, restricted to the tags this pipeline can meet). -/
def pClosingTags : List Str :=
  [chars "ADDRESS", chars "ARTICLE", chars "ASIDE", chars "BLOCKQUOTE",
   chars "CENTER", chars "DETAILS", chars "DIALOG", chars "DIR", chars "DIV",
   chars "DL", chars "FIELDSET", chars "FIGCAPTION", chars "FIGURE",
   chars "FOOTER", chars "FORM", chars "H1", chars "H2", chars "H3",
   chars "H4", chars "H5", chars "H6", chars "HEADER", chars "HGROUP",
   chars "HR", chars "MAIN", chars "MENU", chars "NAV", chars "OL",
   chars "P", chars "PRE", chars "SECTION", chars "TABLE", chars "UL"]

/-- Heading tag names. -/
def headingTags : List Str :=
  [chars "H1", chars "H2", chars "H3", chars "H4", chars "H5", chars "H6"]

/-- Merge a maximal run of text tokens into one string (adjacent text tokens
form a single DOM text node). -/
def textRun : List Tok → Str × List Tok
  | Tok.text s :: rest =>
    let (t, r) := textRun rest
    (s ++ t, r)
  | toks => ([], toks)

/-- Modelled from the spec (external standard parser): the tree builder.
`buildNodes fuel parent toks` parses a sibling list in the context of an open
element `parent`, returning the siblings and the unconsumed tokens.  It
implements the HTML5 behaviours this pipeline relies on: `n = parent` closes
the context; a start tag in `pClosingTags` implicitly closes an open `p`
(likewise a heading start tag inside a heading, `li` inside `li`); a stray
`</p>` inserts an empty `p` element; a `</ol>`/`</ul>` implicitly closes an
open `li`; other unmatched end tags are ignored; void elements take no
children. -/
def buildNodes : Nat → Str → List Tok → List NNode × List Tok
  | 0, _, toks => ([], toks)
  | _ + 1, _, [] => ([], [])
  | fuel + 1, parent, Tok.text s :: rest =>
    let (t, rest1) := textRun rest
    let (ns, r) := buildNodes fuel parent rest1
    (NNode.text (s ++ t) :: ns, r)
  | fuel + 1, parent, Tok.openTag n a sc :: rest =>
    if parent = chars "P" && n ∈ pClosingTags then
      ([], Tok.openTag n a sc :: rest)
    else if parent ∈ headingTags && n ∈ headingTags then
      ([], Tok.openTag n a sc :: rest)
    else if parent = chars "LI" && n = chars "LI" then
      ([], Tok.openTag n a sc :: rest)
    else if n ∈ voidTags then
      let (ns, r) := buildNodes fuel parent rest
      (NNode.elem n a [] :: ns, r)
    else
      let (children, rest1) := buildNodes fuel n rest
      let (ns, r) := buildNodes fuel parent rest1
      (NNode.elem n a children :: ns, r)
  | fuel + 1, parent, Tok.closeTag n :: rest =>
    if n = parent then ([], rest)
    else if parent = chars "P" && n ∈ pClosingTags then
      ([], Tok.closeTag n :: rest)
    else if parent = chars "LI" && (n = chars "OL" || n = chars "UL") then
      ([], Tok.closeTag n :: rest)
    else if n = chars "P" then
      let (ns, r) := buildNodes fuel parent rest
      (NNode.elem (chars "P") [] [] :: ns, r)
    else
      buildNodes fuel parent rest

/-- Modelled from the spec (external standard parser): parse an HTML fragment
string into a node forest, as `DOMParser.parseFromString` /
`innerHTML` assignment produce for content in body context. -/
def parseHtmlFragment (s : Str) : List NNode :=
  let toks := tokenize s.length s
  (buildNodes (4 * toks.length + 8) (chars "BODY") toks).1

/-- A `<p[^>]*>` open-tag match (case-insensitive) starting at the head of
the input, returning the matched characters and the remainder.  `[^>]*`
cannot pass a `>`, so the match always ends at the first `>`. -/
def pOpenSplit : Str → Option (Str × Str)
  | '<' :: c :: rest =>
    if lowerChar c = 'p' then
      match takeThruGt rest with
      | some (mid, r) => some ('<' :: c :: mid, r)
      | none => none
    else none
  | _ => none

/-- A `<h[12][^>]*>` open-tag match (case-insensitive) starting at the head
of the input. -/
def hOpenSplit : Str → Option (Str × Str)
  | '<' :: c :: d :: rest =>
    if lowerChar c = 'h' && (d = '1' || d = '2') then
      match takeThruGt rest with
      | some (mid, r) => some ('<' :: c :: d :: mid, r)
      | none => none
    else none
  | _ => none

/-- A `<br\s*\/?>` match (case-insensitive) starting at the head of the
input. -/
def brFullSplit : Str → Option (Str × Str)
  | '<' :: rest =>
    (match brTagRestTake rest with
     | some (m, r) => some ('<' :: m, r)
     | none => none)
  | _ => none

/-- A `<\/?(?:h1|h2|p|br)[^>]*>` match (case-insensitive) starting at the
head of the input (the tag pattern of the trailing-whitespace cleanup pass).
The name alternatives are mutually exclusive on any given input, so the
regex alternation is deterministic. -/
def wsTagSplit (s : Str) : Option (Str × Str) :=
  match s with
  | '<' :: rest =>
    let sl : Str × Str :=
      match rest with
      | '/' :: r => (['/'], r)
      | _ => ([], rest)
    let nm : Option (Str × Str) :=
      match dropCi (chars "h1") sl.2 with
      | some r => some (sl.2.take 2, r)
      | none =>
        match dropCi (chars "h2") sl.2 with
        | some r => some (sl.2.take 2, r)
        | none =>
          match dropCi (chars "p") sl.2 with
          | some r => some (sl.2.take 1, r)
          | none =>
            match dropCi (chars "br") sl.2 with
            | some r => some (sl.2.take 2, r)
            | none => none
    match nm with
    | some (nmc, rest2) =>
      (match takeThruGt rest2 with
       | some (mid, r) => some ('<' :: sl.1 ++ nmc ++ mid, r)
       | none => none)
    | none => none
  | _ => none

/-- The interior of the empty-paragraph pattern
`<p>(?:\s|&nbsp;|<br\s*\/?>)*<\/p>` (case-insensitive), entered just after
the `<p>`: consume whitespace, `&nbsp;` entities and `br` tags until the
closing `</p>`.  The star is deterministic: no alternative overlaps with the
closing tag. -/
def emptyParaInner : Nat → Str → Option Str
  | 0, _ => none
  | fuel + 1, s =>
    match s with
    | [] => none
    | c :: r =>
      if isJsWs c then emptyParaInner fuel r
      else if c = '&' then
        match dropCi (chars "nbsp;") r with
        | some r' => emptyParaInner fuel r'
        | none => none
      else if c = '<' then
        match dropCi (chars "/p>") r with
        | some rest => some rest
        | none =>
          match brTagRest r with
          | some r' => emptyParaInner fuel r'
          | none => none
      else none

/-- Model of `.replace(/<p>(?:\s|&nbsp;|<br\s*\/?>)*<\/p>/gi, "")` — the
empty-paragraph removal pass of `cleanupOutput`.  A global regex replace is a
single left-to-right scan; after a removal the scan continues at the first
unconsumed character. -/
def removeEmptyParas : Nat → Str → Str
  | 0, s => s
  | _ + 1, [] => []
  | fuel + 1, c :: rest =>
    if c = '<' then
      match dropCi (chars "p>") rest with
      | some inner =>
        (match emptyParaInner fuel inner with
         | some r => removeEmptyParas fuel r
         | none => c :: removeEmptyParas fuel rest)
      | none => c :: removeEmptyParas fuel rest
    else c :: removeEmptyParas fuel rest

/-- Model of `.replace(/(TAG)(\s+)/gi, "$1")` for a tag matcher `m`: emit
each match verbatim and drop the whitespace run that follows it.  When a
matched tag is not followed by whitespace the regex has no match there, but
emitting the tag unchanged and continuing after it is equivalent: a later
match cannot start inside the matched tag (for the `p`/`h` matchers any
nested `<` leads to the same closing `>` and hence the same failing
whitespace test; the `br` matcher admits no interior `<`). -/
def delWsAfter (m : Str → Option (Str × Str)) : Nat → Str → Str
  | 0, s => s
  | _ + 1, [] => []
  | fuel + 1, c :: rest =>
    match m (c :: rest) with
    | some (tag, r) => tag ++ delWsAfter m fuel (r.dropWhile isJsWs)
    | none => c :: delWsAfter m fuel rest

/-- Model of `.replace(/\s+(<\/?(?:h1|h2|p|br)[^>]*>)/gi, "$1")`: a maximal
whitespace run directly followed by one of the listed tags is dropped and the
tag emitted verbatim; shorter sub-runs cannot match (the pattern then faces a
whitespace character where `<` is required), so on failure the scan advances
one character, as the regex engine does. -/
def delWsBeforeTag : Nat → Str → Str
  | 0, s => s
  | _ + 1, [] => []
  | fuel + 1, c :: rest =>
    if isJsWs c then
      match wsTagSplit ((c :: rest).dropWhile isJsWs) with
      | some (tag, r) => tag ++ delWsBeforeTag fuel r
      | none => c :: delWsBeforeTag fuel rest
    else c :: delWsBeforeTag fuel rest

/-- Model of `cleanupOutput` from the source: remove empty paragraphs, trim
whitespace after `p`/`h1`/`h2` open tags and after `br` tags, trim whitespace
before `h1`/`h2`/`p`/`br` tags, and trim the ends. -/
def cleanupOutput (markup : Str) : Str :=
  let s1 := removeEmptyParas markup.length markup
  let s2 := delWsAfter pOpenSplit s1.length s1
  let s3 := delWsAfter hOpenSplit s2.length s2
  let s4 := delWsAfter brFullSplit s3.length s3
  let s5 := delWsBeforeTag s4.length s4
  trimJs s5

/-- Modelled from the spec (§3, §6): the diagnostic record.  The diagnostic
trail is absent from `src/lib/keepFormatter.ts`; kinds and payload shapes
follow the spec's interface section and the repository's test suite
(`from`/`to` are lower-case tag names such as `"h3"`, `tag` is the
lower-cased element name, `depth` the nesting level of the flattened
sublist). -/
inductive Diag where
  | unsupportedTag (tag : Str) (snippet : Str)
  | removedElement (tag : Str)
  | downgradedHeading (fromLevel : Str) (toLevel : Str)
  | listFlattened (depth : Nat)
deriving DecidableEq

/-- The inline tag mapping table from the source. -/
def inlineTagMap (tag : Str) : Option Str :=
  if tag = chars "B" || tag = chars "STRONG" then some (chars "b")
  else if tag = chars "I" || tag = chars "EM" then some (chars "i")
  else if tag = chars "U" then some (chars "u")
  else none

/-- The block-container tag set from the source. -/
def blockTags : List Str :=
  [chars "P", chars "DIV", chars "SECTION", chars "ARTICLE", chars "HEADER",
   chars "FOOTER", chars "H1", chars "H2", chars "BR", chars "OL", chars "UL"]

/-- The test `/^H[1-6]$/` from the source, returning the level. -/
def headingLevel (tag : Str) : Option Nat :=
  match tag with
  | ['H', c] => if '1' ≤ c && c ≤ '6' then some (c.toNat - 48) else none
  | _ => none

/-- `"&nbsp;".repeat(depth * 4)` for positive depth (list indentation). -/
def nbspIndent (depth : Nat) : Str :=
  if 0 < depth then (List.replicate (depth * 4) (chars "&nbsp;")).flatten else []

/-- Direct `li` element test (`child.tagName === "LI"` on the list's element
children). -/
def isLiElem : NNode → Bool
  | .elem tag _ _ => tag = chars "LI"
  | _ => false

/-- Nested-sublist test on a list item's direct children. -/
def isNestedListElem : NNode → Bool
  | .elem tag _ _ => tag = chars "OL" || tag = chars "UL"
  | _ => false

/-- Modelled from the spec (external standard serializer): text escaping of
the `innerHTML` serialization (`&`, non-breaking space, `<`, `>`). -/
def escapeTextHtml (s : Str) : Str :=
  s.flatMap (fun c =>
    if c = '&' then chars "&amp;"
    else if c = '\u00a0' then chars "&nbsp;"
    else if c = '<' then chars "&lt;"
    else if c = '>' then chars "&gt;"
    else [c])

/-- Modelled from the spec (external standard serializer): attribute-value
escaping of the `innerHTML` serialization (`&`, non-breaking space, `"`). -/
def escapeAttrHtml (s : Str) : Str :=
  s.flatMap (fun c =>
    if c = '&' then chars "&amp;"
    else if c = '\u00a0' then chars "&nbsp;"
    else if c = '"' then chars "&quot;"
    else [c])

/-- Serialize an attribute list as `innerHTML` does. -/
def renderAttrs : List (Str × Str) → Str
  | [] => []
  | (n, v) :: rest =>
    ' ' :: (n ++ chars "=\"" ++ escapeAttrHtml v ++ chars "\"") ++ renderAttrs rest

mutual

/-- Modelled from the spec (external standard serializer): the `innerHTML`
serialization of a node — lower-case tag names, attributes in order, void
elements without end tag. -/
def renderNode : NNode → Str
  | .text s => escapeTextHtml s
  | .elem t a ch =>
    let tl := lowerStr t
    if t ∈ voidTags then '<' :: (tl ++ renderAttrs a) ++ ['>']
    else
      '<' :: (tl ++ renderAttrs a) ++ ['>'] ++ renderForest ch ++
        ('<' :: '/' :: tl ++ ['>'])

/-- `innerHTML` serialization of a node forest. -/
def renderForest : List NNode → Str
  | [] => []
  | n :: rest => renderNode n ++ renderForest rest

end

/-- Modelled from the spec (§4.1): the `unsupported-tag` snippet is the
truncated outer markup of the element.  The truncation length is unspecified
and no claim depends on it; the element's `innerHTML`-style outer markup
truncated to 40 characters is used. -/
def snippetOf (tag : Str) (attrs : List (Str × Str)) (children : List NNode) : Str :=
  (renderNode (.elem tag attrs children)).take 40

mutual

/-- Model of `serializeNode` from the source, paired with the diagnostics
trail modelled from the spec (§4.1): `removed-element` for script/style,
`downgraded-heading` for source levels 3–6, `unsupported-tag` for elements
outside every known set (a known block container in inline position is
transparent and records nothing); a parent's diagnostic precedes its
children's (document pre-order). -/
def serializeNode : NNode → Bool → Nat → Str × List Diag
  | .text s, _, _ => (escapeHtml (collapseWs s), [])
  | .elem tag attrs children, inlineContext, depth =>
    if tag = chars "SCRIPT" || tag = chars "STYLE" then
      ([], [Diag.removedElement (lowerStr tag)])
    else
      match inlineTagMap tag with
      | some t =>
        let inner := serializeChildren children true depth
        (if inner.1 = [] then []
         else chars "<" ++ t ++ chars ">" ++ inner.1 ++ chars "</" ++ t ++ chars ">", inner.2)
      | none =>
        match headingLevel tag with
        | some lvl =>
          let level := if lvl = 1 then chars "h1" else chars "h2"
          let inner := serializeChildren children true depth
          let ds := if 3 ≤ lvl then
              Diag.downgradedHeading (lowerStr tag) (chars "h2") :: inner.2
            else inner.2
          (if inner.1 = [] then []
           else chars "<" ++ level ++ chars ">" ++ inner.1 ++ chars "</" ++ level ++ chars ">", ds)
        | none =>
          if tag = chars "BR" then (chars "<br />", [])
          else if tag = chars "OL" || tag = chars "UL" then
            if children.any isLiElem then
              convertItems (tag = chars "OL") depth
                (if tag = chars "OL" then
                   jsParseInt ((getAttr attrs (chars "start")).getD (chars "1"))
                 else some 1)
                children
            else ([], [])
          else if tag ∈ blockTags && !inlineContext then
            let inner := serializeChildren children false depth
            (wrapParagraph inner.1, inner.2)
          else
            let inner := serializeChildren children inlineContext depth
            let ds := if tag ∈ blockTags then inner.2
                      else Diag.unsupportedTag (lowerStr tag) (snippetOf tag attrs children) :: inner.2
            (if inlineContext then inner.1 else wrapParagraph inner.1, ds)

/-- Model of `serializeChildren` from the source: serialize each child and
join the fragments (diagnostics concatenate in document order). -/
def serializeChildren : List NNode → Bool → Nat → Str × List Diag
  | [], _, _ => ([], [])
  | n :: rest, ic, d =>
    let h := serializeNode n ic d
    let t := serializeChildren rest ic d
    (h.1 ++ t.1, h.2 ++ t.2)

/-- Model of the `items.forEach` loop of `convertList`: walk the list
element's children, skipping non-`li` children; for each `li`, emit one
paragraph (indent, numeric or dash prefix, inline content of the non-sublist
children with `&nbsp;` as placeholder for empty content), then the flattened
nested sublists, then the remaining items with the counter advanced by one.
Modelled from the spec (§3, §4.2 precise formulation): each item that is
itself found inside a sublist of depth ≥ 1 contributes one
`list-flattened { depth }` diagnostic, tagged with that sublist's depth. -/
def convertItems : Bool → Nat → Option Int → List NNode → Str × List Diag
  | _, _, _, [] => ([], [])
  | isOrdered, depth, cur, child :: rest =>
    match child with
    | .elem tag _ liKids =>
      if tag = chars "LI" then
        let inl := inlineNonList liKids depth
        let inlT := trimJs inl.1
        let pfx := if isOrdered then renderCounter cur ++ chars ". " else chars "- "
        let lineContent := if inlT = [] then chars "&nbsp;" else inlT
        let line := chars "<p>" ++ nbspIndent depth ++ pfx ++ lineContent ++ chars "</p>"
        let itemDiags := if 1 ≤ depth then [Diag.listFlattened depth] else []
        let nested := nestedListsOut liKids depth
        let restOut := convertItems isOrdered depth (bumpCounter cur) rest
        (line ++ nested.1 ++ restOut.1, itemDiags ++ inl.2 ++ nested.2 ++ restOut.2)
      else convertItems isOrdered depth cur rest
    | .text _ => convertItems isOrdered depth cur rest

/-- Inline serialization of a list item's direct children, skipping nested
sublists (they are handled by `nestedListsOut`); children are serialized with
`inlineContext = true` at the current depth, as in the source. -/
def inlineNonList : List NNode → Nat → Str × List Diag
  | [], _ => ([], [])
  | child :: rest, depth =>
    if isNestedListElem child then inlineNonList rest depth
    else
      let h := serializeNode child true depth
      let t := inlineNonList rest depth
      (h.1 ++ t.1, h.2 ++ t.2)

/-- Flatten the nested sublists among a list item's direct children at depth
+ 1, appending their paragraphs after the parent item's paragraph.  Per the
spec's precise formulation (§4.2 step 4), `list-flattened` is recorded per
flattened *item* (in `convertItems`), not once per sublist invocation, so the
recursion here contributes only its items' own diagnostics. -/
def nestedListsOut : List NNode → Nat → Str × List Diag
  | [], _ => ([], [])
  | child :: rest, depth =>
    match child with
    | .elem tag attrs ch =>
      if tag = chars "OL" || tag = chars "UL" then
        let sub :=
          if ch.any isLiElem then
            convertItems (tag = chars "OL") (depth + 1)
              (if tag = chars "OL" then
                 jsParseInt ((getAttr attrs (chars "start")).getD (chars "1"))
               else some 1)
              ch
          else ([], [])
        let t := nestedListsOut rest depth
        (sub.1 ++ t.1, sub.2 ++ t.2)
      else
        let t := nestedListsOut rest depth
        t
    | .text _ => nestedListsOut rest depth

end

/-- Model of `convertList` from the source, as invoked by `serializeNode` on
an `ol`/`ul` element: no direct `li` children produces nothing; otherwise the
counter starts at the parsed `start` attribute (default `"1"`) for ordered
lists and the items are flattened by `convertItems`. -/
def convertList (isOrdered : Bool) (depth : Nat) (attrs : List (Str × Str))
    (children : List NNode) : Str × List Diag :=
  if children.any isLiElem then
    convertItems isOrdered depth
      (if isOrdered then jsParseInt ((getAttr attrs (chars "start")).getD (chars "1"))
       else some 1)
      children
  else ([], [])

/-- A `</p>`, `</ol>` or `</ul>` close-tag match (case-insensitive) starting
at the head of the input (the trigger of the heading-separator injection). -/
def closePOUSplit (s : Str) : Option (Str × Str) :=
  match s with
  | '<' :: rest =>
    (match dropCi (chars "/p>") rest with
     | some r => some (s.take 4, r)
     | none =>
       match dropCi (chars "/ol>") rest with
       | some r => some (s.take 5, r)
       | none =>
         match dropCi (chars "/ul>") rest with
         | some r => some (s.take 5, r)
         | none => none)
  | _ => none

/-- Scan of `.replace(/(<\/(?:p|ol|ul)>)(\s*)(<h[12][^>]*>)/gi,
"$1<p>&nbsp;</p>$2$3")`: after each matched close tag followed (across
optional whitespace) by a heading open tag, a `<p>&nbsp;</p>` separator is
inserted between the close tag and the whitespace.  A match cannot start
inside a matched region (close tags contain no interior `<`; the scan resumes
after the heading tag exactly as the regex engine does). -/
def injectSepGo : Nat → Str → Str
  | 0, s => s
  | _ + 1, [] => []
  | fuel + 1, c :: rest =>
    match closePOUSplit (c :: rest) with
    | some (tag, rest1) =>
      let ws := rest1.takeWhile isJsWs
      (match hOpenSplit (rest1.dropWhile isJsWs) with
       | some (htag, rest3) =>
         tag ++ chars "<p>&nbsp;</p>" ++ ws ++ htag ++ injectSepGo fuel rest3
       | none => tag ++ injectSepGo fuel rest1)
    | none => c :: injectSepGo fuel rest

/-- Model of `injectHeadingSeparators` from the source: the global separator
insertion above, then `.replace(/^(\s*<h[12][^>]*>)/i, "<p>&nbsp;</p>$1")`
prepends a separator when the markup starts with a heading. -/
def injectHeadingSeparators (markup : Str) : Str :=
  let u := injectSepGo markup.length markup
  match hOpenSplit (u.dropWhile isJsWs) with
  | some _ => chars "<p>&nbsp;</p>" ++ u
  | none => u

/-- Model of `.replace(/<br\s*\/?>/gi, "\n")`. -/
def replaceBrNl : Nat → Str → Str
  | 0, s => s
  | _ + 1, [] => []
  | fuel + 1, c :: rest =>
    match brFullSplit (c :: rest) with
    | some (_, r) => '\n' :: replaceBrNl fuel r
    | none => c :: replaceBrNl fuel rest

/-- Model of `.replace(/<\/p>/gi, "\n")`. -/
def replaceClosePNl : Nat → Str → Str
  | 0, s => s
  | _ + 1, [] => []
  | fuel + 1, '<' :: rest =>
    (match dropCi (chars "/p>") rest with
     | some r => '\n' :: replaceClosePNl fuel r
     | none => '<' :: replaceClosePNl fuel rest)
  | fuel + 1, c :: rest => c :: replaceClosePNl fuel rest

/-- Model of `.replace(/<\/h[12]>/gi, "\n")`. -/
def replaceCloseHNl : Nat → Str → Str
  | 0, s => s
  | _ + 1, [] => []
  | fuel + 1, '<' :: rest =>
    (match dropCi (chars "/h1>") rest with
     | some r => '\n' :: replaceCloseHNl fuel r
     | none =>
       match dropCi (chars "/h2>") rest with
       | some r => '\n' :: replaceCloseHNl fuel r
       | none => '<' :: replaceCloseHNl fuel rest)
  | fuel + 1, c :: rest => c :: replaceCloseHNl fuel rest

/-- Modelled from the spec / test setup: `innerText` of a detached element
equals its `textContent` (the repository's test shim defines exactly this),
and `textContent` after an `innerHTML` assignment is the markup with tags
dropped and character references decoded.  A `<` opening a tag (letter, `/`
or `!` next) is skipped to the closing `>` (dropped entirely when
unterminated at end of input); any other `<` is literal text. -/
def textContentOfHtml : Nat → Str → Str
  | 0, _ => []
  | _ + 1, [] => []
  | fuel + 1, '<' :: rest =>
    (match rest with
     | c :: _ =>
       if isAlphaCh c || c = '/' || c = '!' then
         match dropToGt rest with
         | some r => textContentOfHtml fuel r
         | none => []
       else '<' :: textContentOfHtml fuel rest
     | [] => ['<'])
  | fuel + 1, '&' :: rest =>
    (match decodeEntity rest with
     | some (ch, r) => ch :: textContentOfHtml fuel r
     | none => '&' :: textContentOfHtml fuel rest)
  | fuel + 1, c :: rest => c :: textContentOfHtml fuel rest

/-- Model of `String.split("\n")`: trailing empty pieces are kept, the empty
string yields one empty piece. -/
def splitNl : Str → List Str
  | [] => [[]]
  | '\n' :: rest => [] :: splitNl rest
  | c :: rest =>
    match splitNl rest with
    | l :: ls => (c :: l) :: ls
    | [] => [[c]]

/-- Model of `Array.join("\n")`. -/
def joinNl : List Str → Str
  | [] => []
  | [l] => l
  | l :: ls => l ++ '\n' :: joinNl ls

/-- Per-line normalization from `markupToPlainText`: a line starting with
four literal spaces (preserved list indentation) is kept; otherwise leading
whitespace is stripped (`.replace(/^\s+/, "")`). -/
def normLine (line : Str) : Str :=
  if line.take 4 = chars "    " then line else line.dropWhile isJsWs

/-- Model of `.replace(/\n{2,}/g, "\n\n")`: runs of two or more newlines
collapse to exactly two. -/
def collapseNl : Nat → Str → Str
  | 0, s => s
  | _ + 1, [] => []
  | fuel + 1, '\n' :: rest =>
    (if rest.takeWhile (· = '\n') = [] then ['\n'] else ['\n', '\n']) ++
      collapseNl fuel (rest.dropWhile (· = '\n'))
  | fuel + 1, c :: rest => c :: collapseNl fuel rest

/-- Model of `markupToPlainText` from the source: inject heading separators,
turn `br` and the `p`/`h` close tags into newlines, take the text content,
normalize non-breaking spaces to spaces, strip leading whitespace of
non-indented lines, collapse blank-line runs, and trim. -/
def markupToPlainText (markup : Str) : Str :=
  if markup = [] then []
  else
    let injected := injectHeadingSeparators markup
    let s1 := replaceBrNl injected.length injected
    let s2 := replaceClosePNl s1.length s1
    let s3 := replaceCloseHNl s2.length s2
    let textContent := replaceNbsp (textContentOfHtml s3.length s3)
    let normalizedLines := joinNl ((splitNl textContent).map normLine)
    trimJs (collapseNl normalizedLines.length normalizedLines)

/-- The fixed block style of the clipboard projection (source constant). -/
def KEEP_BLOCK_STYLE : Str := chars "line-height:1.38;margin-top:0pt;margin-bottom:0pt;"

/-- The body-text span style of the clipboard projection (source constant). -/
def KEEP_TEXT_BASE : Str :=
  chars "font-size:11pt;font-family:\x27Google Sans Text\x27;color:#000000;background-color:transparent;font-weight:400;font-style:normal;font-variant:normal;text-decoration:none;vertical-align:baseline;white-space:pre;white-space:pre-wrap;"

/-- The heading-1 span style of the clipboard projection (source constant). -/
def KEEP_H1_TEXT : Str :=
  chars "font-size:15pt;font-family:\x27Google Sans\x27;color:#000000;background-color:transparent;font-weight:400;font-style:normal;font-variant:normal;text-decoration:none;vertical-align:baseline;white-space:pre;white-space:pre-wrap;"

/-- The heading-2 span style of the clipboard projection (source constant). -/
def KEEP_H2_TEXT : Str :=
  chars "font-size:13.5pt;font-family:\x27Google Sans\x27;color:#000000;background-color:transparent;font-weight:400;font-style:normal;font-variant:normal;text-decoration:none;vertical-align:baseline;white-space:pre;white-space:pre-wrap;"

/-- The block kinds decorated by the clipboard projection
(`querySelectorAll("p,h1,h2")`). -/
def keepBlockTags : List Str := [chars "P", chars "H1", chars "H2"]

/-- Span style selected by block kind. -/
def spanStyleFor (tag : Str) : Str :=
  if tag = chars "H1" then KEEP_H1_TEXT
  else if tag = chars "H2" then KEEP_H2_TEXT
  else KEEP_TEXT_BASE

mutual

/-- The mutation performed by `convertToKeepClipboardHtml` on each
`p`/`h1`/`h2` block: set `dir="ltr"` and the fixed block style, and move the
block's children into a single styled span (`wrapChildrenWithSpan`); other
nodes are kept, with the transformation applied below them. -/
def keepTransform : NNode → NNode
  | .text s => .text s
  | .elem t a ch =>
    if t ∈ keepBlockTags then
      NNode.elem t [(chars "dir", chars "ltr"), (chars "style", KEEP_BLOCK_STYLE)]
        [NNode.elem (chars "SPAN") [(chars "style", spanStyleFor t)] (keepTransformL ch)]
    else NNode.elem t a (keepTransformL ch)

/-- `keepTransform` over a node list. -/
def keepTransformL : List NNode → List NNode
  | [] => []
  | n :: rest => keepTransform n :: keepTransformL rest

end

/-- Model of `convertToKeepClipboardHtml` from the source: empty markup stays
empty; otherwise the cleaned markup is re-parsed (wrapped in a container
div), every `p`/`h1`/`h2` block is decorated and its children wrapped in a
styled span, and the body is re-serialized. -/
def convertToKeepClipboardHtml (markup : Str) : Str :=
  if markup = [] then []
  else
    renderForest (keepTransformL
      (parseHtmlFragment (chars "<div>" ++ markup ++ chars "</div>")))

/-- The conversion result record.  The `html`/`keepHtml`/`plainText` fields
follow the source's `ConvertedMarkup`; the `diagnostics` field is modelled
from the spec's interface (§6), being absent from the source under `src/`. -/
structure ConvertedMarkup where
  html : Str
  keepHtml : Str
  plainText : Str
  diagnostics : List Diag
deriving DecidableEq

/-- Model of `convertRichTextToKeepMarkup` from the source: normalize
non-breaking spaces, short-circuit to the all-empty result when the
tag-stripped text trims to nothing, otherwise parse the wrapped input,
serialize the body children, clean the output and derive the clipboard and
plain-text projections. -/
def convertRichTextToKeepMarkup (rawHtml : Str) : ConvertedMarkup :=
  let normalizedInput := replaceNbsp rawHtml
  let textOnly := trimJs (stripTags normalizedInput)
  if textOnly = [] then
    { html := [], keepHtml := [], plainText := [], diagnostics := [] }
  else
    let bodyNodes := parseHtmlFragment (chars "<div>" ++ normalizedInput ++ chars "</div>")
    let fragments := serializeChildren bodyNodes false 0
    let cleanHtml := cleanupOutput fragments.1
    { html := cleanHtml,
      keepHtml := convertToKeepClipboardHtml cleanHtml,
      plainText := markupToPlainText cleanHtml,
      diagnostics := fragments.2 }

/-- Substring test (the `toContain` assertions of the test suite): does
`needle` occur contiguously in `hay`? -/
def containsStr : Str → Str → Bool
  | [], needle => needle.isEmpty
  | c :: rest, needle => needle.isPrefixOf (c :: rest) || containsStr rest needle

/-- The paragraph a single ordered/unordered list item contributes, numbered
by the given counter value, followed by its flattened nested sublists — the
loop body of `convertItems` for one `li`, written per the spec's description
(§4.2 steps 1–4) for comparison with the counter-threading loop. -/
def listItemFlat (isOrdered : Bool) (depth : Nat) (cur : Option Int) : NNode → Str
  | .elem _ _ liKids =>
    let inlT := trimJs (inlineNonList liKids depth).1
    chars "<p>" ++ nbspIndent depth ++
      (if isOrdered then renderCounter cur ++ chars ". " else chars "- ") ++
      (if inlT = [] then chars "&nbsp;" else inlT) ++ chars "</p>" ++
      (nestedListsOut liKids depth).1
  | .text _ => []

/-- Number of `list-flattened` diagnostics of a given depth in a
conversion's trail. -/
def countListFlattened (ds : List Diag) (depth : Nat) : Nat :=
  (ds.filter (fun d => d = Diag.listFlattened depth)).length

/-- A plain text character: not a tag opener, not an entity opener, not a
newline, not whitespace. -/
def plainCh (c : Char) : Bool :=
  decide (c ≠ '<') && decide (c ≠ '&') && decide (c ≠ '\n') && !(isJsWs c)

/-- The closed vocabulary of tag literals the serializer can emit into the
`html` output: paragraph, the two heading levels, the three inline tags and
the self-closed break. -/
def rsLits : List Str :=
  [['<', 'p', '>'], ['<', '/', 'p', '>'], ['<', 'h', '1', '>'], ['<', '/', 'h', '1', '>'],
   ['<', 'h', '2', '>'], ['<', '/', 'h', '2', '>'], ['<', 'b', '>'], ['<', '/', 'b', '>'],
   ['<', 'i', '>'], ['<', '/', 'i', '>'], ['<', 'u', '>'], ['<', '/', 'u', '>'],
   ['<', 'b', 'r', ' ', '/', '>']]

/-- Strings over the restricted output grammar: concatenations of characters
other than `<` and of the tag literals of `rsLits`.  Every serializer
fragment satisfies this invariant and the cleanup passes preserve it. -/
inductive Rs : Str → Prop where
  | nil : Rs []
  | chr {c : Char} {s : Str} : c ≠ '<' → Rs s → Rs (c :: s)
  | tag {t s : Str} : t ∈ rsLits → Rs s → Rs (t ++ s)

/-- The eight heading tags outside the restricted grammar (open and close
forms of levels 3–6); the claim is that none of them ever occurs in the
`html` output. -/
def badHeadingTags : List Str :=
  [['<', 'h', '3'], ['<', 'h', '4'], ['<', 'h', '5'], ['<', 'h', '6'],
   ['<', '/', 'h', '3'], ['<', '/', 'h', '4'], ['<', '/', 'h', '5'], ['<', '/', 'h', '6']]

/-- Residual-match detector for the empty-paragraph pass: does the
left-to-right scan of `removeEmptyParas` still find a
`<p>(?:\s|&nbsp;|<br\s*\/?>)*<\/p>` match anywhere? -/
def hasEmptyPara : Nat → Str → Bool
  | 0, _ => false
  | _ + 1, [] => false
  | fuel + 1, c :: rest =>
    if c = '<' then
      match dropCi (chars "p>") rest with
      | some inner =>
        (match emptyParaInner fuel inner with
         | some _ => true
         | none => hasEmptyPara fuel rest)
      | none => hasEmptyPara fuel rest
    else hasEmptyPara fuel rest

/-- Residual-match detector for a `(TAG)(\s+)` cleanup pass with tag matcher
`m`: is some matched tag directly followed by whitespace? -/
def hasWsAfter (m : Str → Option (Str × Str)) : Nat → Str → Bool
  | 0, _ => false
  | _ + 1, [] => false
  | fuel + 1, c :: rest =>
    match m (c :: rest) with
    | some (_, r) => if r.dropWhile isJsWs = r then hasWsAfter m fuel r else true
    | none => hasWsAfter m fuel rest

/-- Residual-match detector for the `\s+(TAG)` cleanup pass: is some
whitespace run directly followed by one of the listed tags? -/
def hasWsBefore : Nat → Str → Bool
  | 0, _ => false
  | _ + 1, [] => false
  | fuel + 1, c :: rest =>
    if isJsWs c then
      match wsTagSplit ((c :: rest).dropWhile isJsWs) with
      | some _ => true
      | none => hasWsBefore fuel rest
    else hasWsBefore fuel rest

/-- The last character of a non-empty string, threaded with a default. -/
def lastCh : Char → Str → Char
  | d, [] => d
  | _, c :: rest => lastCh c rest

/-- Neither end of the string carries JS whitespace (so `trim` is the
identity). -/
def noEdgeWs : Str → Bool
  | [] => true
  | c :: rest => !isJsWs c && !isJsWs (lastCh c rest)

/-- The inline formatting tags that may occur inside a cleaned paragraph or
heading (emitted by the serializer for `b`/`strong`, `i`/`em`, `u`). -/
def inlineLits : List Str :=
  [['<', 'b', '>'], ['<', '/', 'b', '>'], ['<', 'i', '>'], ['<', '/', 'i', '>'],
   ['<', 'u', '>'], ['<', '/', 'u', '>']]

/-- The character references occurring in cleaned markup (the escape set of
the serializer plus the non-breaking space). -/
def entityLits : List Str :=
  [['&', 'a', 'm', 'p', ';'], ['&', 'l', 't', ';'], ['&', 'g', 't', ';'],
   ['&', 'q', 'u', 'o', 't', ';'], ['&', 'n', 'b', 's', 'p', ';']]

/-- Inline content of a cleaned paragraph or heading: ordinary characters
(no tag opener, no bare `&`, no newline), inline formatting tags, and the
standard character references, in any arrangement. -/
inductive SegOk : Str → Prop where
  | nil : SegOk []
  | chr {c : Char} {s : Str} :
      c ≠ '<' → c ≠ '&' → c ≠ '\n' → SegOk s → SegOk (c :: s)
  | tag {t s : Str} : t ∈ inlineLits → SegOk s → SegOk (t ++ s)
  | ent {t s : Str} : t ∈ entityLits → SegOk s → SegOk (t ++ s)

/-- Literal-prefix matcher: if `s` starts with `t`, return the remainder. -/
def dropLit (t : Str) (s : Str) : Option Str :=
  if s.take t.length = t then some (s.drop t.length) else none

/-- First literal of the list that prefixes `s`, with the remainder. -/
def dropAnyLit : List Str → Str → Option Str
  | [], _ => none
  | t :: ts, s =>
    match dropLit t s with
    | some r => some r
    | none => dropAnyLit ts s

/-- Fueled decision procedure for `SegOk` (used to discharge concrete
side conditions). -/
def segOkB : Nat → Str → Bool
  | 0, s => s.isEmpty
  | _ + 1, [] => true
  | f + 1, c :: rest =>
    if c = '<' then
      match dropAnyLit inlineLits (c :: rest) with
      | some r => segOkB f r
      | none => false
    else if c = '&' then
      match dropAnyLit entityLits (c :: rest) with
      | some r => segOkB f r
      | none => false
    else if c = '\n' then false
    else segOkB f rest

/-- A block of cleaned markup: a paragraph with inline content `a`, or a
heading of digit `d` with attribute characters `t` and inline content `b`. -/
inductive PBlock where
  | para (a : Str)
  | heading (d : Char) (t : Str) (b : Str)

/-- The markup of a block. -/
def blockHtml : PBlock → Str
  | .para a => '<' :: 'p' :: '>' :: (a ++ ('<' :: '/' :: 'p' :: '>' :: []))
  | .heading d t b =>
    '<' :: 'h' :: d :: (t ++ '>' :: (b ++ ('<' :: '/' :: 'h' :: d :: '>' :: [])))

/-- The markup of a block sequence. -/
def blocksHtml : List PBlock → Str
  | [] => []
  | b :: bs => blockHtml b ++ blocksHtml bs

/-- Heading test. -/
def isHeadingB : PBlock → Bool
  | .heading _ _ _ => true
  | .para _ => false

/-- The inline markup of a block. -/
def blockSeg : PBlock → Str
  | .para a => a
  | .heading _ _ b => b

/-- The text line a block contributes to the plain-text projection: the text
content of its inline markup, with non-breaking spaces replaced by plain
spaces. -/
def blockLine (b : PBlock) : Str :=
  replaceNbsp (textContentOfHtml (blockSeg b).length (blockSeg b))

/-- The lines of the blocks after the first, each preceded by its separator:
a blank line (two newlines) before a heading that directly follows a
non-heading block, a single newline otherwise. -/
def blocksTextGo : PBlock → List PBlock → Str
  | _, [] => []
  | prev, b :: bs =>
    (if isHeadingB b && !isHeadingB prev then '\n' :: '\n' :: [] else '\n' :: []) ++
      blockLine b ++ blocksTextGo b bs

/-- The plain-text core of a block sequence: the block lines joined with the
separators above, plus a leading newline when the sequence starts with a
heading (the trace of the separator paragraph injected at the start of the
markup, removed again by the final trim). -/
def blocksTextCore : List PBlock → Str
  | [] => []
  | b :: bs =>
    (if isHeadingB b then ['\n'] else []) ++ blockLine b ++ blocksTextGo b bs

/-- The separator paragraph `<p>&nbsp;</p>` injected before headings. -/
def sepBlock : PBlock := PBlock.para ['&', 'n', 'b', 's', 'p', ';']

/-- Separator-paragraph injection as performed by the global replace of
`injectHeadingSeparators`: a separator paragraph before every heading that
directly follows a paragraph. -/
def injSeps : List PBlock → List PBlock
  | [] => []
  | .heading d t b :: bs => .heading d t b :: injSeps bs
  | [.para a] => [.para a]
  | .para a :: .heading d t b :: bs' =>
    .para a :: sepBlock :: .heading d t b :: injSeps bs'
  | .para a :: .para a2 :: bs' => .para a :: injSeps (.para a2 :: bs')

/-- Separator-paragraph injection including the start-of-markup rule: an
additional separator paragraph when the sequence starts with a heading. -/
def withSeps (bs : List PBlock) : List PBlock :=
  match bs with
  | .heading _ _ _ :: _ => sepBlock :: injSeps bs
  | _ => injSeps bs

/-- Structural well-formedness of a block as the scanners need it: inline
content is `SegOk`, heading digits are `1` or `2`, and heading attribute
characters contain no `>` or `<`. -/
def EBlockOk : PBlock → Prop
  | .para a => SegOk a
  | .heading d t b =>
    (d = '1' ∨ d = '2') ∧ (∀ c ∈ t, c ≠ '>' ∧ c ≠ '<') ∧ SegOk b

/-- Well-formedness of a cleaned block for the plain-text projection:
`EBlockOk`, plus a non-empty text line that the per-line normalization
leaves unchanged. -/
def BlockWF (b : PBlock) : Prop :=
  EBlockOk b ∧ blockLine b ≠ [] ∧ normLine (blockLine b) = blockLine b

-- C10DEFSEND

/-- The markup after the `</p>` → newline pass, per block. -/
def midP : List PBlock → Str
  | [] => []
  | .para a :: bs => '<' :: 'p' :: '>' :: (a ++ '\n' :: midP bs)
  | .heading d t b :: bs =>
    '<' :: 'h' :: d :: (t ++ '>' :: (b ++ ('<' :: '/' :: 'h' :: d :: '>' :: midP bs)))

/-- The markup after the `</h[12]>` → newline pass, per block. -/
def midH : List PBlock → Str
  | [] => []
  | .para a :: bs => '<' :: 'p' :: '>' :: (a ++ '\n' :: midH bs)
  | .heading d t b :: bs => '<' :: 'h' :: d :: (t ++ '>' :: (b ++ '\n' :: midH bs))

/-- The text content per block, newline-terminated lines. -/
def rawLines : List PBlock → Str
  | [] => []
  | b :: bs =>
    textContentOfHtml (blockSeg b).length (blockSeg b) ++ '\n' :: rawLines bs

/-- The text of a non-empty block sequence without the leading-heading
newline. -/
def coreFrom : List PBlock → Str
  | [] => []
  | b :: bs => blockLine b ++ blocksTextGo b bs

/-- The counter-threading loop of the list flattener, in closed form: with
the counter started at `cur`, the `i`-th `li` item is rendered with counter
value `cur + i` (NaN staying NaN), its flattened sublists following its own
paragraph without advancing the counter. -/
theorem convertItems_enumFrom (depth : Nat) :
    ∀ (items : List NNode) (k : Nat) (cur : Option Int),
      (∀ x ∈ items, isLiElem x = true) →
      (convertItems true depth (cur.map (· + (k : Int))) items).1 =
        ((items.enumFrom k).map
          (fun p => listItemFlat true depth (cur.map (· + (p.1 : Int))) p.2)).flatten := by
  intro items
  induction items with
  | nil => intro k cur _; rfl
  | cons x items ih =>
    intro k cur hall
    have hx := hall x (List.mem_cons_self x items)
    match x with
    | .text s => simp [isLiElem] at hx
    | .elem tag a liKids =>
      have htag : tag = chars "LI" := by
        by_contra hc
        simp [isLiElem, hc] at hx
      subst htag
      have hbump : bumpCounter (cur.map (· + (k : Int))) =
          cur.map (· + ((k + 1 : Nat) : Int)) := by
        cases cur with
        | none => rfl
        | some n => simp [bumpCounter]; omega
      have step : (convertItems true depth (cur.map (· + (k : Int)))
          (NNode.elem (chars "LI") a liKids :: items)).1 =
          listItemFlat true depth (cur.map (· + (k : Int)))
              (NNode.elem (chars "LI") a liKids) ++
            (convertItems true depth (bumpCounter (cur.map (· + (k : Int)))) items).1 := by
        simp [convertItems, listItemFlat, List.append_assoc]
      rw [step, hbump, ih (k + 1) cur (fun y hy => hall y (List.mem_cons_of_mem _ hy))]
      simp [List.enumFrom]

/-- C1: for every input string whose text content, after replacing
non-breaking spaces with spaces and stripping all tags, trims to empty,
`convertRichTextToKeepMarkup` returns a result whose `html`, `keepHtml` and
`plainText` fields are all empty and whose diagnostics list is empty. -/
theorem c1_empty_input_all_empty (rawHtml : Str)
    (h : trimJs (stripTags (replaceNbsp rawHtml)) = []) :
    convertRichTextToKeepMarkup rawHtml =
      { html := [], keepHtml := [], plainText := [], diagnostics := [] } := by
  unfold convertRichTextToKeepMarkup
  simp [h]

/-- Witness for C1 at a concrete whitespace-and-empty-tags input. -/
theorem c1_empty_input_all_empty_witness :
    trimJs (stripTags (replaceNbsp (chars "   <b> </b>\t"))) = [] ∧
    convertRichTextToKeepMarkup (chars "   <b> </b>\t") =
      { html := [], keepHtml := [], plainText := [], diagnostics := [] } :=
  ⟨by decide, c1_empty_input_all_empty _ (by decide)⟩

/-- C3: for every heading element of source level 3–6 the serialization
records exactly one `downgraded-heading` diagnostic, with `from` the source
level and `to` `"h2"`, ahead of the children's diagnostics; headings of
level 1 and 2 record no diagnostic of their own. -/
theorem c3_heading_downgrade_diagnostics (c : Char) (attrs : List (Str × Str))
    (children : List NNode) (ic : Bool) (d : Nat) :
    (c = '3' ∨ c = '4' ∨ c = '5' ∨ c = '6' →
      (serializeNode (.elem ['H', c] attrs children) ic d).2 =
        Diag.downgradedHeading ['h', c] (chars "h2") ::
          (serializeChildren children true d).2) ∧
    (c = '1' ∨ c = '2' →
      (serializeNode (.elem ['H', c] attrs children) ic d).2 =
        (serializeChildren children true d).2) := by
  constructor
  · rintro (rfl | rfl | rfl | rfl) <;> rfl
  · rintro (rfl | rfl) <;> rfl

/-- Witness for C3 at concrete `h3` and `h1` elements. -/
theorem c3_heading_downgrade_diagnostics_witness :
    (serializeNode (.elem (chars "H3") [] [.text (chars "x")]) false 0).2 =
      Diag.downgradedHeading (chars "h3") (chars "h2") ::
        (serializeChildren [.text (chars "x")] true 0).2 ∧
    (serializeNode (.elem (chars "H1") [] [.text (chars "x")]) false 0).2 =
      (serializeChildren [.text (chars "x")] true 0).2 :=
  ⟨(c3_heading_downgrade_diagnostics '3' [] [.text (chars "x")] false 0).1 (Or.inl rfl),
   (c3_heading_downgrade_diagnostics '1' [] [.text (chars "x")] false 0).2 (Or.inl rfl)⟩

/-- C4: in an ordered list the `i`-th direct `li` item is numbered with the
starting counter plus `i` (so the first item carries the parsed `start`
value and each subsequent direct item is one greater, nested sublists not
advancing the counter); an absent `start` attribute starts the counter at 1;
and on the concrete two-item list with `start="3"` the output carries the
prefixes `3. ` and `4. ` with plain text `"3. First\n4. Second"`. -/
theorem c4_ordered_list_numbering :
    (∀ (items : List NNode) (cur : Option Int) (depth : Nat),
      (∀ x ∈ items, isLiElem x = true) →
      (convertItems true depth cur items).1 =
        (items.enum.map
          (fun p => listItemFlat true depth (cur.map (· + (p.1 : Int))) p.2)).flatten) ∧
    (∀ (attrs : List (Str × Str)) (children : List NNode) (depth : Nat),
      getAttr attrs (chars "start") = none →
      convertList true depth attrs children =
        if children.any isLiElem then convertItems true depth (some 1) children
        else ([], [])) ∧
    containsStr (convertRichTextToKeepMarkup
      (chars "<ol start=\"3\"><li>First</li><li>Second</li></ol>")).html
      (chars "<p>3. First</p>") = true ∧
    containsStr (convertRichTextToKeepMarkup
      (chars "<ol start=\"3\"><li>First</li><li>Second</li></ol>")).html
      (chars "<p>4. Second</p>") = true ∧
    (convertRichTextToKeepMarkup
      (chars "<ol start=\"3\"><li>First</li><li>Second</li></ol>")).plainText =
      chars "3. First\n4. Second" := by
  refine ⟨?_, ?_, by decide, by decide, by decide⟩
  · intro items cur depth hall
    have h := convertItems_enumFrom depth items 0 cur hall
    simpa [List.enum] using h
  · intro attrs children depth h
    have h1 : jsParseInt ((Option.getD (α := Str) none (chars "1"))) = some 1 := by decide
    simp only [convertList, h, if_true]
    rw [h1]

/-- Witness for C4: the numbering law applied to the concrete two-item list
with counter started at 3, and the default-start law at an attribute-free
list. -/
theorem c4_ordered_list_numbering_witness :
    (convertItems true 0 (some 3)
        [NNode.elem (chars "LI") [] [NNode.text (chars "First")],
         NNode.elem (chars "LI") [] [NNode.text (chars "Second")]]).1 =
      (([NNode.elem (chars "LI") [] [NNode.text (chars "First")],
         NNode.elem (chars "LI") [] [NNode.text (chars "Second")]].enum.map
        (fun p => listItemFlat true 0 ((some (3 : Int)).map (· + (p.1 : Int))) p.2)).flatten) ∧
    convertList true 0 []
        [NNode.elem (chars "LI") [] [NNode.text (chars "First")]] =
      if ([NNode.elem (chars "LI") [] [NNode.text (chars "First")]]).any isLiElem then
        convertItems true 0 (some 1)
          [NNode.elem (chars "LI") [] [NNode.text (chars "First")]]
      else ([], []) :=
  ⟨c4_ordered_list_numbering.1
      [NNode.elem (chars "LI") [] [NNode.text (chars "First")],
       NNode.elem (chars "LI") [] [NNode.text (chars "Second")]] (some 3) 0 (by decide),
   c4_ordered_list_numbering.2.1 []
      [NNode.elem (chars "LI") [] [NNode.text (chars "First")]] 0 (by decide)⟩

/-- C5: for the list item containing a nested unordered sublist with one
item `Nested`, the nested item\x27s paragraph (4 non-breaking-space entities
and a dash prefix) directly follows the parent item\x27s paragraph in the
`html` output, the plain text renders that line as four literal spaces and
`- Nested`, and exactly one `list-flattened` diagnostic of depth 1 is
recorded, for that nested item. -/
theorem c5_list_flattened :
    containsStr (convertRichTextToKeepMarkup
        (chars "<ul><li>Parent<ul><li>Nested</li></ul></li></ul>")).html
      (chars "- Parent</p><p>&nbsp;&nbsp;&nbsp;&nbsp;- Nested</p>") = true ∧
    (convertRichTextToKeepMarkup
        (chars "<ul><li>Parent<ul><li>Nested</li></ul></li></ul>")).plainText =
      chars "- Parent\n    - Nested" ∧
    (convertRichTextToKeepMarkup
        (chars "<ul><li>Parent<ul><li>Nested</li></ul></li></ul>")).diagnostics =
      [Diag.listFlattened 1] ∧
    countListFlattened (convertRichTextToKeepMarkup
        (chars "<ul><li>Parent<ul><li>Nested</li></ul></li></ul>")).diagnostics 1 = 1 := by
  refine ⟨by decide, by decide, by decide, by decide⟩

/-- C9: on the concrete scenario input, the html output contains
`<h1>Title</h1>` and `<p>Body <b>text</b></p>`, the plain text equals
exactly `"Title\nBody text"`, the clipboard output contains a span styled
with a 15-point font and a span styled with an 11-point font, and the
diagnostics list is empty. -/
theorem c9_concrete_scenario :
    containsStr (convertRichTextToKeepMarkup
        (chars "<h1>Title</h1><div>Body <strong>text</strong></div>")).html
      (chars "<h1>Title</h1>") = true ∧
    containsStr (convertRichTextToKeepMarkup
        (chars "<h1>Title</h1><div>Body <strong>text</strong></div>")).html
      (chars "<p>Body <b>text</b></p>") = true ∧
    (convertRichTextToKeepMarkup
        (chars "<h1>Title</h1><div>Body <strong>text</strong></div>")).plainText =
      chars "Title\nBody text" ∧
    containsStr (convertRichTextToKeepMarkup
        (chars "<h1>Title</h1><div>Body <strong>text</strong></div>")).keepHtml
      (chars "<span style=\"font-size:15pt") = true ∧
    containsStr (convertRichTextToKeepMarkup
        (chars "<h1>Title</h1><div>Body <strong>text</strong></div>")).keepHtml
      (chars "<span style=\"font-size:11pt") = true ∧
    (convertRichTextToKeepMarkup
        (chars "<h1>Title</h1><div>Body <strong>text</strong></div>")).diagnostics = [] := by
  refine ⟨by decide, by decide, by decide, by decide, by decide, by decide⟩

/-- C8 counterexample: feeding the html output of the nested-list conversion
back through the pipeline does not reproduce it byte-for-byte — the
non-breaking-space indentation collapses on the second pass. -/
theorem c8_roundtrip_counterexample :
    ¬ (convertRichTextToKeepMarkup (convertRichTextToKeepMarkup
        (chars "<ol start=\"3\"><li>First</li><li>Second<ul><li>Nested</li></ul></li></ol>")).html).html =
      (convertRichTextToKeepMarkup
        (chars "<ol start=\"3\"><li>First</li><li>Second<ul><li>Nested</li></ul></li></ol>")).html := by
  decide

/-- C8 amended: the round trip is byte-identical when the converted html
carries no non-breaking-space indentation (the heading/body scenario and a
flat list are fixed points); the nested-list html is not, because it
contains `&nbsp;` indentation which the second pass's whitespace collapsing
folds away. -/
theorem c8_roundtrip_amended :
    (convertRichTextToKeepMarkup (convertRichTextToKeepMarkup
        (chars "<h1>Title</h1><div>Body <strong>text</strong></div>")).html).html =
      (convertRichTextToKeepMarkup
        (chars "<h1>Title</h1><div>Body <strong>text</strong></div>")).html ∧
    (convertRichTextToKeepMarkup (convertRichTextToKeepMarkup
        (chars "<ol><li>a</li><li>b</li></ol>")).html).html =
      (convertRichTextToKeepMarkup (chars "<ol><li>a</li><li>b</li></ol>")).html ∧
    containsStr (convertRichTextToKeepMarkup
        (chars "<ol start=\"3\"><li>First</li><li>Second<ul><li>Nested</li></ul></li></ol>")).html
      (chars "&nbsp;") = true := by
  refine ⟨by decide, by decide, by decide⟩

/-- C6: a script element serializes to nothing without descending into its
subtree and records a `removed-element` diagnostic; an element with no
mapping to the restricted grammar records an `unsupported-tag` diagnostic
while only its children's serialization (not its tag) reaches the output;
and on the concrete script/figure/img input no script text and none of the
original tags appear in any output field. -/
theorem c6_removed_and_unsupported :
    (∀ (attrs : List (Str × Str)) (children : List NNode) (ic : Bool) (d : Nat),
      serializeNode (.elem (chars "SCRIPT") attrs children) ic d =
        ([], [Diag.removedElement (chars "script")])) ∧
    (∀ (tag : Str) (attrs : List (Str × Str)) (children : List NNode) (ic : Bool) (d : Nat),
      tag ≠ chars "SCRIPT" → tag ≠ chars "STYLE" →
      inlineTagMap tag = none → headingLevel tag = none →
      tag ≠ chars "BR" → tag ≠ chars "OL" → tag ≠ chars "UL" →
      tag ∉ blockTags →
      serializeNode (.elem tag attrs children) ic d =
        ((if ic then (serializeChildren children ic d).1
          else wrapParagraph (serializeChildren children ic d).1),
         Diag.unsupportedTag (lowerStr tag) (snippetOf tag attrs children) ::
           (serializeChildren children ic d).2)) ∧
    ((convertRichTextToKeepMarkup
        (chars "<h3>Subhead</h3><script>alert(\x27x\x27)</script><figure><img src=\"x\" /></figure>")).diagnostics =
      [Diag.downgradedHeading (chars "h3") (chars "h2"),
       Diag.removedElement (chars "script"),
       Diag.unsupportedTag (chars "figure") (chars "<figure><img src=\"x\"></figure>"),
       Diag.unsupportedTag (chars "img") (chars "<img src=\"x\">")] ∧
     (∀ out ∈ [(convertRichTextToKeepMarkup
          (chars "<h3>Subhead</h3><script>alert(\x27x\x27)</script><figure><img src=\"x\" /></figure>")).html,
        (convertRichTextToKeepMarkup
          (chars "<h3>Subhead</h3><script>alert(\x27x\x27)</script><figure><img src=\"x\" /></figure>")).keepHtml,
        (convertRichTextToKeepMarkup
          (chars "<h3>Subhead</h3><script>alert(\x27x\x27)</script><figure><img src=\"x\" /></figure>")).plainText],
        containsStr out (chars "alert") = false ∧
        containsStr out (chars "<script") = false ∧
        containsStr out (chars "<figure") = false ∧
        containsStr out (chars "<img") = false)) := by
  refine ⟨fun attrs children ic d => rfl, ?_, by decide, by decide⟩
  intro tag attrs children ic d h1 h2 h3 h4 h5 h6 h7 h8
  simp [serializeNode, h1, h2, h3, h4, h5, h6, h7, h8]

/-- Witness for C6: the script law at a concrete script element and the
unsupported-tag law at a concrete figure element. -/
theorem c6_removed_and_unsupported_witness :
    serializeNode (.elem (chars "SCRIPT") [] [.text (chars "alert()")]) false 0 =
      ([], [Diag.removedElement (chars "script")]) ∧
    serializeNode (.elem (chars "FIGURE") [] [.text (chars "cap")]) false 0 =
      ((if false then (serializeChildren [.text (chars "cap")] false 0).1
        else wrapParagraph (serializeChildren [.text (chars "cap")] false 0).1),
       Diag.unsupportedTag (lowerStr (chars "FIGURE"))
           (snippetOf (chars "FIGURE") [] [.text (chars "cap")]) ::
         (serializeChildren [.text (chars "cap")] false 0).2) :=
  ⟨c6_removed_and_unsupported.1 [] [.text (chars "alert()")] false 0,
   c6_removed_and_unsupported.2.1 (chars "FIGURE") [] [.text (chars "cap")] false 0
     (by decide) (by decide) (by decide) (by decide) (by decide) (by decide) (by decide)
     (by decide)⟩

theorem plainCh_props {c : Char} (h : plainCh c = true) :
    c ≠ '<' ∧ c ≠ '&' ∧ c ≠ '\n' ∧ isJsWs c = false := by
  simp [plainCh] at h
  exact ⟨h.1.1.1, h.1.1.2, h.1.2, h.2⟩

theorem closePOUSplit_ne_lt {c : Char} (s : Str) (h : c ≠ '<') :
    closePOUSplit (c :: s) = none := by
  unfold closePOUSplit
  split
  · next heq => rw [List.cons.injEq] at heq; exact absurd heq.1 h
  · rfl

theorem brFullSplit_ne_lt {c : Char} (s : Str) (h : c ≠ '<') :
    brFullSplit (c :: s) = none := by
  unfold brFullSplit
  split
  · next heq => rw [List.cons.injEq] at heq; exact absurd heq.1 h
  · rfl

theorem injectSepGo_plain : ∀ (x : Str) (n : Nat) (rest : Str),
    (∀ c ∈ x, plainCh c = true) →
    injectSepGo (x.length + n) (x ++ rest) = x ++ injectSepGo n rest := by
  intro x
  induction x with
  | nil => intro n rest _; simp
  | cons c x ih =>
    intro n rest hall
    have hc := (plainCh_props (hall c (List.mem_cons_self c x))).1
    have h1 : (c :: x).length + n = (x.length + n) + 1 := by simp; omega
    rw [h1]
    show injectSepGo ((x.length + n) + 1) (c :: (x ++ rest)) = _
    rw [injectSepGo, closePOUSplit_ne_lt _ hc]
    rw [ih n rest (fun y hy => hall y (List.mem_cons_of_mem _ hy))]
    rfl

theorem replaceClosePNl_cons_ne (f : Nat) {c : Char} (s : Str) (h : c ≠ '<') :
    replaceClosePNl (f + 1) (c :: s) = c :: replaceClosePNl f s := by
  conv_lhs => unfold replaceClosePNl
  split
  · rename_i heq _
    omega
  · rename_i heq
    exact absurd heq (List.cons_ne_nil _ _)
  · rename_i fuel rest heq1 heq2
    injection heq2 with hc _
    exact absurd hc h
  · rename_i fuel c2 rest2 hne heq1 heq2
    injection heq2 with hc hs
    obtain rfl : fuel = f := by omega
    rw [hc, hs]

theorem replaceClosePNl_plain : ∀ (x : Str) (n : Nat) (rest : Str),
    (∀ c ∈ x, plainCh c = true) →
    replaceClosePNl (x.length + n) (x ++ rest) = x ++ replaceClosePNl n rest := by
  intro x
  induction x with
  | nil => intro n rest _; simp
  | cons c x ih =>
    intro n rest hall
    have hc := (plainCh_props (hall c (List.mem_cons_self c x))).1
    have h1 : (c :: x).length + n = (x.length + n) + 1 := by simp; omega
    rw [h1]
    show replaceClosePNl ((x.length + n) + 1) (c :: (x ++ rest)) = _
    rw [replaceClosePNl_cons_ne _ _ hc, ih n rest (fun y hy => hall y (List.mem_cons_of_mem _ hy))]
    rfl

theorem replaceCloseHNl_cons_ne (f : Nat) {c : Char} (s : Str) (h : c ≠ '<') :
    replaceCloseHNl (f + 1) (c :: s) = c :: replaceCloseHNl f s := by
  conv_lhs => unfold replaceCloseHNl
  split
  · rename_i heq _
    omega
  · rename_i heq
    exact absurd heq (List.cons_ne_nil _ _)
  · rename_i fuel rest heq1 heq2
    injection heq2 with hc _
    exact absurd hc h
  · rename_i fuel c2 rest2 hne heq1 heq2
    injection heq2 with hc hs
    obtain rfl : fuel = f := by omega
    rw [hc, hs]

theorem replaceCloseHNl_plain : ∀ (x : Str) (n : Nat) (rest : Str),
    (∀ c ∈ x, plainCh c = true) →
    replaceCloseHNl (x.length + n) (x ++ rest) = x ++ replaceCloseHNl n rest := by
  intro x
  induction x with
  | nil => intro n rest _; simp
  | cons c x ih =>
    intro n rest hall
    have hc := (plainCh_props (hall c (List.mem_cons_self c x))).1
    have h1 : (c :: x).length + n = (x.length + n) + 1 := by simp; omega
    rw [h1]
    show replaceCloseHNl ((x.length + n) + 1) (c :: (x ++ rest)) = _
    rw [replaceCloseHNl_cons_ne _ _ hc, ih n rest (fun y hy => hall y (List.mem_cons_of_mem _ hy))]
    rfl

theorem replaceBrNl_plain : ∀ (x : Str) (n : Nat) (rest : Str),
    (∀ c ∈ x, plainCh c = true) →
    replaceBrNl (x.length + n) (x ++ rest) = x ++ replaceBrNl n rest := by
  intro x
  induction x with
  | nil => intro n rest _; simp
  | cons c x ih =>
    intro n rest hall
    have hc := (plainCh_props (hall c (List.mem_cons_self c x))).1
    have h1 : (c :: x).length + n = (x.length + n) + 1 := by simp; omega
    rw [h1]
    show replaceBrNl ((x.length + n) + 1) (c :: (x ++ rest)) = _
    rw [replaceBrNl, brFullSplit_ne_lt _ hc]
    rw [ih n rest (fun y hy => hall y (List.mem_cons_of_mem _ hy))]
    rfl

theorem textContentOfHtml_cons_plain (f : Nat) {c : Char} (s : Str)
    (h1 : c ≠ '<') (h2 : c ≠ '&') :
    textContentOfHtml (f + 1) (c :: s) = c :: textContentOfHtml f s := by
  conv_lhs => unfold textContentOfHtml
  split
  · rename_i heq _
    omega
  · rename_i heq
    exact absurd heq (List.cons_ne_nil _ _)
  · rename_i fuel rest heq1 heq2
    injection heq2 with hc _
    exact absurd hc h1
  · rename_i fuel rest heq1 heq2
    injection heq2 with hc _
    exact absurd hc h2
  · rename_i fuel c2 rest2 hne1 hne2 heq1 heq2
    injection heq2 with hc hs
    obtain rfl : fuel = f := by omega
    rw [hc, hs]

theorem textContentOfHtml_plain : ∀ (x : Str) (n : Nat) (rest : Str),
    (∀ c ∈ x, plainCh c = true) →
    textContentOfHtml (x.length + n) (x ++ rest) = x ++ textContentOfHtml n rest := by
  intro x
  induction x with
  | nil => intro n rest _; simp
  | cons c x ih =>
    intro n rest hall
    have hc := plainCh_props (hall c (List.mem_cons_self c x))
    have h1 : (c :: x).length + n = (x.length + n) + 1 := by simp; omega
    rw [h1]
    show textContentOfHtml ((x.length + n) + 1) (c :: (x ++ rest)) = _
    rw [textContentOfHtml_cons_plain _ _ hc.1 hc.2.1,
      ih n rest (fun y hy => hall y (List.mem_cons_of_mem _ hy))]
    rfl

theorem collapseNl_cons_ne (f : Nat) {c : Char} (s : Str) (h : c ≠ '\n') :
    collapseNl (f + 1) (c :: s) = c :: collapseNl f s := by
  conv_lhs => unfold collapseNl
  split
  · rename_i heq _
    omega
  · rename_i heq
    exact absurd heq (List.cons_ne_nil _ _)
  · rename_i fuel rest heq1 heq2
    injection heq2 with hc _
    exact absurd hc h
  · rename_i fuel c2 rest2 hne heq1 heq2
    injection heq2 with hc hs
    obtain rfl : fuel = f := by omega
    rw [hc, hs]

theorem collapseNl_plain : ∀ (x : Str) (n : Nat) (rest : Str),
    (∀ c ∈ x, plainCh c = true) →
    collapseNl (x.length + n) (x ++ rest) = x ++ collapseNl n rest := by
  intro x
  induction x with
  | nil => intro n rest _; simp
  | cons c x ih =>
    intro n rest hall
    have hc := (plainCh_props (hall c (List.mem_cons_self c x))).2.2.1
    have h1 : (c :: x).length + n = (x.length + n) + 1 := by simp; omega
    rw [h1]
    show collapseNl ((x.length + n) + 1) (c :: (x ++ rest)) = _
    rw [collapseNl_cons_ne _ _ hc, ih n rest (fun y hy => hall y (List.mem_cons_of_mem _ hy))]
    rfl

theorem splitNl_plain : ∀ (x : Str) (rest : Str),
    (∀ c ∈ x, c ≠ '\n') →
    splitNl (x ++ '\n' :: rest) = x :: splitNl rest := by
  intro x
  induction x with
  | nil => intro rest _; rfl
  | cons c x ih =>
    intro rest hall
    have hc := hall c (List.mem_cons_self c x)
    show splitNl (c :: (x ++ '\n' :: rest)) = _
    conv_lhs => unfold splitNl
    split
    · rename_i heq
      exact absurd heq (List.cons_ne_nil _ _)
    · rename_i rest2 heq
      injection heq with h1 _
      exact absurd h1 hc
    · rename_i c2 rest2 hne heq
      injection heq with h1 h2
      rw [← h1, ← h2, ih rest (fun y hy => hall y (List.mem_cons_of_mem _ hy))]

theorem splitNl_all_plain : ∀ (x : Str),
    (∀ c ∈ x, c ≠ '\n') → splitNl x = [x] := by
  intro x
  induction x with
  | nil => intro _; rfl
  | cons c x ih =>
    intro hall
    have hc := hall c (List.mem_cons_self c x)
    conv_lhs => unfold splitNl
    split
    · rename_i heq
      exact absurd heq (List.cons_ne_nil _ _)
    · rename_i rest2 heq
      injection heq with h1 _
      exact absurd h1 hc
    · rename_i c2 rest2 hne heq
      injection heq with h1 h2
      rw [← h1, ← h2, ih (fun y hy => hall y (List.mem_cons_of_mem _ hy))]

theorem injectSepGo_nil : ∀ n, injectSepGo n [] = [] := by
  intro n; cases n <;> rfl

theorem replaceBrNl_nil : ∀ n, replaceBrNl n [] = [] := by
  intro n; cases n <;> rfl

theorem replaceClosePNl_nil : ∀ n, replaceClosePNl n [] = [] := by
  intro n; cases n <;> rfl

theorem replaceCloseHNl_nil : ∀ n, replaceCloseHNl n [] = [] := by
  intro n; cases n <;> rfl

theorem textContentOfHtml_nil : ∀ n, textContentOfHtml n [] = [] := by
  intro n; cases n <;> rfl

theorem collapseNl_nil : ∀ n, collapseNl n [] = [] := by
  intro n; cases n <;> rfl

theorem injectSepGo_p_open (k : Nat) (rest : Str) :
    injectSepGo (k + 3) ('<' :: 'p' :: '>' :: rest) =
      '<' :: 'p' :: '>' :: injectSepGo k rest := rfl

theorem injectSepGo_close_heading (d : Char) (hd : d = '1' ∨ d = '2') (k : Nat) (rest : Str) :
    injectSepGo (k + 1) ('<' :: '/' :: 'p' :: '>' :: '<' :: 'h' :: d :: '>' :: rest) =
      '<' :: '/' :: 'p' :: '>' :: '<' :: 'p' :: '>' :: '&' :: 'n' :: 'b' :: 's' :: 'p' ::
        ';' :: '<' :: '/' :: 'p' :: '>' :: '<' :: 'h' :: d :: '>' :: injectSepGo k rest := by
  rcases hd with rfl | rfl <;> rfl

theorem injectSepGo_close_h_tail (d : Char) (hd : d = '1' ∨ d = '2') (n : Nat) :
    injectSepGo (n + 5) ('<' :: '/' :: 'h' :: d :: '>' :: []) =
      '<' :: '/' :: 'h' :: d :: '>' :: [] := by
  rcases hd with rfl | rfl
  · rw [show injectSepGo (n + 5) ('<' :: '/' :: 'h' :: '1' :: '>' :: []) =
        '<' :: '/' :: 'h' :: '1' :: '>' :: injectSepGo n [] from rfl, injectSepGo_nil]
  · rw [show injectSepGo (n + 5) ('<' :: '/' :: 'h' :: '2' :: '>' :: []) =
        '<' :: '/' :: 'h' :: '2' :: '>' :: injectSepGo n [] from rfl, injectSepGo_nil]

theorem injectSepGo_template (a b : Str) (d : Char) (n : Nat)
    (ha : ∀ c ∈ a, plainCh c = true) (hb : ∀ c ∈ b, plainCh c = true)
    (hd : d = '1' ∨ d = '2') :
    injectSepGo ((a.length + ((b.length + (n + 5)) + 1)) + 3)
        ('<' :: 'p' :: '>' :: (a ++ ('<' :: '/' :: 'p' :: '>' :: '<' :: 'h' :: d :: '>' ::
          (b ++ ('<' :: '/' :: 'h' :: d :: '>' :: []))))) =
      '<' :: 'p' :: '>' :: (a ++ ('<' :: '/' :: 'p' :: '>' :: '<' :: 'p' :: '>' :: '&' ::
        'n' :: 'b' :: 's' :: 'p' :: ';' :: '<' :: '/' :: 'p' :: '>' :: '<' :: 'h' :: d ::
        '>' :: (b ++ ('<' :: '/' :: 'h' :: d :: '>' :: [])))) := by
  rw [injectSepGo_p_open, injectSepGo_plain a _ _ ha,
    injectSepGo_close_heading d hd, injectSepGo_plain b _ _ hb,
    injectSepGo_close_h_tail d hd]
theorem replaceBrNl_template (a b : Str) (d : Char) (n : Nat)
    (ha : ∀ c ∈ a, plainCh c = true) (hb : ∀ c ∈ b, plainCh c = true)
    (hd : d = '1' ∨ d = '2') :
    replaceBrNl ((a.length + ((b.length + (n + 5)) + 21)) + 3)
        ('<' :: 'p' :: '>' :: (a ++ ('<' :: '/' :: 'p' :: '>' :: '<' :: 'p' :: '>' :: '&' :: 'n' :: 'b' :: 's' :: 'p' :: ';' :: '<' :: '/' :: 'p' :: '>' :: '<' :: 'h' :: d :: '>' :: (b ++ ('<' :: '/' :: 'h' :: d :: '>' :: []))))) =
      '<' :: 'p' :: '>' :: (a ++ ('<' :: '/' :: 'p' :: '>' :: '<' :: 'p' :: '>' :: '&' :: 'n' :: 'b' :: 's' :: 'p' :: ';' :: '<' :: '/' :: 'p' :: '>' :: '<' :: 'h' :: d :: '>' :: (b ++ ('<' :: '/' :: 'h' :: d :: '>' :: [])))) := by
  rcases hd with rfl | rfl
  · rw [show replaceBrNl ((a.length + ((b.length + (n + 5)) + 21)) + 3)
        ('<' :: 'p' :: '>' :: (a ++ ('<' :: '/' :: 'p' :: '>' :: '<' :: 'p' :: '>' :: '&' :: 'n' :: 'b' :: 's' :: 'p' :: ';' :: '<' :: '/' :: 'p' :: '>' :: '<' :: 'h' :: '1' :: '>' :: (b ++ ('<' :: '/' :: 'h' :: '1' :: '>' :: []))))) =
        '<' :: 'p' :: '>' :: replaceBrNl (a.length + ((b.length + (n + 5)) + 21))
          (a ++ ('<' :: '/' :: 'p' :: '>' :: '<' :: 'p' :: '>' :: '&' :: 'n' :: 'b' :: 's' :: 'p' :: ';' :: '<' :: '/' :: 'p' :: '>' :: '<' :: 'h' :: '1' :: '>' :: (b ++ ('<' :: '/' :: 'h' :: '1' :: '>' :: [])))) from rfl,
      replaceBrNl_plain a _ _ ha,
      show replaceBrNl ((b.length + (n + 5)) + 21) ('<' :: '/' :: 'p' :: '>' :: '<' :: 'p' :: '>' :: '&' :: 'n' :: 'b' :: 's' :: 'p' :: ';' :: '<' :: '/' :: 'p' :: '>' :: '<' :: 'h' :: '1' :: '>' :: (b ++ ('<' :: '/' :: 'h' :: '1' :: '>' :: []))) =
        '<' :: '/' :: 'p' :: '>' :: '<' :: 'p' :: '>' :: '&' :: 'n' :: 'b' :: 's' :: 'p' :: ';' :: '<' :: '/' :: 'p' :: '>' :: '<' :: 'h' :: '1' :: '>' ::  replaceBrNl (b.length + (n + 5)) (b ++ ('<' :: '/' :: 'h' :: '1' :: '>' :: [])) from rfl,
      replaceBrNl_plain b _ _ hb,
      show replaceBrNl (n + 5) ('<' :: '/' :: 'h' :: '1' :: '>' :: []) = '<' :: '/' :: 'h' :: '1' :: '>' ::  replaceBrNl n [] from rfl,
      replaceBrNl_nil]
  · rw [show replaceBrNl ((a.length + ((b.length + (n + 5)) + 21)) + 3)
        ('<' :: 'p' :: '>' :: (a ++ ('<' :: '/' :: 'p' :: '>' :: '<' :: 'p' :: '>' :: '&' :: 'n' :: 'b' :: 's' :: 'p' :: ';' :: '<' :: '/' :: 'p' :: '>' :: '<' :: 'h' :: '2' :: '>' :: (b ++ ('<' :: '/' :: 'h' :: '2' :: '>' :: []))))) =
        '<' :: 'p' :: '>' :: replaceBrNl (a.length + ((b.length + (n + 5)) + 21))
          (a ++ ('<' :: '/' :: 'p' :: '>' :: '<' :: 'p' :: '>' :: '&' :: 'n' :: 'b' :: 's' :: 'p' :: ';' :: '<' :: '/' :: 'p' :: '>' :: '<' :: 'h' :: '2' :: '>' :: (b ++ ('<' :: '/' :: 'h' :: '2' :: '>' :: [])))) from rfl,
      replaceBrNl_plain a _ _ ha,
      show replaceBrNl ((b.length + (n + 5)) + 21) ('<' :: '/' :: 'p' :: '>' :: '<' :: 'p' :: '>' :: '&' :: 'n' :: 'b' :: 's' :: 'p' :: ';' :: '<' :: '/' :: 'p' :: '>' :: '<' :: 'h' :: '2' :: '>' :: (b ++ ('<' :: '/' :: 'h' :: '2' :: '>' :: []))) =
        '<' :: '/' :: 'p' :: '>' :: '<' :: 'p' :: '>' :: '&' :: 'n' :: 'b' :: 's' :: 'p' :: ';' :: '<' :: '/' :: 'p' :: '>' :: '<' :: 'h' :: '2' :: '>' ::  replaceBrNl (b.length + (n + 5)) (b ++ ('<' :: '/' :: 'h' :: '2' :: '>' :: [])) from rfl,
      replaceBrNl_plain b _ _ hb,
      show replaceBrNl (n + 5) ('<' :: '/' :: 'h' :: '2' :: '>' :: []) = '<' :: '/' :: 'h' :: '2' :: '>' ::  replaceBrNl n [] from rfl,
      replaceBrNl_nil]

theorem replaceClosePNl_template (a b : Str) (d : Char) (n : Nat)
    (ha : ∀ c ∈ a, plainCh c = true) (hb : ∀ c ∈ b, plainCh c = true)
    (hd : d = '1' ∨ d = '2') :
    replaceClosePNl ((a.length + ((b.length + (n + 5)) + 15)) + 3)
        ('<' :: 'p' :: '>' :: (a ++ ('<' :: '/' :: 'p' :: '>' :: '<' :: 'p' :: '>' :: '&' :: 'n' :: 'b' :: 's' :: 'p' :: ';' :: '<' :: '/' :: 'p' :: '>' :: '<' :: 'h' :: d :: '>' :: (b ++ ('<' :: '/' :: 'h' :: d :: '>' :: []))))) =
      '<' :: 'p' :: '>' :: (a ++ ('\n' :: '<' :: 'p' :: '>' :: '&' :: 'n' :: 'b' :: 's' :: 'p' :: ';' :: '\n' :: '<' :: 'h' :: d :: '>' :: (b ++ ('<' :: '/' :: 'h' :: d :: '>' :: [])))) := by
  rcases hd with rfl | rfl
  · rw [show replaceClosePNl ((a.length + ((b.length + (n + 5)) + 15)) + 3)
        ('<' :: 'p' :: '>' :: (a ++ ('<' :: '/' :: 'p' :: '>' :: '<' :: 'p' :: '>' :: '&' :: 'n' :: 'b' :: 's' :: 'p' :: ';' :: '<' :: '/' :: 'p' :: '>' :: '<' :: 'h' :: '1' :: '>' :: (b ++ ('<' :: '/' :: 'h' :: '1' :: '>' :: []))))) =
        '<' :: 'p' :: '>' :: replaceClosePNl (a.length + ((b.length + (n + 5)) + 15))
          (a ++ ('<' :: '/' :: 'p' :: '>' :: '<' :: 'p' :: '>' :: '&' :: 'n' :: 'b' :: 's' :: 'p' :: ';' :: '<' :: '/' :: 'p' :: '>' :: '<' :: 'h' :: '1' :: '>' :: (b ++ ('<' :: '/' :: 'h' :: '1' :: '>' :: [])))) from rfl,
      replaceClosePNl_plain a _ _ ha,
      show replaceClosePNl ((b.length + (n + 5)) + 15) ('<' :: '/' :: 'p' :: '>' :: '<' :: 'p' :: '>' :: '&' :: 'n' :: 'b' :: 's' :: 'p' :: ';' :: '<' :: '/' :: 'p' :: '>' :: '<' :: 'h' :: '1' :: '>' :: (b ++ ('<' :: '/' :: 'h' :: '1' :: '>' :: []))) =
        '\n' :: '<' :: 'p' :: '>' :: '&' :: 'n' :: 'b' :: 's' :: 'p' :: ';' :: '\n' :: '<' :: 'h' :: '1' :: '>' ::  replaceClosePNl (b.length + (n + 5)) (b ++ ('<' :: '/' :: 'h' :: '1' :: '>' :: [])) from rfl,
      replaceClosePNl_plain b _ _ hb,
      show replaceClosePNl (n + 5) ('<' :: '/' :: 'h' :: '1' :: '>' :: []) = '<' :: '/' :: 'h' :: '1' :: '>' ::  replaceClosePNl n [] from rfl,
      replaceClosePNl_nil]
  · rw [show replaceClosePNl ((a.length + ((b.length + (n + 5)) + 15)) + 3)
        ('<' :: 'p' :: '>' :: (a ++ ('<' :: '/' :: 'p' :: '>' :: '<' :: 'p' :: '>' :: '&' :: 'n' :: 'b' :: 's' :: 'p' :: ';' :: '<' :: '/' :: 'p' :: '>' :: '<' :: 'h' :: '2' :: '>' :: (b ++ ('<' :: '/' :: 'h' :: '2' :: '>' :: []))))) =
        '<' :: 'p' :: '>' :: replaceClosePNl (a.length + ((b.length + (n + 5)) + 15))
          (a ++ ('<' :: '/' :: 'p' :: '>' :: '<' :: 'p' :: '>' :: '&' :: 'n' :: 'b' :: 's' :: 'p' :: ';' :: '<' :: '/' :: 'p' :: '>' :: '<' :: 'h' :: '2' :: '>' :: (b ++ ('<' :: '/' :: 'h' :: '2' :: '>' :: [])))) from rfl,
      replaceClosePNl_plain a _ _ ha,
      show replaceClosePNl ((b.length + (n + 5)) + 15) ('<' :: '/' :: 'p' :: '>' :: '<' :: 'p' :: '>' :: '&' :: 'n' :: 'b' :: 's' :: 'p' :: ';' :: '<' :: '/' :: 'p' :: '>' :: '<' :: 'h' :: '2' :: '>' :: (b ++ ('<' :: '/' :: 'h' :: '2' :: '>' :: []))) =
        '\n' :: '<' :: 'p' :: '>' :: '&' :: 'n' :: 'b' :: 's' :: 'p' :: ';' :: '\n' :: '<' :: 'h' :: '2' :: '>' ::  replaceClosePNl (b.length + (n + 5)) (b ++ ('<' :: '/' :: 'h' :: '2' :: '>' :: [])) from rfl,
      replaceClosePNl_plain b _ _ hb,
      show replaceClosePNl (n + 5) ('<' :: '/' :: 'h' :: '2' :: '>' :: []) = '<' :: '/' :: 'h' :: '2' :: '>' ::  replaceClosePNl n [] from rfl,
      replaceClosePNl_nil]

theorem replaceCloseHNl_template (a b : Str) (d : Char) (n : Nat)
    (ha : ∀ c ∈ a, plainCh c = true) (hb : ∀ c ∈ b, plainCh c = true)
    (hd : d = '1' ∨ d = '2') :
    replaceCloseHNl ((a.length + ((b.length + (n + 1)) + 15)) + 3)
        ('<' :: 'p' :: '>' :: (a ++ ('\n' :: '<' :: 'p' :: '>' :: '&' :: 'n' :: 'b' :: 's' :: 'p' :: ';' :: '\n' :: '<' :: 'h' :: d :: '>' :: (b ++ ('<' :: '/' :: 'h' :: d :: '>' :: []))))) =
      '<' :: 'p' :: '>' :: (a ++ ('\n' :: '<' :: 'p' :: '>' :: '&' :: 'n' :: 'b' :: 's' :: 'p' :: ';' :: '\n' :: '<' :: 'h' :: d :: '>' :: (b ++ ('\n' :: [])))) := by
  rcases hd with rfl | rfl
  · rw [show replaceCloseHNl ((a.length + ((b.length + (n + 1)) + 15)) + 3)
        ('<' :: 'p' :: '>' :: (a ++ ('\n' :: '<' :: 'p' :: '>' :: '&' :: 'n' :: 'b' :: 's' :: 'p' :: ';' :: '\n' :: '<' :: 'h' :: '1' :: '>' :: (b ++ ('<' :: '/' :: 'h' :: '1' :: '>' :: []))))) =
        '<' :: 'p' :: '>' :: replaceCloseHNl (a.length + ((b.length + (n + 1)) + 15))
          (a ++ ('\n' :: '<' :: 'p' :: '>' :: '&' :: 'n' :: 'b' :: 's' :: 'p' :: ';' :: '\n' :: '<' :: 'h' :: '1' :: '>' :: (b ++ ('<' :: '/' :: 'h' :: '1' :: '>' :: [])))) from rfl,
      replaceCloseHNl_plain a _ _ ha,
      show replaceCloseHNl ((b.length + (n + 1)) + 15) ('\n' :: '<' :: 'p' :: '>' :: '&' :: 'n' :: 'b' :: 's' :: 'p' :: ';' :: '\n' :: '<' :: 'h' :: '1' :: '>' :: (b ++ ('<' :: '/' :: 'h' :: '1' :: '>' :: []))) =
        '\n' :: '<' :: 'p' :: '>' :: '&' :: 'n' :: 'b' :: 's' :: 'p' :: ';' :: '\n' :: '<' :: 'h' :: '1' :: '>' ::  replaceCloseHNl (b.length + (n + 1)) (b ++ ('<' :: '/' :: 'h' :: '1' :: '>' :: [])) from rfl,
      replaceCloseHNl_plain b _ _ hb,
      show replaceCloseHNl (n + 1) ('<' :: '/' :: 'h' :: '1' :: '>' :: []) = '\n' :: replaceCloseHNl n [] from rfl,
      replaceCloseHNl_nil]
  · rw [show replaceCloseHNl ((a.length + ((b.length + (n + 1)) + 15)) + 3)
        ('<' :: 'p' :: '>' :: (a ++ ('\n' :: '<' :: 'p' :: '>' :: '&' :: 'n' :: 'b' :: 's' :: 'p' :: ';' :: '\n' :: '<' :: 'h' :: '2' :: '>' :: (b ++ ('<' :: '/' :: 'h' :: '2' :: '>' :: []))))) =
        '<' :: 'p' :: '>' :: replaceCloseHNl (a.length + ((b.length + (n + 1)) + 15))
          (a ++ ('\n' :: '<' :: 'p' :: '>' :: '&' :: 'n' :: 'b' :: 's' :: 'p' :: ';' :: '\n' :: '<' :: 'h' :: '2' :: '>' :: (b ++ ('<' :: '/' :: 'h' :: '2' :: '>' :: [])))) from rfl,
      replaceCloseHNl_plain a _ _ ha,
      show replaceCloseHNl ((b.length + (n + 1)) + 15) ('\n' :: '<' :: 'p' :: '>' :: '&' :: 'n' :: 'b' :: 's' :: 'p' :: ';' :: '\n' :: '<' :: 'h' :: '2' :: '>' :: (b ++ ('<' :: '/' :: 'h' :: '2' :: '>' :: []))) =
        '\n' :: '<' :: 'p' :: '>' :: '&' :: 'n' :: 'b' :: 's' :: 'p' :: ';' :: '\n' :: '<' :: 'h' :: '2' :: '>' ::  replaceCloseHNl (b.length + (n + 1)) (b ++ ('<' :: '/' :: 'h' :: '2' :: '>' :: [])) from rfl,
      replaceCloseHNl_plain b _ _ hb,
      show replaceCloseHNl (n + 1) ('<' :: '/' :: 'h' :: '2' :: '>' :: []) = '\n' :: replaceCloseHNl n [] from rfl,
      replaceCloseHNl_nil]

theorem textContentOfHtml_template (a b : Str) (d : Char) (n : Nat)
    (ha : ∀ c ∈ a, plainCh c = true) (hb : ∀ c ∈ b, plainCh c = true)
    (hd : d = '1' ∨ d = '2') :
    textContentOfHtml ((a.length + ((b.length + (n + 1)) + 5)) + 1)
        ('<' :: 'p' :: '>' :: (a ++ ('\n' :: '<' :: 'p' :: '>' :: '&' :: 'n' :: 'b' :: 's' :: 'p' :: ';' :: '\n' :: '<' :: 'h' :: d :: '>' :: (b ++ ('\n' :: []))))) =
      a ++ ('\n' :: '\u00a0' :: '\n' :: (b ++ ('\n' :: []))) := by
  rcases hd with rfl | rfl
  · rw [show textContentOfHtml ((a.length + ((b.length + (n + 1)) + 5)) + 1)
        ('<' :: 'p' :: '>' :: (a ++ ('\n' :: '<' :: 'p' :: '>' :: '&' :: 'n' :: 'b' :: 's' :: 'p' :: ';' :: '\n' :: '<' :: 'h' :: '1' :: '>' :: (b ++ ('\n' :: []))))) =
        textContentOfHtml (a.length + ((b.length + (n + 1)) + 5))
          (a ++ ('\n' :: '<' :: 'p' :: '>' :: '&' :: 'n' :: 'b' :: 's' :: 'p' :: ';' :: '\n' :: '<' :: 'h' :: '1' :: '>' :: (b ++ ('\n' :: [])))) from rfl,
      textContentOfHtml_plain a _ _ ha,
      show textContentOfHtml ((b.length + (n + 1)) + 5) ('\n' :: '<' :: 'p' :: '>' :: '&' :: 'n' :: 'b' :: 's' :: 'p' :: ';' :: '\n' :: '<' :: 'h' :: '1' :: '>' :: (b ++ ('\n' :: []))) =
        '\n' :: '\u00a0' :: '\n' :: textContentOfHtml (b.length + (n + 1)) (b ++ ('\n' :: [])) from rfl,
      textContentOfHtml_plain b _ _ hb,
      show textContentOfHtml (n + 1) ('\n' :: []) = '\n' :: textContentOfHtml n [] from rfl,
      textContentOfHtml_nil]
  · rw [show textContentOfHtml ((a.length + ((b.length + (n + 1)) + 5)) + 1)
        ('<' :: 'p' :: '>' :: (a ++ ('\n' :: '<' :: 'p' :: '>' :: '&' :: 'n' :: 'b' :: 's' :: 'p' :: ';' :: '\n' :: '<' :: 'h' :: '2' :: '>' :: (b ++ ('\n' :: []))))) =
        textContentOfHtml (a.length + ((b.length + (n + 1)) + 5))
          (a ++ ('\n' :: '<' :: 'p' :: '>' :: '&' :: 'n' :: 'b' :: 's' :: 'p' :: ';' :: '\n' :: '<' :: 'h' :: '2' :: '>' :: (b ++ ('\n' :: [])))) from rfl,
      textContentOfHtml_plain a _ _ ha,
      show textContentOfHtml ((b.length + (n + 1)) + 5) ('\n' :: '<' :: 'p' :: '>' :: '&' :: 'n' :: 'b' :: 's' :: 'p' :: ';' :: '\n' :: '<' :: 'h' :: '2' :: '>' :: (b ++ ('\n' :: []))) =
        '\n' :: '\u00a0' :: '\n' :: textContentOfHtml (b.length + (n + 1)) (b ++ ('\n' :: [])) from rfl,
      textContentOfHtml_plain b _ _ hb,
      show textContentOfHtml (n + 1) ('\n' :: []) = '\n' :: textContentOfHtml n [] from rfl,
      textContentOfHtml_nil]


theorem replaceNbsp_plain (x : Str) (h : ∀ c ∈ x, plainCh c = true) :
    replaceNbsp x = x := by
  induction x with
  | nil => rfl
  | cons c x ih =>
    have hws := (plainCh_props (h c (List.mem_cons_self c x))).2.2.2
    have hc : c ≠ ' ' := by
      intro hcc
      rw [hcc] at hws
      exact absurd hws (by decide)
    show (if c = ' ' then ' ' else c) :: replaceNbsp x = c :: x
    rw [if_neg hc, ih (fun y hy => h y (List.mem_cons_of_mem _ hy))]

theorem replaceNbsp_textContent (a b : Str)
    (ha : ∀ c ∈ a, plainCh c = true) (hb : ∀ c ∈ b, plainCh c = true) :
    replaceNbsp (a ++ ('\n' :: ' ' :: '\n' :: (b ++ ('\n' :: [])))) =
      a ++ ('\n' :: ' ' :: '\n' :: (b ++ ('\n' :: []))) := by
  unfold replaceNbsp
  rw [List.map_append, List.map_cons, List.map_cons, List.map_cons, List.map_append]
  rw [show List.map (fun c => if c = ' ' then ' ' else c) ['\n'] = ['\n'] from rfl]
  have h1 := replaceNbsp_plain a ha
  have h2 := replaceNbsp_plain b hb
  unfold replaceNbsp at h1 h2
  rw [h1, h2]
  rfl

theorem normLine_plain (x : Str) (h : ∀ c ∈ x, plainCh c = true) :
    normLine x = x := by
  cases x with
  | nil => rfl
  | cons c x =>
    have hws := (plainCh_props (h c (List.mem_cons_self c x))).2.2.2
    have hcs : c ≠ ' ' := by
      intro hcc
      rw [hcc] at hws
      exact absurd hws (by decide)
    unfold normLine
    rw [if_neg (by
      intro hx
      rw [show (c :: x).take 4 = c :: x.take 3 from rfl] at hx
      exact hcs (List.cons.injEq .. ▸ hx).1)]
    rw [List.dropWhile_cons, if_neg (by simp [hws])]

theorem splitNl_textContent (a b : Str)
    (ha : ∀ c ∈ a, plainCh c = true) (hb : ∀ c ∈ b, plainCh c = true) :
    splitNl (a ++ ('\n' :: ' ' :: '\n' :: (b ++ ('\n' :: [])))) =
      [a, [' '], b, []] := by
  rw [splitNl_plain a _ (fun c hc => (plainCh_props (ha c hc)).2.2.1)]
  rw [show ' ' :: '\n' :: (b ++ ('\n' :: [])) = [' '] ++ '\n' :: (b ++ ('\n' :: [])) from rfl]
  rw [splitNl_plain [' '] _ (by decide)]
  rw [show b ++ ('\n' :: []) = b ++ '\n' :: [] from rfl,
    splitNl_plain b _ (fun c hc => (plainCh_props (hb c hc)).2.2.1)]
  rfl

theorem joinNl_four (a b : Str) :
    joinNl [a, [], b, []] = a ++ ('\n' :: '\n' :: (b ++ ('\n' :: []))) := by
  show a ++ '\n' :: joinNl [[], b, []] = _
  rw [show joinNl [[], b, []] = [] ++ '\n' :: joinNl [b, []] from rfl]
  rw [show joinNl [b, []] = b ++ '\n' :: joinNl [[]] from rfl]
  rfl

theorem collapseNl_two (k : Nat) {c : Char} (rest : Str) (hc : c ≠ '\n') :
    collapseNl (k + 1) ('\n' :: '\n' :: c :: rest) =
      '\n' :: '\n' :: collapseNl k (c :: rest) := by
  conv_lhs => unfold collapseNl
  simp [List.takeWhile_cons, List.dropWhile_cons, hc]

theorem collapseNl_template (a : Str) (c : Char) (bt : Str) (n : Nat)
    (ha : ∀ x ∈ a, plainCh x = true) (hb : ∀ x ∈ c :: bt, plainCh x = true) :
    collapseNl (a.length + (((c :: bt).length + (n + 1)) + 1))
        (a ++ ('\n' :: '\n' :: ((c :: bt) ++ ('\n' :: [])))) =
      a ++ ('\n' :: '\n' :: ((c :: bt) ++ ('\n' :: []))) := by
  rw [collapseNl_plain a _ _ ha]
  refine congrArg (fun t => a ++ t) ?_
  have hc := (plainCh_props (hb c (List.mem_cons_self c bt))).2.2.1
  show collapseNl (((c :: bt).length + (n + 1)) + 1)
      ('\n' :: '\n' :: c :: (bt ++ ('\n' :: []))) = _
  rw [collapseNl_two _ _ hc]
  rw [show collapseNl ((c :: bt).length + (n + 1)) (c :: (bt ++ ('\n' :: []))) =
    (c :: bt) ++ collapseNl (n + 1) ('\n' :: []) from
    collapseNl_plain (c :: bt) (n + 1) ('\n' :: []) hb]
  rw [show collapseNl (n + 1) ('\n' :: []) = '\n' :: collapseNl n [] from rfl,
    collapseNl_nil]

theorem trimJs_template (a b : Str)
    (ha : ∀ c ∈ a, plainCh c = true) (hb : ∀ c ∈ b, plainCh c = true)
    (hna : a ≠ []) (hnb : b ≠ []) :
    trimJs ((a ++ ('\n' :: '\n' :: b)) ++ ('\n' :: [])) = a ++ ('\n' :: '\n' :: b) := by
  obtain ⟨ah, at', rfl⟩ := List.exists_cons_of_ne_nil hna
  obtain ⟨bl, bt', hrev⟩ := List.exists_cons_of_ne_nil
    (show b.reverse ≠ [] by simpa using hnb)
  have hah : isJsWs ah = false :=
    (plainCh_props (ha ah (List.mem_cons_self ah at'))).2.2.2
  have hbl : isJsWs bl = false := by
    have hm : bl ∈ b.reverse := by rw [hrev]; exact List.mem_cons_self bl bt'
    exact (plainCh_props (hb bl (List.mem_reverse.mp hm))).2.2.2
  unfold trimJs
  have hfront : (((ah :: at') ++ ('\n' :: '\n' :: b)) ++ ('\n' :: [])).dropWhile isJsWs =
      ((ah :: at') ++ ('\n' :: '\n' :: b)) ++ ('\n' :: []) := by
    show (ah :: ((at' ++ ('\n' :: '\n' :: b)) ++ ('\n' :: []))).dropWhile isJsWs = _
    rw [List.dropWhile_cons, if_neg (by simp [hah])]
    rfl
  rw [hfront]
  have hback : ((((ah :: at') ++ ('\n' :: '\n' :: b)) ++ ('\n' :: [])).reverse).dropWhile isJsWs =
      ((ah :: at') ++ ('\n' :: '\n' :: b)).reverse := by
    rw [List.reverse_append]
    rw [show (('\n' :: []).reverse ++ ((ah :: at') ++ ('\n' :: '\n' :: b)).reverse).dropWhile isJsWs =
      (('\n' :: ((ah :: at') ++ ('\n' :: '\n' :: b)).reverse)).dropWhile isJsWs from rfl]
    rw [List.dropWhile_cons, if_pos (by decide)]
    have hsplit : ((ah :: at') ++ ('\n' :: '\n' :: b)).reverse =
        bl :: (bt' ++ ('\n' :: '\n' :: (ah :: at').reverse)) := by
      rw [List.reverse_append]
      rw [show ('\n' :: '\n' :: b).reverse = b.reverse ++ ('\n' :: '\n' :: []) from by simp; try omega]
      rw [hrev]
      simp
    rw [hsplit, List.dropWhile_cons, if_neg (by simp [hbl]), ← hsplit]
  rw [hback, List.reverse_reverse]

theorem markupToPlainText_template (a b : Str) (d : Char)
    (ha : ∀ c ∈ a, plainCh c = true) (hb : ∀ c ∈ b, plainCh c = true)
    (hna : a ≠ []) (hnb : b ≠ []) (hd : d = '1' ∨ d = '2') :
    markupToPlainText ('<' :: 'p' :: '>' :: (a ++ ('<' :: '/' :: 'p' :: '>' :: '<' :: 'h' ::
        d :: '>' :: (b ++ ('<' :: '/' :: 'h' :: d :: '>' :: []))))) =
      a ++ ('\n' :: '\n' :: b) := by
  obtain ⟨bh, bt, rfl⟩ := List.exists_cons_of_ne_nil hnb
  have hinj : injectHeadingSeparators ('<' :: 'p' :: '>' :: (a ++ ('<' :: '/' :: 'p' :: '>' ::
      '<' :: 'h' :: d :: '>' :: ((bh :: bt) ++ ('<' :: '/' :: 'h' :: d :: '>' :: []))))) =
      '<' :: 'p' :: '>' :: (a ++ ('<' :: '/' :: 'p' :: '>' :: '<' :: 'p' :: '>' :: '&' ::
        'n' :: 'b' :: 's' :: 'p' :: ';' :: '<' :: '/' :: 'p' :: '>' :: '<' :: 'h' :: d ::
        '>' :: ((bh :: bt) ++ ('<' :: '/' :: 'h' :: d :: '>' :: [])))) := by
    unfold injectHeadingSeparators
    rw [show ('<' :: 'p' :: '>' :: (a ++ ('<' :: '/' :: 'p' :: '>' :: '<' :: 'h' :: d ::
        '>' :: ((bh :: bt) ++ ('<' :: '/' :: 'h' :: d :: '>' :: []))))).length =
      (a.length + (((bh :: bt).length + (7 + 5)) + 1)) + 3 from by simp; try omega]
    rw [injectSepGo_template a (bh :: bt) d 7 ha hb hd]
    simp only []
    rfl
  unfold markupToPlainText
  rw [if_neg (by exact List.cons_ne_nil _ _)]
  rw [hinj]
  simp only []
  rw [show ('<' :: 'p' :: '>' :: (a ++ ('<' :: '/' :: 'p' :: '>' :: '<' :: 'p' :: '>' :: '&' ::
      'n' :: 'b' :: 's' :: 'p' :: ';' :: '<' :: '/' :: 'p' :: '>' :: '<' :: 'h' :: d ::
      '>' :: ((bh :: bt) ++ ('<' :: '/' :: 'h' :: d :: '>' :: []))))).length =
    (a.length + (((bh :: bt).length + (0 + 5)) + 21)) + 3 from by simp; try omega]
  rw [replaceBrNl_template a (bh :: bt) d 0 ha hb hd]
  rw [show ('<' :: 'p' :: '>' :: (a ++ ('<' :: '/' :: 'p' :: '>' :: '<' :: 'p' :: '>' :: '&' ::
      'n' :: 'b' :: 's' :: 'p' :: ';' :: '<' :: '/' :: 'p' :: '>' :: '<' :: 'h' :: d ::
      '>' :: ((bh :: bt) ++ ('<' :: '/' :: 'h' :: d :: '>' :: []))))).length =
    (a.length + (((bh :: bt).length + (6 + 5)) + 15)) + 3 from by simp; try omega]
  rw [replaceClosePNl_template a (bh :: bt) d 6 ha hb hd]
  rw [show ('<' :: 'p' :: '>' :: (a ++ ('\n' :: '<' :: 'p' :: '>' :: '&' :: 'n' :: 'b' ::
      's' :: 'p' :: ';' :: '\n' :: '<' :: 'h' :: d :: '>' ::
      ((bh :: bt) ++ ('<' :: '/' :: 'h' :: d :: '>' :: []))))).length =
    (a.length + (((bh :: bt).length + (4 + 1)) + 15)) + 3 from by simp; try omega]
  rw [replaceCloseHNl_template a (bh :: bt) d 4 ha hb hd]
  rw [show ('<' :: 'p' :: '>' :: (a ++ ('\n' :: '<' :: 'p' :: '>' :: '&' :: 'n' :: 'b' ::
      's' :: 'p' :: ';' :: '\n' :: '<' :: 'h' :: d :: '>' ::
      ((bh :: bt) ++ ('\n' :: []))))).length =
    (a.length + (((bh :: bt).length + (12 + 1)) + 5)) + 1 from by simp; try omega]
  rw [textContentOfHtml_template a (bh :: bt) d 12 ha hb hd]
  rw [replaceNbsp_textContent a (bh :: bt) ha hb]
  rw [splitNl_textContent a (bh :: bt) ha hb]
  rw [show List.map normLine [a, [' '], bh :: bt, []] =
    [normLine a, normLine [' '], normLine (bh :: bt), normLine []] from rfl]
  rw [normLine_plain a ha, normLine_plain (bh :: bt) hb]
  rw [show normLine [' '] = [] from rfl, show normLine [] = [] from rfl]
  rw [joinNl_four]
  rw [show (a ++ ('\n' :: '\n' :: ((bh :: bt) ++ ('\n' :: [])))).length =
    a.length + (((bh :: bt).length + (1 + 1)) + 1) from by simp; try omega]
  rw [collapseNl_template a bh bt 1 ha hb]
  rw [show a ++ ('\n' :: '\n' :: ((bh :: bt) ++ ('\n' :: []))) =
    (a ++ ('\n' :: '\n' :: (bh :: bt))) ++ ('\n' :: []) from by simp; try omega]
  rw [trimJs_template a (bh :: bt) ha hb hna hnb]

theorem Rs_append {u v : Str} (hu : Rs u) (hv : Rs v) : Rs (u ++ v) := by
  induction hu with
  | nil => simpa using hv
  | chr hc _ ih => exact Rs.chr hc ih
  | tag ht _ ih =>
    rw [List.append_assoc]
    exact Rs.tag ht ih

theorem Rs_of_no_lt : ∀ {s : Str}, (∀ c ∈ s, c ≠ '<') → Rs s := by
  intro s
  induction s with
  | nil => intro _; exact Rs.nil
  | cons c r ih =>
    intro h
    exact Rs.chr (h c (List.mem_cons_self c r)) (ih fun x hx => h x (List.mem_cons_of_mem _ hx))

theorem escapeHtml_no_lt (v : Str) : ∀ c ∈ escapeHtml v, c ≠ '<' := by
  intro c hc
  unfold escapeHtml at hc
  rw [List.mem_flatMap] at hc
  obtain ⟨a, _, hmem⟩ := hc
  by_cases h1 : a = '&'
  · simp [h1, chars] at hmem
    rcases hmem with rfl | rfl | rfl | rfl | rfl <;> decide
  · by_cases h2 : a = '<'
    · simp [h1, h2, chars] at hmem
      rcases hmem with rfl | rfl | rfl | rfl <;> decide
    · by_cases h3 : a = '>'
      · simp [h1, h2, h3, chars] at hmem
        rcases hmem with rfl | rfl | rfl | rfl <;> decide
      · by_cases h4 : a = '"'
        · simp [h1, h2, h3, h4, chars] at hmem
          rcases hmem with rfl | rfl | rfl | rfl | rfl | rfl <;> decide
        · simp [h1, h2, h3, h4] at hmem
          subst hmem
          exact h2

theorem Rs_escapeHtml (v : Str) : Rs (escapeHtml v) :=
  Rs_of_no_lt (escapeHtml_no_lt v)

theorem rsLits_head : ∀ t ∈ rsLits, ∃ t', t = '<' :: t' := by
  intro t ht
  fin_cases ht <;> exact ⟨_, rfl⟩

theorem Rs_dropWhileWs : ∀ {s : Str}, Rs s → Rs (s.dropWhile isJsWs) := by
  intro s h
  induction h with
  | nil => exact Rs.nil
  | chr hc hs ih =>
    rename_i c s'
    by_cases hw : isJsWs c
    · rw [List.dropWhile_cons_of_pos hw]
      exact ih
    · rw [List.dropWhile_cons_of_neg hw]
      exact Rs.chr hc hs
  | tag ht hs ih =>
    rename_i t s'
    obtain ⟨t', rfl⟩ := rsLits_head _ ht
    rw [List.cons_append, List.dropWhile_cons_of_neg (by decide)]
    exact Rs.tag ht hs

theorem dropWhile_length_le (p : Char → Bool) (l : Str) :
    (List.dropWhile p l).length ≤ l.length := by
  induction l with
  | nil => simp
  | cons c r ih =>
    by_cases h : p c
    · rw [List.dropWhile_cons_of_pos h]
      exact Nat.le_trans ih (by simp)
    · rw [List.dropWhile_cons_of_neg h]

theorem rsLits_rstrip : ∀ t ∈ rsLits, (t.reverse.dropWhile isJsWs).reverse = t := by
  intro t ht
  fin_cases ht <;> decide

theorem Rs_rstrip : ∀ {s : Str}, Rs s → Rs ((s.reverse.dropWhile isJsWs).reverse) := by
  intro s h
  induction h with
  | nil => exact Rs.nil
  | chr hc hs ih =>
    rename_i c s'
    rw [List.reverse_cons, List.dropWhile_append]
    by_cases he : (s'.reverse.dropWhile isJsWs).isEmpty
    · rw [if_pos he]
      by_cases hw : isJsWs c
      · rw [List.dropWhile_cons_of_pos hw]
        exact Rs.nil
      · rw [List.dropWhile_cons_of_neg hw]
        exact Rs.chr hc Rs.nil
    · rw [if_neg he, List.reverse_append]
      simp only [List.reverse_singleton, List.singleton_append]
      exact Rs.chr hc ih
  | tag ht hs ih =>
    rename_i t s'
    rw [List.reverse_append, List.dropWhile_append]
    by_cases he : (s'.reverse.dropWhile isJsWs).isEmpty
    · rw [if_pos he]
      rw [rsLits_rstrip _ ht]
      have : Rs (t ++ []) := Rs.tag ht Rs.nil
      simpa using this
    · rw [if_neg he, List.reverse_append, List.reverse_reverse]
      exact Rs.tag ht ih

theorem Rs_trimJs {s : Str} (h : Rs s) : Rs (trimJs s) :=
  Rs_rstrip (Rs_dropWhileWs h)

theorem Rs_wrapParagraph {content : Str} (h : Rs content) : Rs (wrapParagraph content) := by
  unfold wrapParagraph
  by_cases h1 : content = []
  · rw [if_pos h1]; exact Rs.nil
  · rw [if_neg h1]
    by_cases h2 : isEffectivelyEmpty content
    · rw [if_pos h2]; exact Rs.nil
    · rw [if_neg h2, List.append_assoc]
      refine Rs.tag (by decide) (Rs_append (Rs_trimJs h) ?_)
      have : Rs ((chars "</p>") ++ []) := Rs.tag (by decide) Rs.nil
      simpa using this

theorem digitChar_ne_lt (d : Nat) : Nat.digitChar d ≠ '<' := by
  match d with
  | 0 => decide
  | 1 => decide
  | 2 => decide
  | 3 => decide
  | 4 => decide
  | 5 => decide
  | 6 => decide
  | 7 => decide
  | 8 => decide
  | 9 => decide
  | 10 => decide
  | 11 => decide
  | 12 => decide
  | 13 => decide
  | 14 => decide
  | 15 => decide
  | n + 16 =>
    show ('*' : Char) ≠ '<'
    decide

theorem toDigitsCore_ne_lt (b : Nat) :
    ∀ (fuel n : Nat) (ds : List Char), (∀ c ∈ ds, c ≠ '<') →
      ∀ c ∈ Nat.toDigitsCore b fuel n ds, c ≠ '<' := by
  intro fuel
  induction fuel with
  | zero =>
    intro n ds h
    simpa [Nat.toDigitsCore] using h
  | succ f ih =>
    intro n ds h
    have hcons : ∀ c ∈ Nat.digitChar (n % b) :: ds, c ≠ '<' := by
      intro c hc
      rcases List.mem_cons.mp hc with rfl | hm
      · exact digitChar_ne_lt _
      · exact h c hm
    have heq : Nat.toDigitsCore b (f + 1) n ds =
        if n / b = 0 then Nat.digitChar (n % b) :: ds
        else Nat.toDigitsCore b f (n / b) (Nat.digitChar (n % b) :: ds) := rfl
    rw [heq]
    split
    · exact hcons
    · exact ih (n / b) _ hcons

theorem natRepr_ne_lt (n : Nat) : ∀ c ∈ chars (Nat.repr n), c ≠ '<' := by
  have : chars (Nat.repr n) = Nat.toDigitsCore 10 (n + 1) n [] := rfl
  rw [this]
  exact toDigitsCore_ne_lt 10 (n + 1) n [] (by simp)

theorem renderCounter_ne_lt (cur : Option Int) : ∀ c ∈ renderCounter cur, c ≠ '<' := by
  cases cur with
  | none => intro c hc; simp [renderCounter, chars] at hc; rcases hc with rfl | rfl | rfl <;> decide
  | some n =>
    cases n with
    | ofNat m =>
      have : renderCounter (some (Int.ofNat m)) = chars (Nat.repr m) := rfl
      rw [this]
      exact natRepr_ne_lt m
    | negSucc m =>
      have : renderCounter (some (Int.negSucc m)) = '-' :: chars (Nat.repr (m + 1)) := rfl
      rw [this]
      intro c hc
      rcases List.mem_cons.mp hc with rfl | hm
      · decide
      · exact natRepr_ne_lt (m + 1) c hm

theorem Rs_nbspIndent (depth : Nat) : Rs (nbspIndent depth) := by
  apply Rs_of_no_lt
  intro c hc
  unfold nbspIndent at hc
  by_cases hd : 0 < depth
  · rw [if_pos hd] at hc
    rw [List.mem_flatten] at hc
    obtain ⟨l, hl, hcl⟩ := hc
    rw [List.mem_replicate] at hl
    rw [hl.2] at hcl
    simp [chars] at hcl
    rcases hcl with rfl | rfl | rfl | rfl | rfl | rfl <;> decide
  · rw [if_neg hd] at hc
    simp at hc

theorem Rs_lit {t : Str} (h : t ∈ rsLits) : Rs t := by
  have := Rs.tag h Rs.nil
  simpa using this

theorem inlineTagMap_cases {tag t : Str} (h : inlineTagMap tag = some t) :
    t = chars "b" ∨ t = chars "i" ∨ t = chars "u" := by
  unfold inlineTagMap at h
  split_ifs at h <;> simp_all

mutual

theorem serializeNode_rs (n : NNode) (ic : Bool) (d : Nat) :
    Rs (serializeNode n ic d).1 := by
  match n with
  | .text s =>
    show Rs (escapeHtml (collapseWs s))
    exact Rs_escapeHtml _
  | .elem tag attrs children =>
    simp only [serializeNode]
    split
    · exact Rs.nil
    · split
      · rename_i t hmap
        split
        · exact Rs.nil
        · rename_i hne
          rcases inlineTagMap_cases hmap with rfl | rfl | rfl
          · simp only [List.append_assoc]
            show Rs (chars "<b>" ++ ((serializeChildren children true d).1 ++ chars "</b>"))
            exact Rs.tag (by decide)
              (Rs_append (serializeChildren_rs children true d) (Rs_lit (by decide)))
          · simp only [List.append_assoc]
            show Rs (chars "<i>" ++ ((serializeChildren children true d).1 ++ chars "</i>"))
            exact Rs.tag (by decide)
              (Rs_append (serializeChildren_rs children true d) (Rs_lit (by decide)))
          · simp only [List.append_assoc]
            show Rs (chars "<u>" ++ ((serializeChildren children true d).1 ++ chars "</u>"))
            exact Rs.tag (by decide)
              (Rs_append (serializeChildren_rs children true d) (Rs_lit (by decide)))
      · split
        · rename_i lvl hlvl
          split
          · exact Rs.nil
          · by_cases h1 : lvl = 1
            · simp only [h1, if_pos, List.append_assoc]
              show Rs (chars "<h1>" ++ ((serializeChildren children true d).1 ++ chars "</h1>"))
              exact Rs.tag (by decide)
                (Rs_append (serializeChildren_rs children true d) (Rs_lit (by decide)))
            · simp only [if_neg h1, List.append_assoc]
              show Rs (chars "<h2>" ++ ((serializeChildren children true d).1 ++ chars "</h2>"))
              exact Rs.tag (by decide)
                (Rs_append (serializeChildren_rs children true d) (Rs_lit (by decide)))
        · split
          · exact Rs_lit (by decide)
          · split
            · split
              · exact convertItems_rs _ _ _ children
              · exact Rs.nil
            · split
              · exact Rs_wrapParagraph (serializeChildren_rs children false d)
              · split
                · exact serializeChildren_rs children ic d
                · exact Rs_wrapParagraph (serializeChildren_rs children ic d)

theorem serializeChildren_rs (l : List NNode) (ic : Bool) (d : Nat) :
    Rs (serializeChildren l ic d).1 := by
  match l with
  | [] => exact Rs.nil
  | n :: rest =>
    show Rs ((serializeNode n ic d).1 ++ (serializeChildren rest ic d).1)
    exact Rs_append (serializeNode_rs n ic d) (serializeChildren_rs rest ic d)

theorem convertItems_rs (io : Bool) (depth : Nat) (cur : Option Int) (l : List NNode) :
    Rs (convertItems io depth cur l).1 := by
  match l with
  | [] => exact Rs.nil
  | .text s :: rest =>
    show Rs (convertItems io depth cur rest).1
    exact convertItems_rs io depth cur rest
  | .elem tag a liKids :: rest =>
    simp only [convertItems]
    split
    · simp only []
      simp only [List.append_assoc]
      refine Rs.tag (by decide) ?_
      refine Rs_append (Rs_nbspIndent depth) ?_
      refine Rs_append ?_ ?_
      · by_cases hio : io
        · simp only [if_pos hio]
          exact Rs_append (Rs_of_no_lt (renderCounter_ne_lt cur)) (Rs_of_no_lt (by decide))
        · simp only [if_neg hio]
          exact Rs_of_no_lt (by decide)
      · refine Rs_append ?_ ?_
        · split
          · exact Rs_of_no_lt (by decide)
          · exact Rs_trimJs (inlineNonList_rs liKids depth)
        · refine Rs_append (Rs_lit (by decide)) ?_
          exact Rs_append (nestedListsOut_rs liKids depth)
            (convertItems_rs io depth (bumpCounter cur) rest)
    · exact convertItems_rs io depth cur rest

theorem inlineNonList_rs (l : List NNode) (depth : Nat) :
    Rs (inlineNonList l depth).1 := by
  match l with
  | [] => exact Rs.nil
  | child :: rest =>
    simp only [inlineNonList]
    split
    · exact inlineNonList_rs rest depth
    · show Rs ((serializeNode child true depth).1 ++ (inlineNonList rest depth).1)
      exact Rs_append (serializeNode_rs child true depth) (inlineNonList_rs rest depth)

theorem nestedListsOut_rs (l : List NNode) (depth : Nat) :
    Rs (nestedListsOut l depth).1 := by
  match l with
  | [] => exact Rs.nil
  | .text s :: rest =>
    show Rs (nestedListsOut rest depth).1
    exact nestedListsOut_rs rest depth
  | .elem tag a ch :: rest =>
    simp only [nestedListsOut]
    split
    · refine Rs_append ?_ (nestedListsOut_rs rest depth)
      split
      · exact convertItems_rs _ _ _ ch
      · exact Rs.nil
    · exact nestedListsOut_rs rest depth

end



theorem dropCi_nil (s : Str) : dropCi [] s = some s := rfl

theorem dropCi_pgt (s : Str) : dropCi (chars "p>") ('p' :: '>' :: s) = some s := rfl

theorem dropCi_rs (pat : Str) (hpat : ∀ p ∈ pat, lowerChar p ≠ '<') :
    ∀ {s r : Str}, Rs s → dropCi pat s = some r → Rs r ∧ r.length ≤ s.length := by
  induction pat with
  | nil =>
    intro s r hrs h
    rw [dropCi_nil] at h
    obtain rfl : s = r := Option.some.inj h
    exact ⟨hrs, Nat.le_refl _⟩
  | cons p ps ih =>
    intro s r hrs h
    cases hrs with
    | nil => exact absurd h (by simp [dropCi])
    | chr hc hs' =>
      rename_i c s'
      rw [show dropCi (p :: ps) (c :: s') =
          (if lowerChar c = lowerChar p then dropCi ps s' else none) from rfl] at h
      by_cases hl : lowerChar c = lowerChar p
      · rw [if_pos hl] at h
        obtain ⟨hr, hlen⟩ := ih (fun q hq => hpat q (List.mem_cons_of_mem _ hq)) hs' h
        exact ⟨hr, Nat.le_trans hlen (by simp)⟩
      · rw [if_neg hl] at h
        exact absurd h (by simp)
    | tag ht hs2 =>
      rename_i t s2
      obtain ⟨t', rfl⟩ := rsLits_head _ ht
      rw [List.cons_append] at h
      rw [show dropCi (p :: ps) ('<' :: (t' ++ s2)) =
          (if lowerChar '<' = lowerChar p then dropCi ps (t' ++ s2) else none) from rfl] at h
      rw [if_neg (fun hx => hpat p (List.mem_cons_self p ps) hx.symm)] at h
      exact absurd h (by simp)

theorem emptyParaInner_rs : ∀ (fuel : Nat) {s r : Str},
    Rs s → emptyParaInner fuel s = some r → Rs r ∧ r.length ≤ s.length := by
  intro fuel
  induction fuel with
  | zero =>
    intro s r _ h
    exact absurd h (by simp [emptyParaInner])
  | succ f ih =>
    intro s r hrs h
    cases hrs with
    | nil => exact absurd h (by simp [emptyParaInner])
    | chr hc hs' =>
      rename_i c s'
      rw [show emptyParaInner (f + 1) (c :: s') =
          (if isJsWs c then emptyParaInner f s'
           else if c = '&' then
             (match dropCi (chars "nbsp;") s' with
              | some r' => emptyParaInner f r'
              | none => none)
           else if c = '<' then
             (match dropCi (chars "/p>") s' with
              | some rest => some rest
              | none =>
                match brTagRest s' with
                | some r' => emptyParaInner f r'
                | none => none)
           else none) from rfl] at h
      by_cases hw : isJsWs c
      · rw [if_pos hw] at h
        obtain ⟨hr, hl⟩ := ih hs' h
        exact ⟨hr, Nat.le_trans hl (by simp)⟩
      · rw [if_neg hw] at h
        by_cases ha : c = '&'
        · rw [if_pos ha] at h
          cases hd : dropCi (chars "nbsp;") s' with
          | none => rw [hd] at h; exact absurd h (by simp)
          | some r' =>
            rw [hd] at h
            obtain ⟨hr', hl'⟩ := dropCi_rs (chars "nbsp;") (by decide) hs' hd
            obtain ⟨hr, hl⟩ := ih hr' h
            refine ⟨hr, ?_⟩
            simp only [List.length_cons]
            omega
        · rw [if_neg ha, if_neg hc] at h
          exact absurd h (by simp)
    | tag ht hs2 =>
      rename_i t s2
      simp only [rsLits, List.mem_cons, List.not_mem_nil, or_false] at ht
      rcases ht with rfl | rfl | rfl | rfl | rfl | rfl | rfl | rfl | rfl | rfl | rfl | rfl | rfl
      · -- "<p>"
        simp only [List.cons_append, List.nil_append] at h
        rw [show emptyParaInner (f + 1) ('<' :: 'p' :: '>' :: s2) = none from rfl] at h
        exact absurd h (by simp)
      · -- "</p>"
        simp only [List.cons_append, List.nil_append] at h
        rw [show emptyParaInner (f + 1) ('<' :: '/' :: 'p' :: '>' :: s2) = some s2 from rfl] at h
        obtain rfl : s2 = r := Option.some.inj h
        refine ⟨hs2, ?_⟩
        simp only [List.cons_append, List.nil_append, List.length_cons]
        omega
      · -- "<h1>"
        simp only [List.cons_append, List.nil_append] at h
        rw [show emptyParaInner (f + 1) ('<' :: 'h' :: '1' :: '>' :: s2) = none from rfl] at h
        exact absurd h (by simp)
      · -- "</h1>"
        simp only [List.cons_append, List.nil_append] at h
        rw [show emptyParaInner (f + 1) ('<' :: '/' :: 'h' :: '1' :: '>' :: s2) = none from rfl] at h
        exact absurd h (by simp)
      · -- "<h2>"
        simp only [List.cons_append, List.nil_append] at h
        rw [show emptyParaInner (f + 1) ('<' :: 'h' :: '2' :: '>' :: s2) = none from rfl] at h
        exact absurd h (by simp)
      · -- "</h2>"
        simp only [List.cons_append, List.nil_append] at h
        rw [show emptyParaInner (f + 1) ('<' :: '/' :: 'h' :: '2' :: '>' :: s2) = none from rfl] at h
        exact absurd h (by simp)
      · -- "<b>"
        simp only [List.cons_append, List.nil_append] at h
        rw [show emptyParaInner (f + 1) ('<' :: 'b' :: '>' :: s2) = none from rfl] at h
        exact absurd h (by simp)
      · -- "</b>"
        simp only [List.cons_append, List.nil_append] at h
        rw [show emptyParaInner (f + 1) ('<' :: '/' :: 'b' :: '>' :: s2) = none from rfl] at h
        exact absurd h (by simp)
      · -- "<i>"
        simp only [List.cons_append, List.nil_append] at h
        rw [show emptyParaInner (f + 1) ('<' :: 'i' :: '>' :: s2) = none from rfl] at h
        exact absurd h (by simp)
      · -- "</i>"
        simp only [List.cons_append, List.nil_append] at h
        rw [show emptyParaInner (f + 1) ('<' :: '/' :: 'i' :: '>' :: s2) = none from rfl] at h
        exact absurd h (by simp)
      · -- "<u>"
        simp only [List.cons_append, List.nil_append] at h
        rw [show emptyParaInner (f + 1) ('<' :: 'u' :: '>' :: s2) = none from rfl] at h
        exact absurd h (by simp)
      · -- "</u>"
        simp only [List.cons_append, List.nil_append] at h
        rw [show emptyParaInner (f + 1) ('<' :: '/' :: 'u' :: '>' :: s2) = none from rfl] at h
        exact absurd h (by simp)
      · -- "<br />"
        simp only [List.cons_append, List.nil_append] at h
        rw [show emptyParaInner (f + 1) ('<' :: 'b' :: 'r' :: ' ' :: '/' :: '>' :: s2) = emptyParaInner f s2 from rfl] at h
        obtain ⟨hr, hl⟩ := ih hs2 h
        refine ⟨hr, ?_⟩
        simp only [List.cons_append, List.nil_append, List.length_cons]
        omega

theorem remP_skip_cp (f : Nat) (s : Str) :
    removeEmptyParas (f + 4) ('<' :: '/' :: 'p' :: '>' :: s) = '<' :: '/' :: 'p' :: '>' :: removeEmptyParas f s := rfl

theorem remP_skip_h1 (f : Nat) (s : Str) :
    removeEmptyParas (f + 4) ('<' :: 'h' :: '1' :: '>' :: s) = '<' :: 'h' :: '1' :: '>' :: removeEmptyParas f s := rfl

theorem remP_skip_ch1 (f : Nat) (s : Str) :
    removeEmptyParas (f + 5) ('<' :: '/' :: 'h' :: '1' :: '>' :: s) = '<' :: '/' :: 'h' :: '1' :: '>' :: removeEmptyParas f s := rfl

theorem remP_skip_h2 (f : Nat) (s : Str) :
    removeEmptyParas (f + 4) ('<' :: 'h' :: '2' :: '>' :: s) = '<' :: 'h' :: '2' :: '>' :: removeEmptyParas f s := rfl

theorem remP_skip_ch2 (f : Nat) (s : Str) :
    removeEmptyParas (f + 5) ('<' :: '/' :: 'h' :: '2' :: '>' :: s) = '<' :: '/' :: 'h' :: '2' :: '>' :: removeEmptyParas f s := rfl

theorem remP_skip_b (f : Nat) (s : Str) :
    removeEmptyParas (f + 3) ('<' :: 'b' :: '>' :: s) = '<' :: 'b' :: '>' :: removeEmptyParas f s := rfl

theorem remP_skip_cb (f : Nat) (s : Str) :
    removeEmptyParas (f + 4) ('<' :: '/' :: 'b' :: '>' :: s) = '<' :: '/' :: 'b' :: '>' :: removeEmptyParas f s := rfl

theorem remP_skip_i (f : Nat) (s : Str) :
    removeEmptyParas (f + 3) ('<' :: 'i' :: '>' :: s) = '<' :: 'i' :: '>' :: removeEmptyParas f s := rfl

theorem remP_skip_ci (f : Nat) (s : Str) :
    removeEmptyParas (f + 4) ('<' :: '/' :: 'i' :: '>' :: s) = '<' :: '/' :: 'i' :: '>' :: removeEmptyParas f s := rfl

theorem remP_skip_u (f : Nat) (s : Str) :
    removeEmptyParas (f + 3) ('<' :: 'u' :: '>' :: s) = '<' :: 'u' :: '>' :: removeEmptyParas f s := rfl

theorem remP_skip_cu (f : Nat) (s : Str) :
    removeEmptyParas (f + 4) ('<' :: '/' :: 'u' :: '>' :: s) = '<' :: '/' :: 'u' :: '>' :: removeEmptyParas f s := rfl

theorem remP_skip_br_c (f : Nat) (s : Str) :
    removeEmptyParas (f + 6) ('<' :: 'b' :: 'r' :: ' ' :: '/' :: '>' :: s) = '<' :: 'b' :: 'r' :: ' ' :: '/' :: '>' :: removeEmptyParas f s := rfl

theorem remP_pgt (f : Nat) (s : Str) :
    removeEmptyParas (f + 2) ('p' :: '>' :: s) = 'p' :: '>' :: removeEmptyParas f s := rfl

theorem removeEmptyParas_rs : ∀ (F : Nat) (s : Str),
    s.length ≤ F → Rs s → Rs (removeEmptyParas F s) := by
  intro F
  induction F using Nat.strong_induction_on with
  | _ F IH =>
    intro s hlen hrs
    cases hrs with
    | nil =>
      cases F with
      | zero => exact Rs.nil
      | succ f => exact Rs.nil
    | chr hc hs' =>
      rename_i c s'
      obtain ⟨f, rfl⟩ : ∃ f, F = f + 1 := ⟨F - 1, by simp at hlen; omega⟩
      rw [show removeEmptyParas (f + 1) (c :: s') =
          (if c = '<' then
            (match dropCi (chars "p>") s' with
             | some inner =>
               (match emptyParaInner f inner with
                | some r => removeEmptyParas f r
                | none => c :: removeEmptyParas f s')
             | none => c :: removeEmptyParas f s')
           else c :: removeEmptyParas f s') from rfl]
      rw [if_neg hc]
      simp only [List.length_cons] at hlen
      exact Rs.chr hc (IH f (by omega) s' (by omega) hs')
    | tag ht hs2 =>
      rename_i t s2
      simp only [rsLits, List.mem_cons, List.not_mem_nil, or_false] at ht
      rcases ht with rfl | rfl | rfl | rfl | rfl | rfl | rfl | rfl | rfl | rfl | rfl | rfl | rfl
      · -- "<p>"
        simp only [List.cons_append, List.nil_append] at hlen ⊢
        simp only [List.length_cons] at hlen
        obtain ⟨f, rfl⟩ : ∃ f, F = f + 3 := ⟨F - 3, by omega⟩
        unfold removeEmptyParas
        rw [if_pos rfl, dropCi_pgt]
        split
        · rename_i inner heq
          obtain rfl : s2 = inner := Option.some.inj heq
          split
          · rename_i r heq2
            obtain ⟨hr, hl⟩ := emptyParaInner_rs (f + 2) hs2 heq2
            exact IH (f + 2) (by omega) r (by omega) hr
          · rename_i heq2
            rw [remP_pgt f s2]
            show Rs (['<', 'p', '>'] ++ removeEmptyParas f s2)
            exact Rs.tag (by decide) (IH f (by omega) s2 (by omega) hs2)
        · rename_i heq
          exact absurd heq (by simp)
      · simp only [List.cons_append, List.nil_append] at hlen ⊢
        simp only [List.length_cons] at hlen
        obtain ⟨f, rfl⟩ : ∃ f, F = f + 4 := ⟨F - 4, by omega⟩
        rw [remP_skip_cp f s2]
        show Rs (['<', '/', 'p', '>'] ++ removeEmptyParas f s2)
        exact Rs.tag (by decide) (IH f (by omega) s2 (by omega) hs2)
      · simp only [List.cons_append, List.nil_append] at hlen ⊢
        simp only [List.length_cons] at hlen
        obtain ⟨f, rfl⟩ : ∃ f, F = f + 4 := ⟨F - 4, by omega⟩
        rw [remP_skip_h1 f s2]
        show Rs (['<', 'h', '1', '>'] ++ removeEmptyParas f s2)
        exact Rs.tag (by decide) (IH f (by omega) s2 (by omega) hs2)
      · simp only [List.cons_append, List.nil_append] at hlen ⊢
        simp only [List.length_cons] at hlen
        obtain ⟨f, rfl⟩ : ∃ f, F = f + 5 := ⟨F - 5, by omega⟩
        rw [remP_skip_ch1 f s2]
        show Rs (['<', '/', 'h', '1', '>'] ++ removeEmptyParas f s2)
        exact Rs.tag (by decide) (IH f (by omega) s2 (by omega) hs2)
      · simp only [List.cons_append, List.nil_append] at hlen ⊢
        simp only [List.length_cons] at hlen
        obtain ⟨f, rfl⟩ : ∃ f, F = f + 4 := ⟨F - 4, by omega⟩
        rw [remP_skip_h2 f s2]
        show Rs (['<', 'h', '2', '>'] ++ removeEmptyParas f s2)
        exact Rs.tag (by decide) (IH f (by omega) s2 (by omega) hs2)
      · simp only [List.cons_append, List.nil_append] at hlen ⊢
        simp only [List.length_cons] at hlen
        obtain ⟨f, rfl⟩ : ∃ f, F = f + 5 := ⟨F - 5, by omega⟩
        rw [remP_skip_ch2 f s2]
        show Rs (['<', '/', 'h', '2', '>'] ++ removeEmptyParas f s2)
        exact Rs.tag (by decide) (IH f (by omega) s2 (by omega) hs2)
      · simp only [List.cons_append, List.nil_append] at hlen ⊢
        simp only [List.length_cons] at hlen
        obtain ⟨f, rfl⟩ : ∃ f, F = f + 3 := ⟨F - 3, by omega⟩
        rw [remP_skip_b f s2]
        show Rs (['<', 'b', '>'] ++ removeEmptyParas f s2)
        exact Rs.tag (by decide) (IH f (by omega) s2 (by omega) hs2)
      · simp only [List.cons_append, List.nil_append] at hlen ⊢
        simp only [List.length_cons] at hlen
        obtain ⟨f, rfl⟩ : ∃ f, F = f + 4 := ⟨F - 4, by omega⟩
        rw [remP_skip_cb f s2]
        show Rs (['<', '/', 'b', '>'] ++ removeEmptyParas f s2)
        exact Rs.tag (by decide) (IH f (by omega) s2 (by omega) hs2)
      · simp only [List.cons_append, List.nil_append] at hlen ⊢
        simp only [List.length_cons] at hlen
        obtain ⟨f, rfl⟩ : ∃ f, F = f + 3 := ⟨F - 3, by omega⟩
        rw [remP_skip_i f s2]
        show Rs (['<', 'i', '>'] ++ removeEmptyParas f s2)
        exact Rs.tag (by decide) (IH f (by omega) s2 (by omega) hs2)
      · simp only [List.cons_append, List.nil_append] at hlen ⊢
        simp only [List.length_cons] at hlen
        obtain ⟨f, rfl⟩ : ∃ f, F = f + 4 := ⟨F - 4, by omega⟩
        rw [remP_skip_ci f s2]
        show Rs (['<', '/', 'i', '>'] ++ removeEmptyParas f s2)
        exact Rs.tag (by decide) (IH f (by omega) s2 (by omega) hs2)
      · simp only [List.cons_append, List.nil_append] at hlen ⊢
        simp only [List.length_cons] at hlen
        obtain ⟨f, rfl⟩ : ∃ f, F = f + 3 := ⟨F - 3, by omega⟩
        rw [remP_skip_u f s2]
        show Rs (['<', 'u', '>'] ++ removeEmptyParas f s2)
        exact Rs.tag (by decide) (IH f (by omega) s2 (by omega) hs2)
      · simp only [List.cons_append, List.nil_append] at hlen ⊢
        simp only [List.length_cons] at hlen
        obtain ⟨f, rfl⟩ : ∃ f, F = f + 4 := ⟨F - 4, by omega⟩
        rw [remP_skip_cu f s2]
        show Rs (['<', '/', 'u', '>'] ++ removeEmptyParas f s2)
        exact Rs.tag (by decide) (IH f (by omega) s2 (by omega) hs2)
      · simp only [List.cons_append, List.nil_append] at hlen ⊢
        simp only [List.length_cons] at hlen
        obtain ⟨f, rfl⟩ : ∃ f, F = f + 6 := ⟨F - 6, by omega⟩
        rw [remP_skip_br_c f s2]
        show Rs (['<', 'b', 'r', ' ', '/', '>'] ++ removeEmptyParas f s2)
        exact Rs.tag (by decide) (IH f (by omega) s2 (by omega) hs2)

theorem isJsWs_ne_lt {c : Char} (h : isJsWs c = true) : c ≠ '<' := by
  rintro rfl
  simp [isJsWs] at h

theorem pOpenSplit_ne (c : Char) (rest : Str) (hc : c ≠ '<') :
    pOpenSplit (c :: rest) = none := by
  conv_lhs => unfold pOpenSplit
  split
  · rename_i heq
    injection heq with h1 _
    exact absurd h1 hc
  · rfl

theorem hOpenSplit_ne (c : Char) (rest : Str) (hc : c ≠ '<') :
    hOpenSplit (c :: rest) = none := by
  conv_lhs => unfold hOpenSplit
  split
  · rename_i heq
    injection heq with h1 _
    exact absurd h1 hc
  · rfl

theorem brFullSplit_ne (c : Char) (rest : Str) (hc : c ≠ '<') :
    brFullSplit (c :: rest) = none := by
  conv_lhs => unfold brFullSplit
  split
  · rename_i heq
    injection heq with h1 _
    exact absurd h1 hc
  · rfl

theorem wsTagSplit_ne (c : Char) (rest : Str) (hc : c ≠ '<') :
    wsTagSplit (c :: rest) = none := by
  conv_lhs => unfold wsTagSplit
  split
  · rename_i heq
    injection heq with h1 _
    exact absurd h1 hc
  · rfl

theorem wsTagSplit_nil : wsTagSplit [] = none := rfl

theorem delWsAfter_cons_none (m : Str → Option (Str × Str)) (f : Nat) (c : Char) (rest : Str)
    (hm : m (c :: rest) = none) :
    delWsAfter m (f + 1) (c :: rest) = c :: delWsAfter m f rest := by
  conv_lhs => unfold delWsAfter
  rw [hm]

theorem dwaP_p (f : Nat) (s : Str) :
    delWsAfter pOpenSplit (f + 3) ('<' :: 'p' :: '>' :: s) =
      '<' :: 'p' :: '>' :: delWsAfter pOpenSplit (f + 2) (s.dropWhile isJsWs) := rfl

theorem dwaP_cp (f : Nat) (s : Str) :
    delWsAfter pOpenSplit (f + 4) ('<' :: '/' :: 'p' :: '>' :: s) =
      '<' :: '/' :: 'p' :: '>' :: delWsAfter pOpenSplit f s := rfl

theorem dwaP_h1 (f : Nat) (s : Str) :
    delWsAfter pOpenSplit (f + 4) ('<' :: 'h' :: '1' :: '>' :: s) =
      '<' :: 'h' :: '1' :: '>' :: delWsAfter pOpenSplit f s := rfl

theorem dwaP_ch1 (f : Nat) (s : Str) :
    delWsAfter pOpenSplit (f + 5) ('<' :: '/' :: 'h' :: '1' :: '>' :: s) =
      '<' :: '/' :: 'h' :: '1' :: '>' :: delWsAfter pOpenSplit f s := rfl

theorem dwaP_h2 (f : Nat) (s : Str) :
    delWsAfter pOpenSplit (f + 4) ('<' :: 'h' :: '2' :: '>' :: s) =
      '<' :: 'h' :: '2' :: '>' :: delWsAfter pOpenSplit f s := rfl

theorem dwaP_ch2 (f : Nat) (s : Str) :
    delWsAfter pOpenSplit (f + 5) ('<' :: '/' :: 'h' :: '2' :: '>' :: s) =
      '<' :: '/' :: 'h' :: '2' :: '>' :: delWsAfter pOpenSplit f s := rfl

theorem dwaP_b (f : Nat) (s : Str) :
    delWsAfter pOpenSplit (f + 3) ('<' :: 'b' :: '>' :: s) =
      '<' :: 'b' :: '>' :: delWsAfter pOpenSplit f s := rfl

theorem dwaP_cb (f : Nat) (s : Str) :
    delWsAfter pOpenSplit (f + 4) ('<' :: '/' :: 'b' :: '>' :: s) =
      '<' :: '/' :: 'b' :: '>' :: delWsAfter pOpenSplit f s := rfl

theorem dwaP_i (f : Nat) (s : Str) :
    delWsAfter pOpenSplit (f + 3) ('<' :: 'i' :: '>' :: s) =
      '<' :: 'i' :: '>' :: delWsAfter pOpenSplit f s := rfl

theorem dwaP_ci (f : Nat) (s : Str) :
    delWsAfter pOpenSplit (f + 4) ('<' :: '/' :: 'i' :: '>' :: s) =
      '<' :: '/' :: 'i' :: '>' :: delWsAfter pOpenSplit f s := rfl

theorem dwaP_u (f : Nat) (s : Str) :
    delWsAfter pOpenSplit (f + 3) ('<' :: 'u' :: '>' :: s) =
      '<' :: 'u' :: '>' :: delWsAfter pOpenSplit f s := rfl

theorem dwaP_cu (f : Nat) (s : Str) :
    delWsAfter pOpenSplit (f + 4) ('<' :: '/' :: 'u' :: '>' :: s) =
      '<' :: '/' :: 'u' :: '>' :: delWsAfter pOpenSplit f s := rfl

theorem dwaP_br_c (f : Nat) (s : Str) :
    delWsAfter pOpenSplit (f + 6) ('<' :: 'b' :: 'r' :: ' ' :: '/' :: '>' :: s) =
      '<' :: 'b' :: 'r' :: ' ' :: '/' :: '>' :: delWsAfter pOpenSplit f s := rfl

theorem dwaH_p (f : Nat) (s : Str) :
    delWsAfter hOpenSplit (f + 3) ('<' :: 'p' :: '>' :: s) =
      '<' :: 'p' :: '>' :: delWsAfter hOpenSplit f s := rfl

theorem dwaH_cp (f : Nat) (s : Str) :
    delWsAfter hOpenSplit (f + 4) ('<' :: '/' :: 'p' :: '>' :: s) =
      '<' :: '/' :: 'p' :: '>' :: delWsAfter hOpenSplit f s := rfl

theorem dwaH_h1 (f : Nat) (s : Str) :
    delWsAfter hOpenSplit (f + 4) ('<' :: 'h' :: '1' :: '>' :: s) =
      '<' :: 'h' :: '1' :: '>' :: delWsAfter hOpenSplit (f + 3) (s.dropWhile isJsWs) := rfl

theorem dwaH_ch1 (f : Nat) (s : Str) :
    delWsAfter hOpenSplit (f + 5) ('<' :: '/' :: 'h' :: '1' :: '>' :: s) =
      '<' :: '/' :: 'h' :: '1' :: '>' :: delWsAfter hOpenSplit f s := rfl

theorem dwaH_h2 (f : Nat) (s : Str) :
    delWsAfter hOpenSplit (f + 4) ('<' :: 'h' :: '2' :: '>' :: s) =
      '<' :: 'h' :: '2' :: '>' :: delWsAfter hOpenSplit (f + 3) (s.dropWhile isJsWs) := rfl

theorem dwaH_ch2 (f : Nat) (s : Str) :
    delWsAfter hOpenSplit (f + 5) ('<' :: '/' :: 'h' :: '2' :: '>' :: s) =
      '<' :: '/' :: 'h' :: '2' :: '>' :: delWsAfter hOpenSplit f s := rfl

theorem dwaH_b (f : Nat) (s : Str) :
    delWsAfter hOpenSplit (f + 3) ('<' :: 'b' :: '>' :: s) =
      '<' :: 'b' :: '>' :: delWsAfter hOpenSplit f s := rfl

theorem dwaH_cb (f : Nat) (s : Str) :
    delWsAfter hOpenSplit (f + 4) ('<' :: '/' :: 'b' :: '>' :: s) =
      '<' :: '/' :: 'b' :: '>' :: delWsAfter hOpenSplit f s := rfl

theorem dwaH_i (f : Nat) (s : Str) :
    delWsAfter hOpenSplit (f + 3) ('<' :: 'i' :: '>' :: s) =
      '<' :: 'i' :: '>' :: delWsAfter hOpenSplit f s := rfl

theorem dwaH_ci (f : Nat) (s : Str) :
    delWsAfter hOpenSplit (f + 4) ('<' :: '/' :: 'i' :: '>' :: s) =
      '<' :: '/' :: 'i' :: '>' :: delWsAfter hOpenSplit f s := rfl

theorem dwaH_u (f : Nat) (s : Str) :
    delWsAfter hOpenSplit (f + 3) ('<' :: 'u' :: '>' :: s) =
      '<' :: 'u' :: '>' :: delWsAfter hOpenSplit f s := rfl

theorem dwaH_cu (f : Nat) (s : Str) :
    delWsAfter hOpenSplit (f + 4) ('<' :: '/' :: 'u' :: '>' :: s) =
      '<' :: '/' :: 'u' :: '>' :: delWsAfter hOpenSplit f s := rfl

theorem dwaH_br_c (f : Nat) (s : Str) :
    delWsAfter hOpenSplit (f + 6) ('<' :: 'b' :: 'r' :: ' ' :: '/' :: '>' :: s) =
      '<' :: 'b' :: 'r' :: ' ' :: '/' :: '>' :: delWsAfter hOpenSplit f s := rfl

theorem dwaBr_p (f : Nat) (s : Str) :
    delWsAfter brFullSplit (f + 3) ('<' :: 'p' :: '>' :: s) =
      '<' :: 'p' :: '>' :: delWsAfter brFullSplit f s := rfl

theorem dwaBr_cp (f : Nat) (s : Str) :
    delWsAfter brFullSplit (f + 4) ('<' :: '/' :: 'p' :: '>' :: s) =
      '<' :: '/' :: 'p' :: '>' :: delWsAfter brFullSplit f s := rfl

theorem dwaBr_h1 (f : Nat) (s : Str) :
    delWsAfter brFullSplit (f + 4) ('<' :: 'h' :: '1' :: '>' :: s) =
      '<' :: 'h' :: '1' :: '>' :: delWsAfter brFullSplit f s := rfl

theorem dwaBr_ch1 (f : Nat) (s : Str) :
    delWsAfter brFullSplit (f + 5) ('<' :: '/' :: 'h' :: '1' :: '>' :: s) =
      '<' :: '/' :: 'h' :: '1' :: '>' :: delWsAfter brFullSplit f s := rfl

theorem dwaBr_h2 (f : Nat) (s : Str) :
    delWsAfter brFullSplit (f + 4) ('<' :: 'h' :: '2' :: '>' :: s) =
      '<' :: 'h' :: '2' :: '>' :: delWsAfter brFullSplit f s := rfl

theorem dwaBr_ch2 (f : Nat) (s : Str) :
    delWsAfter brFullSplit (f + 5) ('<' :: '/' :: 'h' :: '2' :: '>' :: s) =
      '<' :: '/' :: 'h' :: '2' :: '>' :: delWsAfter brFullSplit f s := rfl

theorem dwaBr_b (f : Nat) (s : Str) :
    delWsAfter brFullSplit (f + 3) ('<' :: 'b' :: '>' :: s) =
      '<' :: 'b' :: '>' :: delWsAfter brFullSplit f s := rfl

theorem dwaBr_cb (f : Nat) (s : Str) :
    delWsAfter brFullSplit (f + 4) ('<' :: '/' :: 'b' :: '>' :: s) =
      '<' :: '/' :: 'b' :: '>' :: delWsAfter brFullSplit f s := rfl

theorem dwaBr_i (f : Nat) (s : Str) :
    delWsAfter brFullSplit (f + 3) ('<' :: 'i' :: '>' :: s) =
      '<' :: 'i' :: '>' :: delWsAfter brFullSplit f s := rfl

theorem dwaBr_ci (f : Nat) (s : Str) :
    delWsAfter brFullSplit (f + 4) ('<' :: '/' :: 'i' :: '>' :: s) =
      '<' :: '/' :: 'i' :: '>' :: delWsAfter brFullSplit f s := rfl

theorem dwaBr_u (f : Nat) (s : Str) :
    delWsAfter brFullSplit (f + 3) ('<' :: 'u' :: '>' :: s) =
      '<' :: 'u' :: '>' :: delWsAfter brFullSplit f s := rfl

theorem dwaBr_cu (f : Nat) (s : Str) :
    delWsAfter brFullSplit (f + 4) ('<' :: '/' :: 'u' :: '>' :: s) =
      '<' :: '/' :: 'u' :: '>' :: delWsAfter brFullSplit f s := rfl

theorem dwaBr_br_c (f : Nat) (s : Str) :
    delWsAfter brFullSplit (f + 6) ('<' :: 'b' :: 'r' :: ' ' :: '/' :: '>' :: s) =
      '<' :: 'b' :: 'r' :: ' ' :: '/' :: '>' :: delWsAfter brFullSplit (f + 5) (s.dropWhile isJsWs) := rfl

theorem delWsAfter_dwaP_rs : ∀ (F : Nat) (s : Str),
    s.length ≤ F → Rs s → Rs (delWsAfter pOpenSplit F s) := by
  intro F
  induction F using Nat.strong_induction_on with
  | _ F IH =>
    intro s hlen hrs
    cases hrs with
    | nil =>
      cases F with
      | zero => exact Rs.nil
      | succ f => exact Rs.nil
    | chr hc hs' =>
      rename_i c s'
      obtain ⟨f, rfl⟩ : ∃ f, F = f + 1 := ⟨F - 1, by simp at hlen; omega⟩
      rw [delWsAfter_cons_none pOpenSplit f c s' (pOpenSplit_ne c s' hc)]
      simp only [List.length_cons] at hlen
      exact Rs.chr hc (IH f (by omega) s' (by omega) hs')
    | tag ht hs2 =>
      rename_i t s2
      simp only [rsLits, List.mem_cons, List.not_mem_nil, or_false] at ht
      rcases ht with rfl | rfl | rfl | rfl | rfl | rfl | rfl | rfl | rfl | rfl | rfl | rfl | rfl
      · simp only [List.cons_append, List.nil_append] at hlen ⊢
        simp only [List.length_cons] at hlen
        obtain ⟨f, rfl⟩ : ∃ f, F = f + 3 := ⟨F - 3, by omega⟩
        rw [dwaP_p f s2]
        show Rs (['<', 'p', '>'] ++ delWsAfter pOpenSplit (f + 2) (s2.dropWhile isJsWs))
        refine Rs.tag (by decide) (IH (f + 2) (by omega) _ ?_ (Rs_dropWhileWs hs2))
        have := dropWhile_length_le isJsWs s2
        omega
      · simp only [List.cons_append, List.nil_append] at hlen ⊢
        simp only [List.length_cons] at hlen
        obtain ⟨f, rfl⟩ : ∃ f, F = f + 4 := ⟨F - 4, by omega⟩
        rw [dwaP_cp f s2]
        show Rs (['<', '/', 'p', '>'] ++ delWsAfter pOpenSplit f s2)
        exact Rs.tag (by decide) (IH f (by omega) s2 (by omega) hs2)
      · simp only [List.cons_append, List.nil_append] at hlen ⊢
        simp only [List.length_cons] at hlen
        obtain ⟨f, rfl⟩ : ∃ f, F = f + 4 := ⟨F - 4, by omega⟩
        rw [dwaP_h1 f s2]
        show Rs (['<', 'h', '1', '>'] ++ delWsAfter pOpenSplit f s2)
        exact Rs.tag (by decide) (IH f (by omega) s2 (by omega) hs2)
      · simp only [List.cons_append, List.nil_append] at hlen ⊢
        simp only [List.length_cons] at hlen
        obtain ⟨f, rfl⟩ : ∃ f, F = f + 5 := ⟨F - 5, by omega⟩
        rw [dwaP_ch1 f s2]
        show Rs (['<', '/', 'h', '1', '>'] ++ delWsAfter pOpenSplit f s2)
        exact Rs.tag (by decide) (IH f (by omega) s2 (by omega) hs2)
      · simp only [List.cons_append, List.nil_append] at hlen ⊢
        simp only [List.length_cons] at hlen
        obtain ⟨f, rfl⟩ : ∃ f, F = f + 4 := ⟨F - 4, by omega⟩
        rw [dwaP_h2 f s2]
        show Rs (['<', 'h', '2', '>'] ++ delWsAfter pOpenSplit f s2)
        exact Rs.tag (by decide) (IH f (by omega) s2 (by omega) hs2)
      · simp only [List.cons_append, List.nil_append] at hlen ⊢
        simp only [List.length_cons] at hlen
        obtain ⟨f, rfl⟩ : ∃ f, F = f + 5 := ⟨F - 5, by omega⟩
        rw [dwaP_ch2 f s2]
        show Rs (['<', '/', 'h', '2', '>'] ++ delWsAfter pOpenSplit f s2)
        exact Rs.tag (by decide) (IH f (by omega) s2 (by omega) hs2)
      · simp only [List.cons_append, List.nil_append] at hlen ⊢
        simp only [List.length_cons] at hlen
        obtain ⟨f, rfl⟩ : ∃ f, F = f + 3 := ⟨F - 3, by omega⟩
        rw [dwaP_b f s2]
        show Rs (['<', 'b', '>'] ++ delWsAfter pOpenSplit f s2)
        exact Rs.tag (by decide) (IH f (by omega) s2 (by omega) hs2)
      · simp only [List.cons_append, List.nil_append] at hlen ⊢
        simp only [List.length_cons] at hlen
        obtain ⟨f, rfl⟩ : ∃ f, F = f + 4 := ⟨F - 4, by omega⟩
        rw [dwaP_cb f s2]
        show Rs (['<', '/', 'b', '>'] ++ delWsAfter pOpenSplit f s2)
        exact Rs.tag (by decide) (IH f (by omega) s2 (by omega) hs2)
      · simp only [List.cons_append, List.nil_append] at hlen ⊢
        simp only [List.length_cons] at hlen
        obtain ⟨f, rfl⟩ : ∃ f, F = f + 3 := ⟨F - 3, by omega⟩
        rw [dwaP_i f s2]
        show Rs (['<', 'i', '>'] ++ delWsAfter pOpenSplit f s2)
        exact Rs.tag (by decide) (IH f (by omega) s2 (by omega) hs2)
      · simp only [List.cons_append, List.nil_append] at hlen ⊢
        simp only [List.length_cons] at hlen
        obtain ⟨f, rfl⟩ : ∃ f, F = f + 4 := ⟨F - 4, by omega⟩
        rw [dwaP_ci f s2]
        show Rs (['<', '/', 'i', '>'] ++ delWsAfter pOpenSplit f s2)
        exact Rs.tag (by decide) (IH f (by omega) s2 (by omega) hs2)
      · simp only [List.cons_append, List.nil_append] at hlen ⊢
        simp only [List.length_cons] at hlen
        obtain ⟨f, rfl⟩ : ∃ f, F = f + 3 := ⟨F - 3, by omega⟩
        rw [dwaP_u f s2]
        show Rs (['<', 'u', '>'] ++ delWsAfter pOpenSplit f s2)
        exact Rs.tag (by decide) (IH f (by omega) s2 (by omega) hs2)
      · simp only [List.cons_append, List.nil_append] at hlen ⊢
        simp only [List.length_cons] at hlen
        obtain ⟨f, rfl⟩ : ∃ f, F = f + 4 := ⟨F - 4, by omega⟩
        rw [dwaP_cu f s2]
        show Rs (['<', '/', 'u', '>'] ++ delWsAfter pOpenSplit f s2)
        exact Rs.tag (by decide) (IH f (by omega) s2 (by omega) hs2)
      · simp only [List.cons_append, List.nil_append] at hlen ⊢
        simp only [List.length_cons] at hlen
        obtain ⟨f, rfl⟩ : ∃ f, F = f + 6 := ⟨F - 6, by omega⟩
        rw [dwaP_br_c f s2]
        show Rs (['<', 'b', 'r', ' ', '/', '>'] ++ delWsAfter pOpenSplit f s2)
        exact Rs.tag (by decide) (IH f (by omega) s2 (by omega) hs2)

theorem delWsAfter_dwaH_rs : ∀ (F : Nat) (s : Str),
    s.length ≤ F → Rs s → Rs (delWsAfter hOpenSplit F s) := by
  intro F
  induction F using Nat.strong_induction_on with
  | _ F IH =>
    intro s hlen hrs
    cases hrs with
    | nil =>
      cases F with
      | zero => exact Rs.nil
      | succ f => exact Rs.nil
    | chr hc hs' =>
      rename_i c s'
      obtain ⟨f, rfl⟩ : ∃ f, F = f + 1 := ⟨F - 1, by simp at hlen; omega⟩
      rw [delWsAfter_cons_none hOpenSplit f c s' (hOpenSplit_ne c s' hc)]
      simp only [List.length_cons] at hlen
      exact Rs.chr hc (IH f (by omega) s' (by omega) hs')
    | tag ht hs2 =>
      rename_i t s2
      simp only [rsLits, List.mem_cons, List.not_mem_nil, or_false] at ht
      rcases ht with rfl | rfl | rfl | rfl | rfl | rfl | rfl | rfl | rfl | rfl | rfl | rfl | rfl
      · simp only [List.cons_append, List.nil_append] at hlen ⊢
        simp only [List.length_cons] at hlen
        obtain ⟨f, rfl⟩ : ∃ f, F = f + 3 := ⟨F - 3, by omega⟩
        rw [dwaH_p f s2]
        show Rs (['<', 'p', '>'] ++ delWsAfter hOpenSplit f s2)
        exact Rs.tag (by decide) (IH f (by omega) s2 (by omega) hs2)
      · simp only [List.cons_append, List.nil_append] at hlen ⊢
        simp only [List.length_cons] at hlen
        obtain ⟨f, rfl⟩ : ∃ f, F = f + 4 := ⟨F - 4, by omega⟩
        rw [dwaH_cp f s2]
        show Rs (['<', '/', 'p', '>'] ++ delWsAfter hOpenSplit f s2)
        exact Rs.tag (by decide) (IH f (by omega) s2 (by omega) hs2)
      · simp only [List.cons_append, List.nil_append] at hlen ⊢
        simp only [List.length_cons] at hlen
        obtain ⟨f, rfl⟩ : ∃ f, F = f + 4 := ⟨F - 4, by omega⟩
        rw [dwaH_h1 f s2]
        show Rs (['<', 'h', '1', '>'] ++ delWsAfter hOpenSplit (f + 3) (s2.dropWhile isJsWs))
        refine Rs.tag (by decide) (IH (f + 3) (by omega) _ ?_ (Rs_dropWhileWs hs2))
        have := dropWhile_length_le isJsWs s2
        omega
      · simp only [List.cons_append, List.nil_append] at hlen ⊢
        simp only [List.length_cons] at hlen
        obtain ⟨f, rfl⟩ : ∃ f, F = f + 5 := ⟨F - 5, by omega⟩
        rw [dwaH_ch1 f s2]
        show Rs (['<', '/', 'h', '1', '>'] ++ delWsAfter hOpenSplit f s2)
        exact Rs.tag (by decide) (IH f (by omega) s2 (by omega) hs2)
      · simp only [List.cons_append, List.nil_append] at hlen ⊢
        simp only [List.length_cons] at hlen
        obtain ⟨f, rfl⟩ : ∃ f, F = f + 4 := ⟨F - 4, by omega⟩
        rw [dwaH_h2 f s2]
        show Rs (['<', 'h', '2', '>'] ++ delWsAfter hOpenSplit (f + 3) (s2.dropWhile isJsWs))
        refine Rs.tag (by decide) (IH (f + 3) (by omega) _ ?_ (Rs_dropWhileWs hs2))
        have := dropWhile_length_le isJsWs s2
        omega
      · simp only [List.cons_append, List.nil_append] at hlen ⊢
        simp only [List.length_cons] at hlen
        obtain ⟨f, rfl⟩ : ∃ f, F = f + 5 := ⟨F - 5, by omega⟩
        rw [dwaH_ch2 f s2]
        show Rs (['<', '/', 'h', '2', '>'] ++ delWsAfter hOpenSplit f s2)
        exact Rs.tag (by decide) (IH f (by omega) s2 (by omega) hs2)
      · simp only [List.cons_append, List.nil_append] at hlen ⊢
        simp only [List.length_cons] at hlen
        obtain ⟨f, rfl⟩ : ∃ f, F = f + 3 := ⟨F - 3, by omega⟩
        rw [dwaH_b f s2]
        show Rs (['<', 'b', '>'] ++ delWsAfter hOpenSplit f s2)
        exact Rs.tag (by decide) (IH f (by omega) s2 (by omega) hs2)
      · simp only [List.cons_append, List.nil_append] at hlen ⊢
        simp only [List.length_cons] at hlen
        obtain ⟨f, rfl⟩ : ∃ f, F = f + 4 := ⟨F - 4, by omega⟩
        rw [dwaH_cb f s2]
        show Rs (['<', '/', 'b', '>'] ++ delWsAfter hOpenSplit f s2)
        exact Rs.tag (by decide) (IH f (by omega) s2 (by omega) hs2)
      · simp only [List.cons_append, List.nil_append] at hlen ⊢
        simp only [List.length_cons] at hlen
        obtain ⟨f, rfl⟩ : ∃ f, F = f + 3 := ⟨F - 3, by omega⟩
        rw [dwaH_i f s2]
        show Rs (['<', 'i', '>'] ++ delWsAfter hOpenSplit f s2)
        exact Rs.tag (by decide) (IH f (by omega) s2 (by omega) hs2)
      · simp only [List.cons_append, List.nil_append] at hlen ⊢
        simp only [List.length_cons] at hlen
        obtain ⟨f, rfl⟩ : ∃ f, F = f + 4 := ⟨F - 4, by omega⟩
        rw [dwaH_ci f s2]
        show Rs (['<', '/', 'i', '>'] ++ delWsAfter hOpenSplit f s2)
        exact Rs.tag (by decide) (IH f (by omega) s2 (by omega) hs2)
      · simp only [List.cons_append, List.nil_append] at hlen ⊢
        simp only [List.length_cons] at hlen
        obtain ⟨f, rfl⟩ : ∃ f, F = f + 3 := ⟨F - 3, by omega⟩
        rw [dwaH_u f s2]
        show Rs (['<', 'u', '>'] ++ delWsAfter hOpenSplit f s2)
        exact Rs.tag (by decide) (IH f (by omega) s2 (by omega) hs2)
      · simp only [List.cons_append, List.nil_append] at hlen ⊢
        simp only [List.length_cons] at hlen
        obtain ⟨f, rfl⟩ : ∃ f, F = f + 4 := ⟨F - 4, by omega⟩
        rw [dwaH_cu f s2]
        show Rs (['<', '/', 'u', '>'] ++ delWsAfter hOpenSplit f s2)
        exact Rs.tag (by decide) (IH f (by omega) s2 (by omega) hs2)
      · simp only [List.cons_append, List.nil_append] at hlen ⊢
        simp only [List.length_cons] at hlen
        obtain ⟨f, rfl⟩ : ∃ f, F = f + 6 := ⟨F - 6, by omega⟩
        rw [dwaH_br_c f s2]
        show Rs (['<', 'b', 'r', ' ', '/', '>'] ++ delWsAfter hOpenSplit f s2)
        exact Rs.tag (by decide) (IH f (by omega) s2 (by omega) hs2)

theorem delWsAfter_dwaBr_rs : ∀ (F : Nat) (s : Str),
    s.length ≤ F → Rs s → Rs (delWsAfter brFullSplit F s) := by
  intro F
  induction F using Nat.strong_induction_on with
  | _ F IH =>
    intro s hlen hrs
    cases hrs with
    | nil =>
      cases F with
      | zero => exact Rs.nil
      | succ f => exact Rs.nil
    | chr hc hs' =>
      rename_i c s'
      obtain ⟨f, rfl⟩ : ∃ f, F = f + 1 := ⟨F - 1, by simp at hlen; omega⟩
      rw [delWsAfter_cons_none brFullSplit f c s' (brFullSplit_ne c s' hc)]
      simp only [List.length_cons] at hlen
      exact Rs.chr hc (IH f (by omega) s' (by omega) hs')
    | tag ht hs2 =>
      rename_i t s2
      simp only [rsLits, List.mem_cons, List.not_mem_nil, or_false] at ht
      rcases ht with rfl | rfl | rfl | rfl | rfl | rfl | rfl | rfl | rfl | rfl | rfl | rfl | rfl
      · simp only [List.cons_append, List.nil_append] at hlen ⊢
        simp only [List.length_cons] at hlen
        obtain ⟨f, rfl⟩ : ∃ f, F = f + 3 := ⟨F - 3, by omega⟩
        rw [dwaBr_p f s2]
        show Rs (['<', 'p', '>'] ++ delWsAfter brFullSplit f s2)
        exact Rs.tag (by decide) (IH f (by omega) s2 (by omega) hs2)
      · simp only [List.cons_append, List.nil_append] at hlen ⊢
        simp only [List.length_cons] at hlen
        obtain ⟨f, rfl⟩ : ∃ f, F = f + 4 := ⟨F - 4, by omega⟩
        rw [dwaBr_cp f s2]
        show Rs (['<', '/', 'p', '>'] ++ delWsAfter brFullSplit f s2)
        exact Rs.tag (by decide) (IH f (by omega) s2 (by omega) hs2)
      · simp only [List.cons_append, List.nil_append] at hlen ⊢
        simp only [List.length_cons] at hlen
        obtain ⟨f, rfl⟩ : ∃ f, F = f + 4 := ⟨F - 4, by omega⟩
        rw [dwaBr_h1 f s2]
        show Rs (['<', 'h', '1', '>'] ++ delWsAfter brFullSplit f s2)
        exact Rs.tag (by decide) (IH f (by omega) s2 (by omega) hs2)
      · simp only [List.cons_append, List.nil_append] at hlen ⊢
        simp only [List.length_cons] at hlen
        obtain ⟨f, rfl⟩ : ∃ f, F = f + 5 := ⟨F - 5, by omega⟩
        rw [dwaBr_ch1 f s2]
        show Rs (['<', '/', 'h', '1', '>'] ++ delWsAfter brFullSplit f s2)
        exact Rs.tag (by decide) (IH f (by omega) s2 (by omega) hs2)
      · simp only [List.cons_append, List.nil_append] at hlen ⊢
        simp only [List.length_cons] at hlen
        obtain ⟨f, rfl⟩ : ∃ f, F = f + 4 := ⟨F - 4, by omega⟩
        rw [dwaBr_h2 f s2]
        show Rs (['<', 'h', '2', '>'] ++ delWsAfter brFullSplit f s2)
        exact Rs.tag (by decide) (IH f (by omega) s2 (by omega) hs2)
      · simp only [List.cons_append, List.nil_append] at hlen ⊢
        simp only [List.length_cons] at hlen
        obtain ⟨f, rfl⟩ : ∃ f, F = f + 5 := ⟨F - 5, by omega⟩
        rw [dwaBr_ch2 f s2]
        show Rs (['<', '/', 'h', '2', '>'] ++ delWsAfter brFullSplit f s2)
        exact Rs.tag (by decide) (IH f (by omega) s2 (by omega) hs2)
      · simp only [List.cons_append, List.nil_append] at hlen ⊢
        simp only [List.length_cons] at hlen
        obtain ⟨f, rfl⟩ : ∃ f, F = f + 3 := ⟨F - 3, by omega⟩
        rw [dwaBr_b f s2]
        show Rs (['<', 'b', '>'] ++ delWsAfter brFullSplit f s2)
        exact Rs.tag (by decide) (IH f (by omega) s2 (by omega) hs2)
      · simp only [List.cons_append, List.nil_append] at hlen ⊢
        simp only [List.length_cons] at hlen
        obtain ⟨f, rfl⟩ : ∃ f, F = f + 4 := ⟨F - 4, by omega⟩
        rw [dwaBr_cb f s2]
        show Rs (['<', '/', 'b', '>'] ++ delWsAfter brFullSplit f s2)
        exact Rs.tag (by decide) (IH f (by omega) s2 (by omega) hs2)
      · simp only [List.cons_append, List.nil_append] at hlen ⊢
        simp only [List.length_cons] at hlen
        obtain ⟨f, rfl⟩ : ∃ f, F = f + 3 := ⟨F - 3, by omega⟩
        rw [dwaBr_i f s2]
        show Rs (['<', 'i', '>'] ++ delWsAfter brFullSplit f s2)
        exact Rs.tag (by decide) (IH f (by omega) s2 (by omega) hs2)
      · simp only [List.cons_append, List.nil_append] at hlen ⊢
        simp only [List.length_cons] at hlen
        obtain ⟨f, rfl⟩ : ∃ f, F = f + 4 := ⟨F - 4, by omega⟩
        rw [dwaBr_ci f s2]
        show Rs (['<', '/', 'i', '>'] ++ delWsAfter brFullSplit f s2)
        exact Rs.tag (by decide) (IH f (by omega) s2 (by omega) hs2)
      · simp only [List.cons_append, List.nil_append] at hlen ⊢
        simp only [List.length_cons] at hlen
        obtain ⟨f, rfl⟩ : ∃ f, F = f + 3 := ⟨F - 3, by omega⟩
        rw [dwaBr_u f s2]
        show Rs (['<', 'u', '>'] ++ delWsAfter brFullSplit f s2)
        exact Rs.tag (by decide) (IH f (by omega) s2 (by omega) hs2)
      · simp only [List.cons_append, List.nil_append] at hlen ⊢
        simp only [List.length_cons] at hlen
        obtain ⟨f, rfl⟩ : ∃ f, F = f + 4 := ⟨F - 4, by omega⟩
        rw [dwaBr_cu f s2]
        show Rs (['<', '/', 'u', '>'] ++ delWsAfter brFullSplit f s2)
        exact Rs.tag (by decide) (IH f (by omega) s2 (by omega) hs2)
      · simp only [List.cons_append, List.nil_append] at hlen ⊢
        simp only [List.length_cons] at hlen
        obtain ⟨f, rfl⟩ : ∃ f, F = f + 6 := ⟨F - 6, by omega⟩
        rw [dwaBr_br_c f s2]
        show Rs (['<', 'b', 'r', ' ', '/', '>'] ++ delWsAfter brFullSplit (f + 5) (s2.dropWhile isJsWs))
        refine Rs.tag (by decide) (IH (f + 5) (by omega) _ ?_ (Rs_dropWhileWs hs2))
        have := dropWhile_length_le isJsWs s2
        omega

theorem wsTag_p (s : Str) :
    wsTagSplit ('<' :: 'p' :: '>' :: s) = some (['<', 'p', '>'], s) := rfl

theorem wsTag_cp (s : Str) :
    wsTagSplit ('<' :: '/' :: 'p' :: '>' :: s) = some (['<', '/', 'p', '>'], s) := rfl

theorem wsTag_h1 (s : Str) :
    wsTagSplit ('<' :: 'h' :: '1' :: '>' :: s) = some (['<', 'h', '1', '>'], s) := rfl

theorem wsTag_ch1 (s : Str) :
    wsTagSplit ('<' :: '/' :: 'h' :: '1' :: '>' :: s) = some (['<', '/', 'h', '1', '>'], s) := rfl

theorem wsTag_h2 (s : Str) :
    wsTagSplit ('<' :: 'h' :: '2' :: '>' :: s) = some (['<', 'h', '2', '>'], s) := rfl

theorem wsTag_ch2 (s : Str) :
    wsTagSplit ('<' :: '/' :: 'h' :: '2' :: '>' :: s) = some (['<', '/', 'h', '2', '>'], s) := rfl

theorem wsTag_b (s : Str) :
    wsTagSplit ('<' :: 'b' :: '>' :: s) = none := rfl

theorem wsTag_cb (s : Str) :
    wsTagSplit ('<' :: '/' :: 'b' :: '>' :: s) = none := rfl

theorem wsTag_i (s : Str) :
    wsTagSplit ('<' :: 'i' :: '>' :: s) = none := rfl

theorem wsTag_ci (s : Str) :
    wsTagSplit ('<' :: '/' :: 'i' :: '>' :: s) = none := rfl

theorem wsTag_u (s : Str) :
    wsTagSplit ('<' :: 'u' :: '>' :: s) = none := rfl

theorem wsTag_cu (s : Str) :
    wsTagSplit ('<' :: '/' :: 'u' :: '>' :: s) = none := rfl

theorem wsTag_br_c (s : Str) :
    wsTagSplit ('<' :: 'b' :: 'r' :: ' ' :: '/' :: '>' :: s) = some (['<', 'b', 'r', ' ', '/', '>'], s) := rfl

theorem delWsBeforeTag_unfold (f : Nat) (c : Char) (rest : Str) :
    delWsBeforeTag (f + 1) (c :: rest) =
      (if isJsWs c then
        (match wsTagSplit ((c :: rest).dropWhile isJsWs) with
         | some (tag, r) => tag ++ delWsBeforeTag f r
         | none => c :: delWsBeforeTag f rest)
       else c :: delWsBeforeTag f rest) := rfl

theorem delWsBeforeTag_nonws (f : Nat) (c : Char) (rest : Str) (hw : isJsWs c = false) :
    delWsBeforeTag (f + 1) (c :: rest) = c :: delWsBeforeTag f rest := by
  rw [delWsBeforeTag_unfold]
  simp only [hw, Bool.false_eq_true, if_false]

theorem delWsBeforeTag_ws_some (f : Nat) (c : Char) (rest tg r : Str) (hw : isJsWs c = true)
    (hm : wsTagSplit ((c :: rest).dropWhile isJsWs) = some (tg, r)) :
    delWsBeforeTag (f + 1) (c :: rest) = tg ++ delWsBeforeTag f r := by
  rw [delWsBeforeTag_unfold, if_pos hw, hm]

theorem delWsBeforeTag_ws_none (f : Nat) (c : Char) (rest : Str) (hw : isJsWs c = true)
    (hm : wsTagSplit ((c :: rest).dropWhile isJsWs) = none) :
    delWsBeforeTag (f + 1) (c :: rest) = c :: delWsBeforeTag f rest := by
  rw [delWsBeforeTag_unfold, if_pos hw, hm]

theorem dwb_p (f : Nat) (s : Str) :
    delWsBeforeTag (f + 3) ('<' :: 'p' :: '>' :: s) = '<' :: 'p' :: '>' :: delWsBeforeTag f s := rfl

theorem dwb_cp (f : Nat) (s : Str) :
    delWsBeforeTag (f + 4) ('<' :: '/' :: 'p' :: '>' :: s) = '<' :: '/' :: 'p' :: '>' :: delWsBeforeTag f s := rfl

theorem dwb_h1 (f : Nat) (s : Str) :
    delWsBeforeTag (f + 4) ('<' :: 'h' :: '1' :: '>' :: s) = '<' :: 'h' :: '1' :: '>' :: delWsBeforeTag f s := rfl

theorem dwb_ch1 (f : Nat) (s : Str) :
    delWsBeforeTag (f + 5) ('<' :: '/' :: 'h' :: '1' :: '>' :: s) = '<' :: '/' :: 'h' :: '1' :: '>' :: delWsBeforeTag f s := rfl

theorem dwb_h2 (f : Nat) (s : Str) :
    delWsBeforeTag (f + 4) ('<' :: 'h' :: '2' :: '>' :: s) = '<' :: 'h' :: '2' :: '>' :: delWsBeforeTag f s := rfl

theorem dwb_ch2 (f : Nat) (s : Str) :
    delWsBeforeTag (f + 5) ('<' :: '/' :: 'h' :: '2' :: '>' :: s) = '<' :: '/' :: 'h' :: '2' :: '>' :: delWsBeforeTag f s := rfl

theorem dwb_b (f : Nat) (s : Str) :
    delWsBeforeTag (f + 3) ('<' :: 'b' :: '>' :: s) = '<' :: 'b' :: '>' :: delWsBeforeTag f s := rfl

theorem dwb_cb (f : Nat) (s : Str) :
    delWsBeforeTag (f + 4) ('<' :: '/' :: 'b' :: '>' :: s) = '<' :: '/' :: 'b' :: '>' :: delWsBeforeTag f s := rfl

theorem dwb_i (f : Nat) (s : Str) :
    delWsBeforeTag (f + 3) ('<' :: 'i' :: '>' :: s) = '<' :: 'i' :: '>' :: delWsBeforeTag f s := rfl

theorem dwb_ci (f : Nat) (s : Str) :
    delWsBeforeTag (f + 4) ('<' :: '/' :: 'i' :: '>' :: s) = '<' :: '/' :: 'i' :: '>' :: delWsBeforeTag f s := rfl

theorem dwb_u (f : Nat) (s : Str) :
    delWsBeforeTag (f + 3) ('<' :: 'u' :: '>' :: s) = '<' :: 'u' :: '>' :: delWsBeforeTag f s := rfl

theorem dwb_cu (f : Nat) (s : Str) :
    delWsBeforeTag (f + 4) ('<' :: '/' :: 'u' :: '>' :: s) = '<' :: '/' :: 'u' :: '>' :: delWsBeforeTag f s := rfl

theorem dwb_br_c (f : Nat) (s : Str) :
    delWsBeforeTag (f + 6) ('<' :: 'b' :: 'r' :: ' ' :: '/' :: '>' :: s) = '<' :: 'b' :: 'r' :: ' ' :: '/' :: '>' :: delWsBeforeTag f s := rfl

theorem delWsBeforeTag_rs : ∀ (F : Nat) (s : Str),
    s.length ≤ F → Rs s → Rs (delWsBeforeTag F s) := by
  intro F
  induction F using Nat.strong_induction_on with
  | _ F IH =>
    intro s hlen hrs
    cases hrs with
    | nil =>
      cases F with
      | zero => exact Rs.nil
      | succ f => exact Rs.nil
    | chr hc hs' =>
      rename_i c s'
      obtain ⟨f, rfl⟩ : ∃ f, F = f + 1 := ⟨F - 1, by simp at hlen; omega⟩
      simp only [List.length_cons] at hlen
      by_cases hw : isJsWs c
      · -- whitespace head: a tag match may trigger after the run
        have hyRs : Rs (s'.dropWhile isJsWs) := Rs_dropWhileWs hs'
        have hylen := dropWhile_length_le isJsWs s'
        have hyd : (c :: s').dropWhile isJsWs = s'.dropWhile isJsWs :=
          List.dropWhile_cons_of_pos hw
        generalize hy : s'.dropWhile isJsWs = y at hyRs hylen hyd
        cases hyRs with
        | nil =>
          rw [delWsBeforeTag_ws_none f c s' hw (by rw [hyd]; exact wsTagSplit_nil)]
          exact Rs.chr (isJsWs_ne_lt hw) (IH f (by omega) s' (by omega) hs')
        | chr hc2 hs3 =>
          rename_i c2 s3
          rw [delWsBeforeTag_ws_none f c s' hw (by rw [hyd]; exact wsTagSplit_ne c2 s3 hc2)]
          exact Rs.chr (isJsWs_ne_lt hw) (IH f (by omega) s' (by omega) hs')
        | tag ht2 hs3 =>
          rename_i t2 s3
          simp only [rsLits, List.mem_cons, List.not_mem_nil, or_false] at ht2
          rcases ht2 with rfl | rfl | rfl | rfl | rfl | rfl | rfl | rfl | rfl | rfl | rfl | rfl | rfl
          · simp only [List.cons_append, List.nil_append] at hyd
            simp at hylen
            rw [delWsBeforeTag_ws_some f c s' ['<', 'p', '>'] s3 hw (by rw [hyd]; exact wsTag_p s3)]
            exact Rs.tag (by decide) (IH f (by omega) s3 (by omega) hs3)
          · simp only [List.cons_append, List.nil_append] at hyd
            simp at hylen
            rw [delWsBeforeTag_ws_some f c s' ['<', '/', 'p', '>'] s3 hw (by rw [hyd]; exact wsTag_cp s3)]
            exact Rs.tag (by decide) (IH f (by omega) s3 (by omega) hs3)
          · simp only [List.cons_append, List.nil_append] at hyd
            simp at hylen
            rw [delWsBeforeTag_ws_some f c s' ['<', 'h', '1', '>'] s3 hw (by rw [hyd]; exact wsTag_h1 s3)]
            exact Rs.tag (by decide) (IH f (by omega) s3 (by omega) hs3)
          · simp only [List.cons_append, List.nil_append] at hyd
            simp at hylen
            rw [delWsBeforeTag_ws_some f c s' ['<', '/', 'h', '1', '>'] s3 hw (by rw [hyd]; exact wsTag_ch1 s3)]
            exact Rs.tag (by decide) (IH f (by omega) s3 (by omega) hs3)
          · simp only [List.cons_append, List.nil_append] at hyd
            simp at hylen
            rw [delWsBeforeTag_ws_some f c s' ['<', 'h', '2', '>'] s3 hw (by rw [hyd]; exact wsTag_h2 s3)]
            exact Rs.tag (by decide) (IH f (by omega) s3 (by omega) hs3)
          · simp only [List.cons_append, List.nil_append] at hyd
            simp at hylen
            rw [delWsBeforeTag_ws_some f c s' ['<', '/', 'h', '2', '>'] s3 hw (by rw [hyd]; exact wsTag_ch2 s3)]
            exact Rs.tag (by decide) (IH f (by omega) s3 (by omega) hs3)
          · simp only [List.cons_append, List.nil_append] at hyd
            rw [delWsBeforeTag_ws_none f c s' hw (by rw [hyd]; exact wsTag_b s3)]
            exact Rs.chr (isJsWs_ne_lt hw) (IH f (by omega) s' (by omega) hs')
          · simp only [List.cons_append, List.nil_append] at hyd
            rw [delWsBeforeTag_ws_none f c s' hw (by rw [hyd]; exact wsTag_cb s3)]
            exact Rs.chr (isJsWs_ne_lt hw) (IH f (by omega) s' (by omega) hs')
          · simp only [List.cons_append, List.nil_append] at hyd
            rw [delWsBeforeTag_ws_none f c s' hw (by rw [hyd]; exact wsTag_i s3)]
            exact Rs.chr (isJsWs_ne_lt hw) (IH f (by omega) s' (by omega) hs')
          · simp only [List.cons_append, List.nil_append] at hyd
            rw [delWsBeforeTag_ws_none f c s' hw (by rw [hyd]; exact wsTag_ci s3)]
            exact Rs.chr (isJsWs_ne_lt hw) (IH f (by omega) s' (by omega) hs')
          · simp only [List.cons_append, List.nil_append] at hyd
            rw [delWsBeforeTag_ws_none f c s' hw (by rw [hyd]; exact wsTag_u s3)]
            exact Rs.chr (isJsWs_ne_lt hw) (IH f (by omega) s' (by omega) hs')
          · simp only [List.cons_append, List.nil_append] at hyd
            rw [delWsBeforeTag_ws_none f c s' hw (by rw [hyd]; exact wsTag_cu s3)]
            exact Rs.chr (isJsWs_ne_lt hw) (IH f (by omega) s' (by omega) hs')
          · simp only [List.cons_append, List.nil_append] at hyd
            simp at hylen
            rw [delWsBeforeTag_ws_some f c s' ['<', 'b', 'r', ' ', '/', '>'] s3 hw (by rw [hyd]; exact wsTag_br_c s3)]
            exact Rs.tag (by decide) (IH f (by omega) s3 (by omega) hs3)
      · rw [delWsBeforeTag_nonws f c s' (by simpa using hw)]
        exact Rs.chr hc (IH f (by omega) s' (by omega) hs')
    | tag ht hs2 =>
      rename_i t s2
      simp only [rsLits, List.mem_cons, List.not_mem_nil, or_false] at ht
      rcases ht with rfl | rfl | rfl | rfl | rfl | rfl | rfl | rfl | rfl | rfl | rfl | rfl | rfl
      · simp only [List.cons_append, List.nil_append] at hlen ⊢
        simp only [List.length_cons] at hlen
        obtain ⟨f, rfl⟩ : ∃ f, F = f + 3 := ⟨F - 3, by omega⟩
        rw [dwb_p f s2]
        show Rs (['<', 'p', '>'] ++ delWsBeforeTag f s2)
        exact Rs.tag (by decide) (IH f (by omega) s2 (by omega) hs2)
      · simp only [List.cons_append, List.nil_append] at hlen ⊢
        simp only [List.length_cons] at hlen
        obtain ⟨f, rfl⟩ : ∃ f, F = f + 4 := ⟨F - 4, by omega⟩
        rw [dwb_cp f s2]
        show Rs (['<', '/', 'p', '>'] ++ delWsBeforeTag f s2)
        exact Rs.tag (by decide) (IH f (by omega) s2 (by omega) hs2)
      · simp only [List.cons_append, List.nil_append] at hlen ⊢
        simp only [List.length_cons] at hlen
        obtain ⟨f, rfl⟩ : ∃ f, F = f + 4 := ⟨F - 4, by omega⟩
        rw [dwb_h1 f s2]
        show Rs (['<', 'h', '1', '>'] ++ delWsBeforeTag f s2)
        exact Rs.tag (by decide) (IH f (by omega) s2 (by omega) hs2)
      · simp only [List.cons_append, List.nil_append] at hlen ⊢
        simp only [List.length_cons] at hlen
        obtain ⟨f, rfl⟩ : ∃ f, F = f + 5 := ⟨F - 5, by omega⟩
        rw [dwb_ch1 f s2]
        show Rs (['<', '/', 'h', '1', '>'] ++ delWsBeforeTag f s2)
        exact Rs.tag (by decide) (IH f (by omega) s2 (by omega) hs2)
      · simp only [List.cons_append, List.nil_append] at hlen ⊢
        simp only [List.length_cons] at hlen
        obtain ⟨f, rfl⟩ : ∃ f, F = f + 4 := ⟨F - 4, by omega⟩
        rw [dwb_h2 f s2]
        show Rs (['<', 'h', '2', '>'] ++ delWsBeforeTag f s2)
        exact Rs.tag (by decide) (IH f (by omega) s2 (by omega) hs2)
      · simp only [List.cons_append, List.nil_append] at hlen ⊢
        simp only [List.length_cons] at hlen
        obtain ⟨f, rfl⟩ : ∃ f, F = f + 5 := ⟨F - 5, by omega⟩
        rw [dwb_ch2 f s2]
        show Rs (['<', '/', 'h', '2', '>'] ++ delWsBeforeTag f s2)
        exact Rs.tag (by decide) (IH f (by omega) s2 (by omega) hs2)
      · simp only [List.cons_append, List.nil_append] at hlen ⊢
        simp only [List.length_cons] at hlen
        obtain ⟨f, rfl⟩ : ∃ f, F = f + 3 := ⟨F - 3, by omega⟩
        rw [dwb_b f s2]
        show Rs (['<', 'b', '>'] ++ delWsBeforeTag f s2)
        exact Rs.tag (by decide) (IH f (by omega) s2 (by omega) hs2)
      · simp only [List.cons_append, List.nil_append] at hlen ⊢
        simp only [List.length_cons] at hlen
        obtain ⟨f, rfl⟩ : ∃ f, F = f + 4 := ⟨F - 4, by omega⟩
        rw [dwb_cb f s2]
        show Rs (['<', '/', 'b', '>'] ++ delWsBeforeTag f s2)
        exact Rs.tag (by decide) (IH f (by omega) s2 (by omega) hs2)
      · simp only [List.cons_append, List.nil_append] at hlen ⊢
        simp only [List.length_cons] at hlen
        obtain ⟨f, rfl⟩ : ∃ f, F = f + 3 := ⟨F - 3, by omega⟩
        rw [dwb_i f s2]
        show Rs (['<', 'i', '>'] ++ delWsBeforeTag f s2)
        exact Rs.tag (by decide) (IH f (by omega) s2 (by omega) hs2)
      · simp only [List.cons_append, List.nil_append] at hlen ⊢
        simp only [List.length_cons] at hlen
        obtain ⟨f, rfl⟩ : ∃ f, F = f + 4 := ⟨F - 4, by omega⟩
        rw [dwb_ci f s2]
        show Rs (['<', '/', 'i', '>'] ++ delWsBeforeTag f s2)
        exact Rs.tag (by decide) (IH f (by omega) s2 (by omega) hs2)
      · simp only [List.cons_append, List.nil_append] at hlen ⊢
        simp only [List.length_cons] at hlen
        obtain ⟨f, rfl⟩ : ∃ f, F = f + 3 := ⟨F - 3, by omega⟩
        rw [dwb_u f s2]
        show Rs (['<', 'u', '>'] ++ delWsBeforeTag f s2)
        exact Rs.tag (by decide) (IH f (by omega) s2 (by omega) hs2)
      · simp only [List.cons_append, List.nil_append] at hlen ⊢
        simp only [List.length_cons] at hlen
        obtain ⟨f, rfl⟩ : ∃ f, F = f + 4 := ⟨F - 4, by omega⟩
        rw [dwb_cu f s2]
        show Rs (['<', '/', 'u', '>'] ++ delWsBeforeTag f s2)
        exact Rs.tag (by decide) (IH f (by omega) s2 (by omega) hs2)
      · simp only [List.cons_append, List.nil_append] at hlen ⊢
        simp only [List.length_cons] at hlen
        obtain ⟨f, rfl⟩ : ∃ f, F = f + 6 := ⟨F - 6, by omega⟩
        rw [dwb_br_c f s2]
        show Rs (['<', 'b', 'r', ' ', '/', '>'] ++ delWsBeforeTag f s2)
        exact Rs.tag (by decide) (IH f (by omega) s2 (by omega) hs2)

theorem cleanupOutput_rs {s : Str} (h : Rs s) : Rs (cleanupOutput s) := by
  unfold cleanupOutput
  exact Rs_trimJs
    (delWsBeforeTag_rs _ _ (Nat.le_refl _)
      (delWsAfter_dwaBr_rs _ _ (Nat.le_refl _)
        (delWsAfter_dwaH_rs _ _ (Nat.le_refl _)
          (delWsAfter_dwaP_rs _ _ (Nat.le_refl _)
            (removeEmptyParas_rs _ _ (Nat.le_refl _) h)))))

theorem containsStr_cons (c : Char) (rest needle : Str) :
    containsStr (c :: rest) needle =
      (needle.isPrefixOf (c :: rest) || containsStr rest needle) := rfl

theorem bad_not_prefix :
    ∀ bad ∈ badHeadingTags, ∀ (c : Char) (s' : Str), c ≠ '<' →
      bad.isPrefixOf (c :: s') = false := by
  intro bad hbad
  fin_cases hbad <;>
  · intro c s' hc
    show (('<' == c) && _) = false
    rw [beq_eq_false_iff_ne.mpr (Ne.symm hc), Bool.false_and]

theorem containsStr_lit_skip :
    ∀ t ∈ rsLits, ∀ bad ∈ badHeadingTags, ∀ s : Str,
      containsStr (t ++ s) bad = containsStr s bad := by
  intro t ht bad hbad
  fin_cases ht <;> fin_cases hbad <;> intro s <;> rfl

theorem Rs_no_heading : ∀ {s : Str}, Rs s →
    ∀ bad ∈ badHeadingTags, containsStr s bad = false := by
  intro s h
  induction h with
  | nil => intro bad hbad; fin_cases hbad <;> rfl
  | chr hc _ ih =>
    intro bad hbad
    rw [containsStr_cons, bad_not_prefix bad hbad _ _ hc, Bool.false_or]
    exact ih bad hbad
  | tag ht _ ih =>
    intro bad hbad
    rw [containsStr_lit_skip _ ht bad hbad]
    exact ih bad hbad

theorem html_no_heading (rawHtml : Str) :
    ∀ bad ∈ badHeadingTags,
      containsStr (convertRichTextToKeepMarkup rawHtml).html bad = false := by
  intro bad hbad
  unfold convertRichTextToKeepMarkup
  by_cases hg : trimJs (stripTags (replaceNbsp rawHtml)) = []
  · simp only [hg, if_pos]
    fin_cases hbad <;> rfl
  · simp only [hg, if_neg, if_false]
    exact Rs_no_heading
      (cleanupOutput_rs (serializeChildren_rs
        (parseHtmlFragment (chars "<div>" ++ replaceNbsp rawHtml ++ chars "</div>")) false 0))
      bad hbad

/-- C2: for every heading element of source level 1–6 whose serialized inline
content is non-empty, the serializer emits exactly one output heading wrap —
level 1 maps to `<h1>…</h1>` and levels 2–6 map to `<h2>…</h2>` — and no
other heading tag (open or close form of `h3`–`h6`) ever occurs as a
substring of the `html` output of the conversion, for any input string. -/
theorem c2_heading_mapping :
    (∀ (c : Char) (attrs : List (Str × Str)) (children : List NNode)
       (ic : Bool) (d : Nat),
      (serializeChildren children true d).1 ≠ [] →
      ((c = '1' →
        (serializeNode (.elem ['H', c] attrs children) ic d).1 =
          chars "<h1>" ++ (serializeChildren children true d).1 ++ chars "</h1>") ∧
       (c = '2' ∨ c = '3' ∨ c = '4' ∨ c = '5' ∨ c = '6' →
        (serializeNode (.elem ['H', c] attrs children) ic d).1 =
          chars "<h2>" ++ (serializeChildren children true d).1 ++ chars "</h2>"))) ∧
    (∀ rawHtml : Str, ∀ bad ∈ badHeadingTags,
      containsStr (convertRichTextToKeepMarkup rawHtml).html bad = false) := by
  constructor
  · intro c attrs children ic d hne
    constructor
    · rintro rfl
      simp [serializeNode, inlineTagMap, headingLevel, chars, hne]
    · rintro (rfl | rfl | rfl | rfl | rfl) <;>
        simp [serializeNode, inlineTagMap, headingLevel, chars, hne]
  · exact html_no_heading

theorem c2_heading_mapping_witness :
    (serializeNode (.elem ['H', '1'] [] [.text (chars "T")]) false 0).1 =
      chars "<h1>" ++ (serializeChildren [.text (chars "T")] true 0).1 ++ chars "</h1>" ∧
    (serializeNode (.elem ['H', '3'] [] [.text (chars "T")]) false 0).1 =
      chars "<h2>" ++ (serializeChildren [.text (chars "T")] true 0).1 ++ chars "</h2>" ∧
    containsStr (convertRichTextToKeepMarkup (chars "<h3>x</h3>")).html ['<', 'h', '3'] = false :=
  ⟨(c2_heading_mapping.1 '1' [] [.text (chars "T")] false 0 (by decide)).1 rfl,
   (c2_heading_mapping.1 '3' [] [.text (chars "T")] false 0 (by decide)).2
     (Or.inr (Or.inl rfl)),
   c2_heading_mapping.2 (chars "<h3>x</h3>") ['<', 'h', '3'] (by decide)⟩

theorem remP_step_ne (f : Nat) (c : Char) (rest : Str) (hc : c ≠ '<') :
    removeEmptyParas (f + 1) (c :: rest) = c :: removeEmptyParas f rest := by
  rw [show removeEmptyParas (f + 1) (c :: rest) =
      (if c = '<' then
        (match dropCi (chars "p>") rest with
         | some inner =>
           (match emptyParaInner f inner with
            | some r => removeEmptyParas f r
            | none => c :: removeEmptyParas f rest)
         | none => c :: removeEmptyParas f rest)
       else c :: removeEmptyParas f rest) from rfl]
  rw [if_neg hc]

theorem remP_lt_none (f : Nat) (rest : Str) (hd : dropCi (chars "p>") rest = none) :
    removeEmptyParas (f + 1) ('<' :: rest) = '<' :: removeEmptyParas f rest := by
  conv_lhs => unfold removeEmptyParas
  rw [if_pos rfl, hd]

theorem remP_lt_some_none (f : Nat) (rest inner : Str)
    (hd : dropCi (chars "p>") rest = some inner)
    (hE : emptyParaInner f inner = none) :
    removeEmptyParas (f + 1) ('<' :: rest) = '<' :: removeEmptyParas f rest := by
  conv_lhs => unfold removeEmptyParas
  rw [if_pos rfl, hd]
  split
  · rename_i inner2 heq
    obtain rfl : inner = inner2 := Option.some.inj heq
    split
    · rename_i r heq2
      rw [hE] at heq2
      exact absurd heq2 (by simp)
    · rfl
  · rename_i heq
    exact absurd heq (by simp)

theorem hasEmptyPara_step_ne (f : Nat) (c : Char) (rest : Str) (hc : c ≠ '<') :
    hasEmptyPara (f + 1) (c :: rest) = hasEmptyPara f rest := by
  rw [show hasEmptyPara (f + 1) (c :: rest) =
      (if c = '<' then
        (match dropCi (chars "p>") rest with
         | some inner =>
           (match emptyParaInner f inner with
            | some r => true
            | none => hasEmptyPara f rest)
         | none => hasEmptyPara f rest)
       else hasEmptyPara f rest) from rfl]
  rw [if_neg hc]

theorem hasEmptyPara_lt_none (f : Nat) (rest : Str) (hd : dropCi (chars "p>") rest = none) :
    hasEmptyPara (f + 1) ('<' :: rest) = hasEmptyPara f rest := by
  conv_lhs => unfold hasEmptyPara
  rw [if_pos rfl, hd]

theorem hasEmptyPara_lt_some (f : Nat) (rest inner : Str)
    (hd : dropCi (chars "p>") rest = some inner) :
    hasEmptyPara (f + 1) ('<' :: rest) =
      (match emptyParaInner f inner with
       | some _ => true
       | none => hasEmptyPara f rest) := by
  conv_lhs => unfold hasEmptyPara
  rw [if_pos rfl, hd]

theorem hasEmptyPara_id : ∀ (F : Nat) (s : Str),
    hasEmptyPara F s = false → removeEmptyParas F s = s := by
  intro F
  induction F with
  | zero => intro s _; rfl
  | succ f ih =>
    intro s h
    cases s with
    | nil => rfl
    | cons c rest =>
      by_cases hc : c = '<'
      · subst hc
        cases hd : dropCi (chars "p>") rest with
        | none =>
          rw [remP_lt_none f rest hd]
          rw [hasEmptyPara_lt_none f rest hd] at h
          rw [ih rest h]
        | some inner =>
          rw [hasEmptyPara_lt_some f rest inner hd] at h
          cases hE : emptyParaInner f inner with
          | some r =>
            rw [hE] at h
            exact absurd h (by simp)
          | none =>
            rw [hE] at h
            rw [remP_lt_some_none f rest inner hd hE, ih rest h]
      · rw [remP_step_ne f c rest hc]
        rw [hasEmptyPara_step_ne f c rest hc] at h
        rw [ih rest h]

theorem takeThruGt_split : ∀ (s mid r : Str), takeThruGt s = some (mid, r) → s = mid ++ r := by
  intro s
  induction s with
  | nil => intro mid r h; simp [takeThruGt] at h
  | cons c cs ih =>
    intro mid r h
    unfold takeThruGt at h
    split at h
    next ha => exact absurd ha (by simp)
    next x rest heq =>
      cases h
      exact heq
    next x hd rest hne heq =>
      injection heq with hc hcs
      subst hc hcs
      split at h
      next m' r' heq2 =>
        cases h
        rw [List.cons_append, ← ih _ _ heq2]
      next => exact absurd h (by simp)

theorem dropCi_take_split : ∀ (pat s r : Str),
    dropCi pat s = some r → s = s.take pat.length ++ r := by
  intro pat
  induction pat with
  | nil =>
    intro s r h
    rw [dropCi_nil] at h
    cases h
    rfl
  | cons p ps ih =>
    intro s r h
    cases s with
    | nil => simp [dropCi] at h
    | cons c cs =>
      rw [show dropCi (p :: ps) (c :: cs) =
          (if lowerChar c = lowerChar p then dropCi ps cs else none) from rfl] at h
      by_cases hl : lowerChar c = lowerChar p
      · rw [if_pos hl] at h
        rw [show (c :: cs).take (p :: ps).length = c :: cs.take ps.length from rfl,
            List.cons_append, ← ih _ _ h]
      · rw [if_neg hl] at h
        exact absurd h (by simp)

theorem pOpenSplit_split : ∀ (s tg r : Str), pOpenSplit s = some (tg, r) → s = tg ++ r := by
  intro s tg r h
  unfold pOpenSplit at h
  split at h
  next c2 rest2 =>
    by_cases hl : lowerChar c2 = 'p'
    · rw [if_pos hl] at h
      split at h
      next mid r' heq2 =>
        cases h
        rw [List.cons_append, List.cons_append, ← takeThruGt_split _ _ _ heq2]
      next => exact absurd h (by simp)
    · rw [if_neg hl] at h
      exact absurd h (by simp)
  next => exact absurd h (by simp)

theorem hOpenSplit_split : ∀ (s tg r : Str), hOpenSplit s = some (tg, r) → s = tg ++ r := by
  intro s tg r h
  unfold hOpenSplit at h
  split at h
  next c2 d2 rest2 =>
    by_cases hl : (lowerChar c2 = 'h' && (d2 = '1' || d2 = '2')) = true
    · rw [if_pos hl] at h
      split at h
      next mid r' heq2 =>
        cases h
        rw [List.cons_append, List.cons_append, List.cons_append,
          ← takeThruGt_split _ _ _ heq2]
      next => exact absurd h (by simp)
    · rw [if_neg hl] at h
      exact absurd h (by simp)
  next => exact absurd h (by simp)

theorem brTagRestTake_split : ∀ (s m r : Str), brTagRestTake s = some (m, r) → s = m ++ r := by
  intro s m r h
  unfold brTagRestTake at h
  split at h
  next => exact absurd h (by simp)
  next s1 heq =>
    have hs : s = s.take 2 ++ s1 := by
      have := dropCi_take_split (chars "br") s s1 heq
      simpa using this
    split at h
    next r' heq2 =>
      cases h
      conv_lhs => rw [hs, ← List.takeWhile_append_dropWhile (p := isJsWs) (l := s1)]
      rw [heq2]
      simp [chars]
    next r' heq2 =>
      cases h
      conv_lhs => rw [hs, ← List.takeWhile_append_dropWhile (p := isJsWs) (l := s1)]
      rw [heq2]
      simp [chars]
    next => exact absurd h (by simp)

theorem brFullSplit_split : ∀ (s tg r : Str), brFullSplit s = some (tg, r) → s = tg ++ r := by
  intro s tg r h
  unfold brFullSplit at h
  split at h
  next rest =>
    split at h
    next m' r' heq =>
      cases h
      rw [List.cons_append, ← brTagRestTake_split _ _ _ heq]
    next => exact absurd h (by simp)
  next => exact absurd h (by simp)

theorem delWsAfter_cons_some (m : Str → Option (Str × Str)) (f : Nat) (c : Char)
    (rest tg r : Str) (hm : m (c :: rest) = some (tg, r)) :
    delWsAfter m (f + 1) (c :: rest) = tg ++ delWsAfter m f (r.dropWhile isJsWs) := by
  conv_lhs => unfold delWsAfter
  rw [hm]

theorem hasWsAfter_cons_none (m : Str → Option (Str × Str)) (f : Nat) (c : Char)
    (rest : Str) (hm : m (c :: rest) = none) :
    hasWsAfter m (f + 1) (c :: rest) = hasWsAfter m f rest := by
  conv_lhs => unfold hasWsAfter
  rw [hm]

theorem hasWsAfter_cons_some (m : Str → Option (Str × Str)) (f : Nat) (c : Char)
    (rest tg r : Str) (hm : m (c :: rest) = some (tg, r)) :
    hasWsAfter m (f + 1) (c :: rest) =
      (if r.dropWhile isJsWs = r then hasWsAfter m f r else true) := by
  conv_lhs => unfold hasWsAfter
  rw [hm]

theorem delWsAfter_id (m : Str → Option (Str × Str))
    (hsplit : ∀ s tg r, m s = some (tg, r) → s = tg ++ r) :
    ∀ (F : Nat) (s : Str), hasWsAfter m F s = false → delWsAfter m F s = s := by
  intro F
  induction F with
  | zero => intro s _; rfl
  | succ f ih =>
    intro s h
    cases s with
    | nil => rfl
    | cons c rest =>
      cases hm : m (c :: rest) with
      | none =>
        rw [delWsAfter_cons_none m f c rest hm]
        rw [hasWsAfter_cons_none m f c rest hm] at h
        rw [ih rest h]
      | some p =>
        obtain ⟨tg, r⟩ := p
        rw [delWsAfter_cons_some m f c rest tg r hm]
        rw [hasWsAfter_cons_some m f c rest tg r hm] at h
        by_cases hdw : r.dropWhile isJsWs = r
        · rw [if_pos hdw] at h
          rw [hdw, ih r h]
          exact (hsplit _ tg r hm).symm
        · rw [if_neg hdw] at h
          exact absurd h (by simp)

theorem hasWsBefore_unfold (f : Nat) (c : Char) (rest : Str) :
    hasWsBefore (f + 1) (c :: rest) =
      (if isJsWs c then
        (match wsTagSplit ((c :: rest).dropWhile isJsWs) with
         | some _ => true
         | none => hasWsBefore f rest)
       else hasWsBefore f rest) := rfl

theorem delWsBeforeTag_id : ∀ (F : Nat) (s : Str),
    hasWsBefore F s = false → delWsBeforeTag F s = s := by
  intro F
  induction F with
  | zero => intro s _; rfl
  | succ f ih =>
    intro s h
    cases s with
    | nil => rfl
    | cons c rest =>
      rw [hasWsBefore_unfold f c rest] at h
      by_cases hw : isJsWs c
      · rw [if_pos hw] at h
        cases hm : wsTagSplit ((c :: rest).dropWhile isJsWs) with
        | some p =>
          rw [hm] at h
          exact absurd h (by simp)
        | none =>
          rw [hm] at h
          rw [delWsBeforeTag_ws_none f c rest (by simpa using hw) hm, ih rest h]
      · rw [if_neg hw] at h
        rw [delWsBeforeTag_nonws f c rest (by simpa using hw), ih rest h]

theorem rev_lastCh : ∀ (rest : Str) (c : Char),
    ∃ u, (c :: rest).reverse = lastCh c rest :: u := by
  intro rest
  induction rest with
  | nil => intro c; exact ⟨[], rfl⟩
  | cons d rest' ih =>
    intro c
    obtain ⟨u, hu⟩ := ih d
    refine ⟨u ++ [c], ?_⟩
    rw [show (c :: d :: rest').reverse = (d :: rest').reverse ++ [c] by simp]
    rw [hu]
    rfl

theorem trimJs_id : ∀ (s : Str), noEdgeWs s = true → trimJs s = s := by
  intro s h
  cases s with
  | nil => rfl
  | cons c rest =>
    have h2 : isJsWs c = false ∧ isJsWs (lastCh c rest) = false := by
      rw [show noEdgeWs (c :: rest) = (!isJsWs c && !isJsWs (lastCh c rest)) from rfl] at h
      constructor
      · cases hx : isJsWs c
        · rfl
        · rw [hx] at h; simp at h
      · cases hx : isJsWs (lastCh c rest)
        · rfl
        · rw [hx] at h; simp at h
    unfold trimJs
    rw [List.dropWhile_cons_of_neg (by simp [h2.1])]
    obtain ⟨u, hu⟩ := rev_lastCh rest c
    rw [hu, List.dropWhile_cons_of_neg (by simp [h2.2]), ← hu, List.reverse_reverse]

/-- C7 counterexample: a single left-to-right scan of the empty-paragraph
pass can itself create a new removable empty paragraph, so `cleanupOutput` is
not idempotent on all strings: on `"<p><p> </p></p>"` one application yields
`"<p></p>"` and a second application yields `""`. -/
theorem c7_cleanup_idempotent_counterexample :
    ¬ (cleanupOutput (cleanupOutput (chars "<p><p> </p></p>")) =
       cleanupOutput (chars "<p><p> </p></p>")) := by decide

/-- C7 (amended): `cleanupOutput` is idempotent on every string whose cleaned
form is free of residual pass matches — no remaining removable empty
paragraph, no whitespace directly after a matched `p`/`h1`/`h2` open tag or
`br` tag, no whitespace run directly before a matched tag, and no whitespace
at either end. -/
theorem c7_cleanup_idempotent_amended (x : Str)
    (h1 : hasEmptyPara (cleanupOutput x).length (cleanupOutput x) = false)
    (h2 : hasWsAfter pOpenSplit (cleanupOutput x).length (cleanupOutput x) = false)
    (h3 : hasWsAfter hOpenSplit (cleanupOutput x).length (cleanupOutput x) = false)
    (h4 : hasWsAfter brFullSplit (cleanupOutput x).length (cleanupOutput x) = false)
    (h5 : hasWsBefore (cleanupOutput x).length (cleanupOutput x) = false)
    (h6 : noEdgeWs (cleanupOutput x) = true) :
    cleanupOutput (cleanupOutput x) = cleanupOutput x := by
  generalize hy : cleanupOutput x = y at h1 h2 h3 h4 h5 h6 ⊢
  unfold cleanupOutput
  simp only []
  rw [hasEmptyPara_id _ _ h1]
  rw [delWsAfter_id pOpenSplit pOpenSplit_split _ _ h2]
  rw [delWsAfter_id hOpenSplit hOpenSplit_split _ _ h3]
  rw [delWsAfter_id brFullSplit brFullSplit_split _ _ h4]
  rw [delWsBeforeTag_id _ _ h5]
  exact trimJs_id _ h6

theorem c7_cleanup_idempotent_amended_witness :
    hasEmptyPara (cleanupOutput (chars "<p>a</p>")).length (cleanupOutput (chars "<p>a</p>")) = false ∧
    hasWsAfter pOpenSplit (cleanupOutput (chars "<p>a</p>")).length (cleanupOutput (chars "<p>a</p>")) = false ∧
    hasWsAfter hOpenSplit (cleanupOutput (chars "<p>a</p>")).length (cleanupOutput (chars "<p>a</p>")) = false ∧
    hasWsAfter brFullSplit (cleanupOutput (chars "<p>a</p>")).length (cleanupOutput (chars "<p>a</p>")) = false ∧
    hasWsBefore (cleanupOutput (chars "<p>a</p>")).length (cleanupOutput (chars "<p>a</p>")) = false ∧
    noEdgeWs (cleanupOutput (chars "<p>a</p>")) = true ∧
    cleanupOutput (cleanupOutput (chars "<p>a</p>")) = cleanupOutput (chars "<p>a</p>") :=
  ⟨by decide, by decide, by decide, by decide, by decide, by decide,
   c7_cleanup_idempotent_amended (chars "<p>a</p>")
     (by decide) (by decide) (by decide) (by decide) (by decide) (by decide)⟩

theorem dropAnyLit_mem : ∀ (ls : List Str) (s r : Str),
    dropAnyLit ls s = some r → ∃ t ∈ ls, s = t ++ r := by
  intro ls
  induction ls with
  | nil => intro s r h; exact absurd h (by simp [dropAnyLit])
  | cons t ts ih =>
    intro s r h
    unfold dropAnyLit at h
    rw [dropLit] at h
    by_cases hp : s.take t.length = t
    · rw [if_pos hp] at h
      refine ⟨t, List.mem_cons_self t ts, ?_⟩
      obtain rfl : s.drop t.length = r := by injection h
      conv_lhs => rw [← List.take_append_drop t.length s, hp]
    · rw [if_neg hp] at h
      obtain ⟨u, hu, he⟩ := ih s r h
      exact ⟨u, List.mem_cons_of_mem _ hu, he⟩

theorem segOkB_sound : ∀ (F : Nat) (s : Str), segOkB F s = true → SegOk s := by
  intro F
  induction F with
  | zero =>
    intro s h
    obtain rfl : s = [] := by
      cases s with
      | nil => rfl
      | cons c r => simp [segOkB, List.isEmpty] at h
    exact SegOk.nil
  | succ f ih =>
    intro s h
    cases s with
    | nil => exact SegOk.nil
    | cons c rest =>
      rw [segOkB] at h
      by_cases hlt : c = '<'
      · rw [if_pos hlt] at h
        cases hm : dropAnyLit inlineLits (c :: rest) with
        | none => rw [hm] at h; exact absurd h (by simp)
        | some r =>
          rw [hm] at h
          obtain ⟨t, ht, he⟩ := dropAnyLit_mem _ _ _ hm
          rw [he]
          exact SegOk.tag ht (ih r h)
      · rw [if_neg hlt] at h
        by_cases hamp : c = '&'
        · rw [if_pos hamp] at h
          cases hm : dropAnyLit entityLits (c :: rest) with
          | none => rw [hm] at h; exact absurd h (by simp)
          | some r =>
            rw [hm] at h
            obtain ⟨t, ht, he⟩ := dropAnyLit_mem _ _ _ hm
            rw [he]
            exact SegOk.ent ht (ih r h)
        · rw [if_neg hamp] at h
          by_cases hnl : c = '\n'
          · rw [if_pos hnl] at h; exact absurd h (by simp)
          · rw [if_neg hnl] at h
            exact SegOk.chr hlt hamp hnl (ih rest h)

theorem dropCi_length : ∀ (pat s r : Str), dropCi pat s = some r →
    s.length = pat.length + r.length := by
  intro pat
  induction pat with
  | nil =>
    intro s r h
    rw [dropCi_nil] at h
    obtain rfl : s = r := by injection h
    simp
  | cons p ps ih =>
    intro s r h
    cases s with
    | nil => exact absurd h (by simp [dropCi])
    | cons c cs =>
      rw [dropCi] at h
      by_cases hc : lowerChar c = lowerChar p
      · rw [if_pos hc] at h
        have := ih cs r h
        simp [this]
        omega
      · rw [if_neg hc] at h
        exact absurd h (by simp)

theorem dropToGt_len : ∀ (s r : Str), dropToGt s = some r → r.length < s.length := by
  intro s
  induction s with
  | nil => intro r h; exact absurd h (by simp [dropToGt])
  | cons c cs ih =>
    intro r h
    by_cases hc : c = '>'
    · subst hc
      rw [dropToGt] at h
      obtain rfl : cs = r := by injection h
      simp
    · have hstep : dropToGt (c :: cs) = dropToGt cs := by
        conv_lhs => unfold dropToGt
        split
        · rename_i heq; exact absurd heq (List.cons_ne_nil _ _)
        · rename_i r2 heq
          injection heq with h1 _
          exact absurd h1 hc
        · rename_i c2 r2 hne heq
          injection heq with h1 h2
          rw [h2]
      rw [hstep] at h
      have := ih r h
      simp
      omega

theorem decodeEntity_len : ∀ (s : Str) (ch : Char) (r : Str),
    decodeEntity s = some (ch, r) → r.length < s.length := by
  intro s ch r h
  unfold decodeEntity at h
  split at h
  · rename_i r2 heq
    injection h with h1
    injection h1 with h2 h3
    subst h3
    have := dropCi_length _ _ _ heq
    simp [chars] at this
    omega
  · split at h
    · rename_i r2 heq
      injection h with h1
      injection h1 with h2 h3
      subst h3
      have := dropCi_length _ _ _ heq
      simp [chars] at this
      omega
    · split at h
      · rename_i r2 heq
        injection h with h1
        injection h1 with h2 h3
        subst h3
        have := dropCi_length _ _ _ heq
        simp [chars] at this
        omega
      · split at h
        · rename_i r2 heq
          injection h with h1
          injection h1 with h2 h3
          subst h3
          have := dropCi_length _ _ _ heq
          simp [chars] at this
          omega
        · split at h
          · rename_i r2 heq
            injection h with h1
            injection h1 with h2 h3
            subst h3
            have := dropCi_length _ _ _ heq
            simp [chars] at this
            omega
          · split at h
            · next r0 e1 e2 e3 e4 e5 =>
              split at h
              · next r1 heq2 =>
                by_cases hds : r0.takeWhile isDigitCh = []
                · rw [if_pos hds] at h
                  exact absurd h (by simp)
                · rw [if_neg hds] at h
                  injection h with h1
                  injection h1 with h2 h3
                  subst h3
                  have h5 : (r0.dropWhile isDigitCh).length ≤ r0.length :=
                    dropWhile_length_le _ _
                  rw [heq2] at h5
                  simp at h5
                  simp
                  omega
              · exact absurd h (by simp)
            · exact absurd h (by simp)

theorem closePOUSplit_some : ∀ (s tg r : Str), closePOUSplit s = some (tg, r) →
    s = tg ++ r ∧ tg ≠ [] := by
  intro s tg r h
  unfold closePOUSplit at h
  split at h
  · rename_i rest
    split at h
    · rename_i r2 hd
      injection h with h1
      injection h1 with h2 h3
      subst h2 h3
      have := dropCi_take_split _ _ _ hd
      constructor
      · conv_lhs => rw [this]
        simp [chars]
      · simp
    · split at h
      · rename_i r2 hd
        injection h with h1
        injection h1 with h2 h3
        subst h2 h3
        have := dropCi_take_split _ _ _ hd
        constructor
        · conv_lhs => rw [this]
          simp [chars]
        · simp
      · split at h
        · rename_i r2 hd
          injection h with h1
          injection h1 with h2 h3
          subst h2 h3
          have := dropCi_take_split _ _ _ hd
          constructor
          · conv_lhs => rw [this]
            simp [chars]
          · simp
        · exact absurd h (by simp)
  · exact absurd h (by simp)

theorem hOpenSplit_some_shape : ∀ (s tg r : Str), hOpenSplit s = some (tg, r) →
    s = tg ++ r ∧ tg ≠ [] := by
  intro s tg r h
  refine ⟨hOpenSplit_split _ _ _ h, ?_⟩
  unfold hOpenSplit at h
  split at h
  · split at h
    · split at h
      · rename_i heq2
        injection h with h1
        injection h1 with h2 h3
        subst h2
        simp
      · exact absurd h (by simp)
    · exact absurd h (by simp)
  · exact absurd h (by simp)

theorem brFullSplit_some_shape : ∀ (s tg r : Str), brFullSplit s = some (tg, r) →
    s = tg ++ r ∧ tg ≠ [] := by
  intro s tg r h
  refine ⟨brFullSplit_split _ _ _ h, ?_⟩
  unfold brFullSplit at h
  split at h
  · split at h
    · rename_i heq2
      injection h with h1
      injection h1 with h2 h3
      subst h2
      simp
    · exact absurd h (by simp)
  · exact absurd h (by simp)

theorem injectSepGo_step_none (f : Nat) (c : Char) (rest : Str)
    (h : closePOUSplit (c :: rest) = none) :
    injectSepGo (f + 1) (c :: rest) = c :: injectSepGo f rest := by
  conv_lhs => unfold injectSepGo
  rw [h]

theorem injectSepGo_step_hit (f : Nat) (c : Char) (rest tg r1 ht r3 : Str)
    (h : closePOUSplit (c :: rest) = some (tg, r1))
    (hh : hOpenSplit (r1.dropWhile isJsWs) = some (ht, r3)) :
    injectSepGo (f + 1) (c :: rest) =
      tg ++ chars "<p>&nbsp;</p>" ++ r1.takeWhile isJsWs ++ ht ++ injectSepGo f r3 := by
  conv_lhs => unfold injectSepGo
  rw [h]
  show (match hOpenSplit (r1.dropWhile isJsWs) with
    | some (htag, rest3) =>
      tg ++ chars "<p>&nbsp;</p>" ++ r1.takeWhile isJsWs ++ htag ++ injectSepGo f rest3
    | none => tg ++ injectSepGo f r1) = _
  rw [hh]

theorem injectSepGo_step_miss (f : Nat) (c : Char) (rest tg r1 : Str)
    (h : closePOUSplit (c :: rest) = some (tg, r1))
    (hh : hOpenSplit (r1.dropWhile isJsWs) = none) :
    injectSepGo (f + 1) (c :: rest) = tg ++ injectSepGo f r1 := by
  conv_lhs => unfold injectSepGo
  rw [h]
  show (match hOpenSplit (r1.dropWhile isJsWs) with
    | some (htag, rest3) =>
      tg ++ chars "<p>&nbsp;</p>" ++ r1.takeWhile isJsWs ++ htag ++ injectSepGo f rest3
    | none => tg ++ injectSepGo f r1) = _
  rw [hh]

theorem replaceBrNl_step_none (f : Nat) (c : Char) (rest : Str)
    (h : brFullSplit (c :: rest) = none) :
    replaceBrNl (f + 1) (c :: rest) = c :: replaceBrNl f rest := by
  conv_lhs => unfold replaceBrNl
  rw [h]

theorem replaceBrNl_step_some (f : Nat) (c : Char) (rest tg r : Str)
    (h : brFullSplit (c :: rest) = some (tg, r)) :
    replaceBrNl (f + 1) (c :: rest) = '\n' :: replaceBrNl f r := by
  conv_lhs => unfold replaceBrNl
  rw [h]

theorem replaceClosePNl_step (f : Nat) (rest : Str) :
    replaceClosePNl (f + 1) ('<' :: rest) =
      (match dropCi (chars "/p>") rest with
       | some r => '\n' :: replaceClosePNl f r
       | none => '<' :: replaceClosePNl f rest) := by
  conv_lhs => unfold replaceClosePNl
  split
  · rename_i heq _
    omega
  · rename_i heq
    exact absurd heq (List.cons_ne_nil _ _)
  · rename_i fuel rest2 heq1 heq2
    injection heq2 with _ hs
    obtain rfl : fuel = f := by omega
    rw [hs]
  · rename_i fuel c2 rest2 hne heq1 heq2
    injection heq2 with hc hs
    exact ((hne hc.symm).elim)

theorem replaceClosePNl_step_none (f : Nat) (rest : Str)
    (h : dropCi (chars "/p>") rest = none) :
    replaceClosePNl (f + 1) ('<' :: rest) = '<' :: replaceClosePNl f rest := by
  rw [replaceClosePNl_step, h]

theorem replaceClosePNl_step_some (f : Nat) (rest r : Str)
    (h : dropCi (chars "/p>") rest = some r) :
    replaceClosePNl (f + 1) ('<' :: rest) = '\n' :: replaceClosePNl f r := by
  rw [replaceClosePNl_step, h]

theorem replaceCloseHNl_step (f : Nat) (rest : Str) :
    replaceCloseHNl (f + 1) ('<' :: rest) =
      (match dropCi (chars "/h1>") rest with
       | some r => '\n' :: replaceCloseHNl f r
       | none =>
         match dropCi (chars "/h2>") rest with
         | some r => '\n' :: replaceCloseHNl f r
         | none => '<' :: replaceCloseHNl f rest) := by
  conv_lhs => unfold replaceCloseHNl
  split
  · rename_i heq _
    omega
  · rename_i heq
    exact absurd heq (List.cons_ne_nil _ _)
  · rename_i fuel rest2 heq1 heq2
    injection heq2 with _ hs
    obtain rfl : fuel = f := by omega
    rw [hs]
  · rename_i fuel c2 rest2 hne heq1 heq2
    injection heq2 with hc hs
    exact ((hne hc.symm).elim)

theorem replaceCloseHNl_step_none (f : Nat) (rest : Str)
    (h1 : dropCi (chars "/h1>") rest = none) (h2 : dropCi (chars "/h2>") rest = none) :
    replaceCloseHNl (f + 1) ('<' :: rest) = '<' :: replaceCloseHNl f rest := by
  rw [replaceCloseHNl_step, h1, h2]

theorem replaceCloseHNl_step_h1 (f : Nat) (rest r : Str)
    (h : dropCi (chars "/h1>") rest = some r) :
    replaceCloseHNl (f + 1) ('<' :: rest) = '\n' :: replaceCloseHNl f r := by
  rw [replaceCloseHNl_step, h]

theorem replaceCloseHNl_step_h2 (f : Nat) (rest r : Str)
    (h1 : dropCi (chars "/h1>") rest = none) (h2 : dropCi (chars "/h2>") rest = some r) :
    replaceCloseHNl (f + 1) ('<' :: rest) = '\n' :: replaceCloseHNl f r := by
  rw [replaceCloseHNl_step, h1, h2]

theorem textContentOfHtml_step_skip (f : Nat) (c2 : Char) (r2 r : Str)
    (hc : (isAlphaCh c2 || c2 = '/' || c2 = '!') = true)
    (hd : dropToGt (c2 :: r2) = some r) :
    textContentOfHtml (f + 1) ('<' :: c2 :: r2) = textContentOfHtml f r := by
  conv_lhs => unfold textContentOfHtml
  split
  · rename_i heq _
    omega
  · rename_i heq
    exact absurd heq (List.cons_ne_nil _ _)
  · rename_i fuel rest2 heq1 heq2
    injection heq2 with _ hs
    subst hs
    show (if isAlphaCh c2 || c2 = '/' || c2 = '!' then
        match dropToGt (c2 :: r2) with
        | some r => textContentOfHtml fuel r
        | none => []
      else '<' :: textContentOfHtml fuel (c2 :: r2)) = textContentOfHtml f r
    rw [if_pos hc, hd]
    obtain rfl : fuel = f := by omega
    rfl
  · rename_i fuel rest2 heq1 heq2
    injection heq2 with hc2 _
    exact absurd hc2 (by decide)
  · rename_i fuel c3 rest3 hne1 hne2 heq1 heq2
    injection heq2 with hc3 _
    exact ((hne1 hc3.symm).elim)

theorem textContentOfHtml_step_ent (f : Nat) (rest : Str) (ch : Char) (r : Str)
    (h : decodeEntity rest = some (ch, r)) :
    textContentOfHtml (f + 1) ('&' :: rest) = ch :: textContentOfHtml f r := by
  conv_lhs => unfold textContentOfHtml
  split
  · rename_i heq _
    omega
  · rename_i heq
    exact absurd heq (List.cons_ne_nil _ _)
  · rename_i fuel rest2 heq1 heq2
    injection heq2 with hc2 _
    exact absurd hc2 (by decide)
  · rename_i fuel rest2 heq1 heq2
    injection heq2 with _ hs
    obtain rfl : fuel = f := by omega
    subst hs
    rw [h]
  · rename_i fuel c3 rest3 hne1 hne2 heq1 heq2
    injection heq2 with hc3 _
    exact ((hne2 hc3.symm).elim)

theorem collapseNl_step_nl (f : Nat) (rest : Str) :
    collapseNl (f + 1) ('\n' :: rest) =
      (if rest.takeWhile (· = '\n') = [] then ['\n'] else ['\n', '\n']) ++
        collapseNl f (rest.dropWhile (· = '\n')) := rfl

theorem textContentOfHtml_step_lt_nil (f : Nat) :
    textContentOfHtml (f + 1) ['<'] = ['<'] := rfl

theorem textContentOfHtml_step_skip_none (f : Nat) (c2 : Char) (r2 : Str)
    (hc : (isAlphaCh c2 || c2 = '/' || c2 = '!') = true)
    (hd : dropToGt (c2 :: r2) = none) :
    textContentOfHtml (f + 1) ('<' :: c2 :: r2) = [] := by
  conv_lhs => unfold textContentOfHtml
  split
  · rename_i heq _
    omega
  · rename_i heq
    exact absurd heq (List.cons_ne_nil _ _)
  · rename_i fuel rest2 heq1 heq2
    injection heq2 with _ hs
    subst hs
    show (if isAlphaCh c2 || c2 = '/' || c2 = '!' then
        match dropToGt (c2 :: r2) with
        | some r => textContentOfHtml fuel r
        | none => []
      else '<' :: textContentOfHtml fuel (c2 :: r2)) = []
    rw [if_pos hc, hd]
  · rename_i fuel rest2 heq1 heq2
    injection heq2 with hc2 _
    exact absurd hc2 (by decide)
  · rename_i fuel c3 rest3 hne1 hne2 heq1 heq2
    injection heq2 with hc3 _
    exact ((hne1 hc3.symm).elim)

theorem textContentOfHtml_step_lt_other (f : Nat) (c2 : Char) (r2 : Str)
    (hc : (isAlphaCh c2 || c2 = '/' || c2 = '!') = false) :
    textContentOfHtml (f + 1) ('<' :: c2 :: r2) =
      '<' :: textContentOfHtml f (c2 :: r2) := by
  conv_lhs => unfold textContentOfHtml
  split
  · rename_i heq _
    omega
  · rename_i heq
    exact absurd heq (List.cons_ne_nil _ _)
  · rename_i fuel rest2 heq1 heq2
    injection heq2 with _ hs
    subst hs
    show (if isAlphaCh c2 || c2 = '/' || c2 = '!' then
        match dropToGt (c2 :: r2) with
        | some r => textContentOfHtml fuel r
        | none => []
      else '<' :: textContentOfHtml fuel (c2 :: r2)) =
      '<' :: textContentOfHtml f (c2 :: r2)
    rw [if_neg (by rw [hc]; exact Bool.false_ne_true)]
    obtain rfl : fuel = f := by omega
    rfl
  · rename_i fuel rest2 heq1 heq2
    injection heq2 with hc2 _
    exact absurd hc2 (by decide)
  · rename_i fuel c3 rest3 hne1 hne2 heq1 heq2
    injection heq2 with hc3 _
    exact ((hne1 hc3.symm).elim)

theorem textContentOfHtml_step_ent_none (f : Nat) (rest : Str)
    (h : decodeEntity rest = none) :
    textContentOfHtml (f + 1) ('&' :: rest) = '&' :: textContentOfHtml f rest := by
  conv_lhs => unfold textContentOfHtml
  split
  · rename_i heq _
    omega
  · rename_i heq
    exact absurd heq (List.cons_ne_nil _ _)
  · rename_i fuel rest2 heq1 heq2
    injection heq2 with hc2 _
    exact absurd hc2 (by decide)
  · rename_i fuel rest2 heq1 heq2
    injection heq2 with _ hs
    subst hs
    rw [h]
    obtain rfl : fuel = f := by omega
    rfl
  · rename_i fuel c3 rest3 hne1 hne2 heq1 heq2
    injection heq2 with hc3 _
    exact ((hne2 hc3.symm).elim)

theorem injectSepGo_fuel : ∀ (n : Nat) (s : Str), s.length ≤ n →
    ∀ (F1 F2 : Nat), s.length ≤ F1 → s.length ≤ F2 →
    injectSepGo F1 s = injectSepGo F2 s := by
  intro n
  induction n with
  | zero =>
    intro s hs F1 F2 _ _
    obtain rfl : s = [] := List.eq_nil_of_length_eq_zero (by omega)
    cases F1 <;> cases F2 <;> rfl
  | succ n ih =>
    intro s hs F1 F2 h1 h2
    cases s with
    | nil => cases F1 <;> cases F2 <;> rfl
    | cons c rest =>
      simp only [List.length_cons] at hs h1 h2
      cases F1 with
      | zero => omega
      | succ f1 =>
        cases F2 with
        | zero => omega
        | succ f2 =>
          cases hm : closePOUSplit (c :: rest) with
          | none =>
            rw [injectSepGo_step_none f1 c rest hm, injectSepGo_step_none f2 c rest hm,
              ih rest (by omega) f1 f2 (by omega) (by omega)]
          | some pr =>
            obtain ⟨tg, r1⟩ := pr
            obtain ⟨hsp, htg⟩ := closePOUSplit_some _ _ _ hm
            have hr1 : r1.length < rest.length + 1 := by
              have hx : (c :: rest).length = tg.length + r1.length := by
                rw [hsp]; simp
              simp only [List.length_cons] at hx
              have htg' : 1 ≤ tg.length := by
                cases tg with
                | nil => exact absurd rfl htg
                | cons _ _ => simp
              omega
            cases hh : hOpenSplit (r1.dropWhile isJsWs) with
            | none =>
              rw [injectSepGo_step_miss f1 c rest tg r1 hm hh,
                injectSepGo_step_miss f2 c rest tg r1 hm hh,
                ih r1 (by omega) f1 f2 (by omega) (by omega)]
            | some pr2 =>
              obtain ⟨ht, r3⟩ := pr2
              obtain ⟨hsp2, hht⟩ := hOpenSplit_some_shape _ _ _ hh
              have hr3 : r3.length < r1.length + 1 := by
                have hd : (r1.dropWhile isJsWs).length ≤ r1.length := dropWhile_length_le _ _
                rw [hsp2] at hd
                simp only [List.length_append] at hd
                have hht' : 1 ≤ ht.length := by
                  cases ht with
                  | nil => exact absurd rfl hht
                  | cons _ _ => simp
                omega
              rw [injectSepGo_step_hit f1 c rest tg r1 ht r3 hm hh,
                injectSepGo_step_hit f2 c rest tg r1 ht r3 hm hh,
                ih r3 (by omega) f1 f2 (by omega) (by omega)]

theorem replaceBrNl_fuel : ∀ (n : Nat) (s : Str), s.length ≤ n →
    ∀ (F1 F2 : Nat), s.length ≤ F1 → s.length ≤ F2 →
    replaceBrNl F1 s = replaceBrNl F2 s := by
  intro n
  induction n with
  | zero =>
    intro s hs F1 F2 _ _
    obtain rfl : s = [] := List.eq_nil_of_length_eq_zero (by omega)
    cases F1 <;> cases F2 <;> rfl
  | succ n ih =>
    intro s hs F1 F2 h1 h2
    cases s with
    | nil => cases F1 <;> cases F2 <;> rfl
    | cons c rest =>
      simp only [List.length_cons] at hs h1 h2
      cases F1 with
      | zero => omega
      | succ f1 =>
        cases F2 with
        | zero => omega
        | succ f2 =>
          cases hm : brFullSplit (c :: rest) with
          | none =>
            rw [replaceBrNl_step_none f1 c rest hm, replaceBrNl_step_none f2 c rest hm,
              ih rest (by omega) f1 f2 (by omega) (by omega)]
          | some pr =>
            obtain ⟨tg, r⟩ := pr
            obtain ⟨hsp, htg⟩ := brFullSplit_some_shape _ _ _ hm
            have hr : r.length < rest.length + 1 := by
              have hx : (c :: rest).length = tg.length + r.length := by
                rw [hsp]; simp
              simp only [List.length_cons] at hx
              have htg' : 1 ≤ tg.length := by
                cases tg with
                | nil => exact absurd rfl htg
                | cons _ _ => simp
              omega
            rw [replaceBrNl_step_some f1 c rest tg r hm, replaceBrNl_step_some f2 c rest tg r hm,
              ih r (by omega) f1 f2 (by omega) (by omega)]

theorem replaceClosePNl_fuel : ∀ (n : Nat) (s : Str), s.length ≤ n →
    ∀ (F1 F2 : Nat), s.length ≤ F1 → s.length ≤ F2 →
    replaceClosePNl F1 s = replaceClosePNl F2 s := by
  intro n
  induction n with
  | zero =>
    intro s hs F1 F2 _ _
    obtain rfl : s = [] := List.eq_nil_of_length_eq_zero (by omega)
    cases F1 <;> cases F2 <;> rfl
  | succ n ih =>
    intro s hs F1 F2 h1 h2
    cases s with
    | nil => cases F1 <;> cases F2 <;> rfl
    | cons c rest =>
      simp only [List.length_cons] at hs h1 h2
      cases F1 with
      | zero => omega
      | succ f1 =>
        cases F2 with
        | zero => omega
        | succ f2 =>
          by_cases hc : c = '<'
          · subst hc
            cases hm : dropCi (chars "/p>") rest with
            | none =>
              rw [replaceClosePNl_step_none f1 rest hm, replaceClosePNl_step_none f2 rest hm,
                ih rest (by omega) f1 f2 (by omega) (by omega)]
            | some r =>
              have hr := dropCi_length _ _ _ hm
              simp only [chars] at hr
              rw [replaceClosePNl_step_some f1 rest r hm, replaceClosePNl_step_some f2 rest r hm,
                ih r (by simp [chars] at hr; omega) f1 f2 (by simp [chars] at hr; omega)
                  (by simp [chars] at hr; omega)]
          · rw [replaceClosePNl_cons_ne f1 rest hc, replaceClosePNl_cons_ne f2 rest hc,
              ih rest (by omega) f1 f2 (by omega) (by omega)]

theorem replaceCloseHNl_fuel : ∀ (n : Nat) (s : Str), s.length ≤ n →
    ∀ (F1 F2 : Nat), s.length ≤ F1 → s.length ≤ F2 →
    replaceCloseHNl F1 s = replaceCloseHNl F2 s := by
  intro n
  induction n with
  | zero =>
    intro s hs F1 F2 _ _
    obtain rfl : s = [] := List.eq_nil_of_length_eq_zero (by omega)
    cases F1 <;> cases F2 <;> rfl
  | succ n ih =>
    intro s hs F1 F2 h1 h2
    cases s with
    | nil => cases F1 <;> cases F2 <;> rfl
    | cons c rest =>
      simp only [List.length_cons] at hs h1 h2
      cases F1 with
      | zero => omega
      | succ f1 =>
        cases F2 with
        | zero => omega
        | succ f2 =>
          by_cases hc : c = '<'
          · subst hc
            cases hm1 : dropCi (chars "/h1>") rest with
            | some r =>
              have hr := dropCi_length _ _ _ hm1
              simp [chars] at hr
              rw [replaceCloseHNl_step_h1 f1 rest r hm1, replaceCloseHNl_step_h1 f2 rest r hm1,
                ih r (by omega) f1 f2 (by omega) (by omega)]
            | none =>
              cases hm2 : dropCi (chars "/h2>") rest with
              | some r =>
                have hr := dropCi_length _ _ _ hm2
                simp [chars] at hr
                rw [replaceCloseHNl_step_h2 f1 rest r hm1 hm2,
                  replaceCloseHNl_step_h2 f2 rest r hm1 hm2,
                  ih r (by omega) f1 f2 (by omega) (by omega)]
              | none =>
                rw [replaceCloseHNl_step_none f1 rest hm1 hm2,
                  replaceCloseHNl_step_none f2 rest hm1 hm2,
                  ih rest (by omega) f1 f2 (by omega) (by omega)]
          · rw [replaceCloseHNl_cons_ne f1 rest hc, replaceCloseHNl_cons_ne f2 rest hc,
              ih rest (by omega) f1 f2 (by omega) (by omega)]

theorem textContentOfHtml_fuel : ∀ (n : Nat) (s : Str), s.length ≤ n →
    ∀ (F1 F2 : Nat), s.length ≤ F1 → s.length ≤ F2 →
    textContentOfHtml F1 s = textContentOfHtml F2 s := by
  intro n
  induction n with
  | zero =>
    intro s hs F1 F2 _ _
    obtain rfl : s = [] := List.eq_nil_of_length_eq_zero (by omega)
    cases F1 <;> cases F2 <;> rfl
  | succ n ih =>
    intro s hs F1 F2 h1 h2
    cases s with
    | nil => cases F1 <;> cases F2 <;> rfl
    | cons c rest =>
      simp only [List.length_cons] at hs h1 h2
      cases F1 with
      | zero => omega
      | succ f1 =>
        cases F2 with
        | zero => omega
        | succ f2 =>
          by_cases hlt : c = '<'
          · subst hlt
            cases rest with
            | nil =>
              rw [textContentOfHtml_step_lt_nil f1, textContentOfHtml_step_lt_nil f2]
            | cons c2 r2 =>
              simp only [List.length_cons] at hs h1 h2
              cases hcond : (isAlphaCh c2 || c2 = '/' || c2 = '!') with
              | true =>
                cases hd : dropToGt (c2 :: r2) with
                | some r =>
                  have hr := dropToGt_len _ _ hd
                  simp only [List.length_cons] at hr
                  rw [textContentOfHtml_step_skip f1 c2 r2 r hcond hd,
                    textContentOfHtml_step_skip f2 c2 r2 r hcond hd,
                    ih r (by omega) f1 f2 (by omega) (by omega)]
                | none =>
                  rw [textContentOfHtml_step_skip_none f1 c2 r2 hcond hd,
                    textContentOfHtml_step_skip_none f2 c2 r2 hcond hd]
              | false =>
                rw [textContentOfHtml_step_lt_other f1 c2 r2 hcond,
                  textContentOfHtml_step_lt_other f2 c2 r2 hcond,
                  ih (c2 :: r2) (by simp; omega) f1 f2 (by simp; omega) (by simp; omega)]
          · by_cases hamp : c = '&'
            · subst hamp
              cases hm : decodeEntity rest with
              | some pr =>
                obtain ⟨ch, r⟩ := pr
                have hr := decodeEntity_len _ _ _ hm
                rw [textContentOfHtml_step_ent f1 rest ch r hm,
                  textContentOfHtml_step_ent f2 rest ch r hm,
                  ih r (by omega) f1 f2 (by omega) (by omega)]
              | none =>
                rw [textContentOfHtml_step_ent_none f1 rest hm,
                  textContentOfHtml_step_ent_none f2 rest hm,
                  ih rest (by omega) f1 f2 (by omega) (by omega)]
            · rw [textContentOfHtml_cons_plain f1 rest hlt hamp,
                textContentOfHtml_cons_plain f2 rest hlt hamp,
                ih rest (by omega) f1 f2 (by omega) (by omega)]

theorem collapseNl_fuel : ∀ (n : Nat) (s : Str), s.length ≤ n →
    ∀ (F1 F2 : Nat), s.length ≤ F1 → s.length ≤ F2 →
    collapseNl F1 s = collapseNl F2 s := by
  intro n
  induction n with
  | zero =>
    intro s hs F1 F2 _ _
    obtain rfl : s = [] := List.eq_nil_of_length_eq_zero (by omega)
    cases F1 <;> cases F2 <;> rfl
  | succ n ih =>
    intro s hs F1 F2 h1 h2
    cases s with
    | nil => cases F1 <;> cases F2 <;> rfl
    | cons c rest =>
      simp only [List.length_cons] at hs h1 h2
      cases F1 with
      | zero => omega
      | succ f1 =>
        cases F2 with
        | zero => omega
        | succ f2 =>
          by_cases hc : c = '\n'
          · subst hc
            rw [collapseNl_step_nl f1 rest, collapseNl_step_nl f2 rest]
            have hd : (rest.dropWhile (· = '\n')).length ≤ rest.length :=
              dropWhile_length_le _ _
            rw [ih (rest.dropWhile (· = '\n')) (by omega) f1 f2 (by omega) (by omega)]
          · rw [collapseNl_cons_ne f1 rest hc, collapseNl_cons_ne f2 rest hc,
              ih rest (by omega) f1 f2 (by omega) (by omega)]

theorem injectSepGo_fuelC (F : Nat) (s : Str) (h : s.length ≤ F) :
    injectSepGo F s = injectSepGo s.length s :=
  injectSepGo_fuel s.length s le_rfl F s.length h le_rfl

theorem replaceBrNl_fuelC (F : Nat) (s : Str) (h : s.length ≤ F) :
    replaceBrNl F s = replaceBrNl s.length s :=
  replaceBrNl_fuel s.length s le_rfl F s.length h le_rfl

theorem replaceClosePNl_fuelC (F : Nat) (s : Str) (h : s.length ≤ F) :
    replaceClosePNl F s = replaceClosePNl s.length s :=
  replaceClosePNl_fuel s.length s le_rfl F s.length h le_rfl

theorem replaceCloseHNl_fuelC (F : Nat) (s : Str) (h : s.length ≤ F) :
    replaceCloseHNl F s = replaceCloseHNl s.length s :=
  replaceCloseHNl_fuel s.length s le_rfl F s.length h le_rfl

theorem textContentOfHtml_fuelC (F : Nat) (s : Str) (h : s.length ≤ F) :
    textContentOfHtml F s = textContentOfHtml s.length s :=
  textContentOfHtml_fuel s.length s le_rfl F s.length h le_rfl

theorem collapseNl_fuelC (F : Nat) (s : Str) (h : s.length ≤ F) :
    collapseNl F s = collapseNl s.length s :=
  collapseNl_fuel s.length s le_rfl F s.length h le_rfl

theorem injectSepGo_run : ∀ (x : Str), (∀ c ∈ x, c ≠ '<') → ∀ (n : Nat) (rest : Str),
    injectSepGo (x.length + n) (x ++ rest) = x ++ injectSepGo n rest := by
  intro x
  induction x with
  | nil => intro _ n rest; simp
  | cons c y ih =>
    intro hall n rest
    have hc := hall c (List.mem_cons_self c y)
    have h1 : (c :: y).length + n = (y.length + n) + 1 := by simp; omega
    rw [h1]
    show injectSepGo ((y.length + n) + 1) (c :: (y ++ rest)) = _
    rw [injectSepGo_step_none _ _ _ (closePOUSplit_ne_lt _ hc),
      ih (fun d hd => hall d (List.mem_cons_of_mem _ hd)) n rest]
    rfl

theorem replaceBrNl_run : ∀ (x : Str), (∀ c ∈ x, c ≠ '<') → ∀ (n : Nat) (rest : Str),
    replaceBrNl (x.length + n) (x ++ rest) = x ++ replaceBrNl n rest := by
  intro x
  induction x with
  | nil => intro _ n rest; simp
  | cons c y ih =>
    intro hall n rest
    have hc := hall c (List.mem_cons_self c y)
    have h1 : (c :: y).length + n = (y.length + n) + 1 := by simp; omega
    rw [h1]
    show replaceBrNl ((y.length + n) + 1) (c :: (y ++ rest)) = _
    rw [replaceBrNl_step_none _ _ _ (brFullSplit_ne_lt _ hc),
      ih (fun d hd => hall d (List.mem_cons_of_mem _ hd)) n rest]
    rfl

theorem replaceClosePNl_run : ∀ (x : Str), (∀ c ∈ x, c ≠ '<') → ∀ (n : Nat) (rest : Str),
    replaceClosePNl (x.length + n) (x ++ rest) = x ++ replaceClosePNl n rest := by
  intro x
  induction x with
  | nil => intro _ n rest; simp
  | cons c y ih =>
    intro hall n rest
    have hc := hall c (List.mem_cons_self c y)
    have h1 : (c :: y).length + n = (y.length + n) + 1 := by simp; omega
    rw [h1]
    show replaceClosePNl ((y.length + n) + 1) (c :: (y ++ rest)) = _
    rw [replaceClosePNl_cons_ne _ _ hc,
      ih (fun d hd => hall d (List.mem_cons_of_mem _ hd)) n rest]
    rfl

theorem replaceCloseHNl_run : ∀ (x : Str), (∀ c ∈ x, c ≠ '<') → ∀ (n : Nat) (rest : Str),
    replaceCloseHNl (x.length + n) (x ++ rest) = x ++ replaceCloseHNl n rest := by
  intro x
  induction x with
  | nil => intro _ n rest; simp
  | cons c y ih =>
    intro hall n rest
    have hc := hall c (List.mem_cons_self c y)
    have h1 : (c :: y).length + n = (y.length + n) + 1 := by simp; omega
    rw [h1]
    show replaceCloseHNl ((y.length + n) + 1) (c :: (y ++ rest)) = _
    rw [replaceCloseHNl_cons_ne _ _ hc,
      ih (fun d hd => hall d (List.mem_cons_of_mem _ hd)) n rest]
    rfl

theorem textContentOfHtml_run : ∀ (x : Str), (∀ c ∈ x, c ≠ '<' ∧ c ≠ '&') →
    ∀ (n : Nat) (rest : Str),
    textContentOfHtml (x.length + n) (x ++ rest) = x ++ textContentOfHtml n rest := by
  intro x
  induction x with
  | nil => intro _ n rest; simp
  | cons c y ih =>
    intro hall n rest
    have hc := hall c (List.mem_cons_self c y)
    have h1 : (c :: y).length + n = (y.length + n) + 1 := by simp; omega
    rw [h1]
    show textContentOfHtml ((y.length + n) + 1) (c :: (y ++ rest)) = _
    rw [textContentOfHtml_cons_plain _ _ hc.1 hc.2,
      ih (fun d hd => hall d (List.mem_cons_of_mem _ hd)) n rest]
    rfl

theorem i_b (f : Nat) (x : Str) :
    injectSepGo (f + 3) ('<' :: 'b' :: '>' :: x) = '<' :: 'b' :: '>' :: injectSepGo f x := rfl

theorem i_cb (f : Nat) (x : Str) :
    injectSepGo (f + 4) ('<' :: '/' :: 'b' :: '>' :: x) =
      '<' :: '/' :: 'b' :: '>' :: injectSepGo f x := rfl

theorem i_i (f : Nat) (x : Str) :
    injectSepGo (f + 3) ('<' :: 'i' :: '>' :: x) = '<' :: 'i' :: '>' :: injectSepGo f x := rfl

theorem i_ci (f : Nat) (x : Str) :
    injectSepGo (f + 4) ('<' :: '/' :: 'i' :: '>' :: x) =
      '<' :: '/' :: 'i' :: '>' :: injectSepGo f x := rfl

theorem i_u (f : Nat) (x : Str) :
    injectSepGo (f + 3) ('<' :: 'u' :: '>' :: x) = '<' :: 'u' :: '>' :: injectSepGo f x := rfl

theorem i_cu (f : Nat) (x : Str) :
    injectSepGo (f + 4) ('<' :: '/' :: 'u' :: '>' :: x) =
      '<' :: '/' :: 'u' :: '>' :: injectSepGo f x := rfl

theorem i_hopen2 (f : Nat) (x : Str) :
    injectSepGo (f + 2) ('<' :: 'h' :: x) = '<' :: 'h' :: injectSepGo f x := rfl

theorem i_ch3 (f : Nat) (x : Str) :
    injectSepGo (f + 3) ('<' :: '/' :: 'h' :: x) = '<' :: '/' :: 'h' :: injectSepGo f x := rfl

theorem cpou_cp (x : Str) :
    closePOUSplit ('<' :: '/' :: 'p' :: '>' :: x) = some (['<', '/', 'p', '>'], x) := rfl

theorem b_popen (f : Nat) (x : Str) :
    replaceBrNl (f + 3) ('<' :: 'p' :: '>' :: x) = '<' :: 'p' :: '>' :: replaceBrNl f x := rfl

theorem b_cp (f : Nat) (x : Str) :
    replaceBrNl (f + 4) ('<' :: '/' :: 'p' :: '>' :: x) =
      '<' :: '/' :: 'p' :: '>' :: replaceBrNl f x := rfl

theorem b_hopen2 (f : Nat) (x : Str) :
    replaceBrNl (f + 2) ('<' :: 'h' :: x) = '<' :: 'h' :: replaceBrNl f x := rfl

theorem b_ch3 (f : Nat) (x : Str) :
    replaceBrNl (f + 3) ('<' :: '/' :: 'h' :: x) = '<' :: '/' :: 'h' :: replaceBrNl f x := rfl

theorem b_b (f : Nat) (x : Str) :
    replaceBrNl (f + 3) ('<' :: 'b' :: '>' :: x) = '<' :: 'b' :: '>' :: replaceBrNl f x := rfl

theorem b_cb (f : Nat) (x : Str) :
    replaceBrNl (f + 4) ('<' :: '/' :: 'b' :: '>' :: x) =
      '<' :: '/' :: 'b' :: '>' :: replaceBrNl f x := rfl

theorem b_i (f : Nat) (x : Str) :
    replaceBrNl (f + 3) ('<' :: 'i' :: '>' :: x) = '<' :: 'i' :: '>' :: replaceBrNl f x := rfl

theorem b_ci (f : Nat) (x : Str) :
    replaceBrNl (f + 4) ('<' :: '/' :: 'i' :: '>' :: x) =
      '<' :: '/' :: 'i' :: '>' :: replaceBrNl f x := rfl

theorem b_u (f : Nat) (x : Str) :
    replaceBrNl (f + 3) ('<' :: 'u' :: '>' :: x) = '<' :: 'u' :: '>' :: replaceBrNl f x := rfl

theorem b_cu (f : Nat) (x : Str) :
    replaceBrNl (f + 4) ('<' :: '/' :: 'u' :: '>' :: x) =
      '<' :: '/' :: 'u' :: '>' :: replaceBrNl f x := rfl

theorem p_popen (f : Nat) (x : Str) :
    replaceClosePNl (f + 3) ('<' :: 'p' :: '>' :: x) =
      '<' :: 'p' :: '>' :: replaceClosePNl f x := rfl

theorem p_cp (f : Nat) (x : Str) :
    replaceClosePNl (f + 1) ('<' :: '/' :: 'p' :: '>' :: x) = '\n' :: replaceClosePNl f x := rfl

theorem p_hopen2 (f : Nat) (x : Str) :
    replaceClosePNl (f + 2) ('<' :: 'h' :: x) = '<' :: 'h' :: replaceClosePNl f x := rfl

theorem p_ch3 (f : Nat) (x : Str) :
    replaceClosePNl (f + 3) ('<' :: '/' :: 'h' :: x) =
      '<' :: '/' :: 'h' :: replaceClosePNl f x := rfl

theorem p_b (f : Nat) (x : Str) :
    replaceClosePNl (f + 3) ('<' :: 'b' :: '>' :: x) =
      '<' :: 'b' :: '>' :: replaceClosePNl f x := rfl

theorem p_cb (f : Nat) (x : Str) :
    replaceClosePNl (f + 4) ('<' :: '/' :: 'b' :: '>' :: x) =
      '<' :: '/' :: 'b' :: '>' :: replaceClosePNl f x := rfl

theorem p_i (f : Nat) (x : Str) :
    replaceClosePNl (f + 3) ('<' :: 'i' :: '>' :: x) =
      '<' :: 'i' :: '>' :: replaceClosePNl f x := rfl

theorem p_ci (f : Nat) (x : Str) :
    replaceClosePNl (f + 4) ('<' :: '/' :: 'i' :: '>' :: x) =
      '<' :: '/' :: 'i' :: '>' :: replaceClosePNl f x := rfl

theorem p_u (f : Nat) (x : Str) :
    replaceClosePNl (f + 3) ('<' :: 'u' :: '>' :: x) =
      '<' :: 'u' :: '>' :: replaceClosePNl f x := rfl

theorem p_cu (f : Nat) (x : Str) :
    replaceClosePNl (f + 4) ('<' :: '/' :: 'u' :: '>' :: x) =
      '<' :: '/' :: 'u' :: '>' :: replaceClosePNl f x := rfl

theorem h_popen (f : Nat) (x : Str) :
    replaceCloseHNl (f + 3) ('<' :: 'p' :: '>' :: x) =
      '<' :: 'p' :: '>' :: replaceCloseHNl f x := rfl

theorem h_ch1 (f : Nat) (x : Str) :
    replaceCloseHNl (f + 1) ('<' :: '/' :: 'h' :: '1' :: '>' :: x) =
      '\n' :: replaceCloseHNl f x := rfl

theorem h_ch2 (f : Nat) (x : Str) :
    replaceCloseHNl (f + 1) ('<' :: '/' :: 'h' :: '2' :: '>' :: x) =
      '\n' :: replaceCloseHNl f x := rfl

theorem h_hopen2 (f : Nat) (x : Str) :
    replaceCloseHNl (f + 2) ('<' :: 'h' :: x) = '<' :: 'h' :: replaceCloseHNl f x := rfl

theorem h_b (f : Nat) (x : Str) :
    replaceCloseHNl (f + 3) ('<' :: 'b' :: '>' :: x) =
      '<' :: 'b' :: '>' :: replaceCloseHNl f x := rfl

theorem h_cb (f : Nat) (x : Str) :
    replaceCloseHNl (f + 4) ('<' :: '/' :: 'b' :: '>' :: x) =
      '<' :: '/' :: 'b' :: '>' :: replaceCloseHNl f x := rfl

theorem h_i (f : Nat) (x : Str) :
    replaceCloseHNl (f + 3) ('<' :: 'i' :: '>' :: x) =
      '<' :: 'i' :: '>' :: replaceCloseHNl f x := rfl

theorem h_ci (f : Nat) (x : Str) :
    replaceCloseHNl (f + 4) ('<' :: '/' :: 'i' :: '>' :: x) =
      '<' :: '/' :: 'i' :: '>' :: replaceCloseHNl f x := rfl

theorem h_u (f : Nat) (x : Str) :
    replaceCloseHNl (f + 3) ('<' :: 'u' :: '>' :: x) =
      '<' :: 'u' :: '>' :: replaceCloseHNl f x := rfl

theorem h_cu (f : Nat) (x : Str) :
    replaceCloseHNl (f + 4) ('<' :: '/' :: 'u' :: '>' :: x) =
      '<' :: '/' :: 'u' :: '>' :: replaceCloseHNl f x := rfl

theorem t_popen (f : Nat) (x : Str) :
    textContentOfHtml (f + 1) ('<' :: 'p' :: '>' :: x) = textContentOfHtml f x := rfl

theorem t_b (f : Nat) (x : Str) :
    textContentOfHtml (f + 1) ('<' :: 'b' :: '>' :: x) = textContentOfHtml f x := rfl

theorem t_cb (f : Nat) (x : Str) :
    textContentOfHtml (f + 1) ('<' :: '/' :: 'b' :: '>' :: x) = textContentOfHtml f x := rfl

theorem t_i (f : Nat) (x : Str) :
    textContentOfHtml (f + 1) ('<' :: 'i' :: '>' :: x) = textContentOfHtml f x := rfl

theorem t_ci (f : Nat) (x : Str) :
    textContentOfHtml (f + 1) ('<' :: '/' :: 'i' :: '>' :: x) = textContentOfHtml f x := rfl

theorem t_u (f : Nat) (x : Str) :
    textContentOfHtml (f + 1) ('<' :: 'u' :: '>' :: x) = textContentOfHtml f x := rfl

theorem t_cu (f : Nat) (x : Str) :
    textContentOfHtml (f + 1) ('<' :: '/' :: 'u' :: '>' :: x) = textContentOfHtml f x := rfl

theorem t_amp (f : Nat) (x : Str) :
    textContentOfHtml (f + 1) ('&' :: 'a' :: 'm' :: 'p' :: ';' :: x) =
      '&' :: textContentOfHtml f x := rfl

theorem t_lt (f : Nat) (x : Str) :
    textContentOfHtml (f + 1) ('&' :: 'l' :: 't' :: ';' :: x) =
      '<' :: textContentOfHtml f x := rfl

theorem t_gt (f : Nat) (x : Str) :
    textContentOfHtml (f + 1) ('&' :: 'g' :: 't' :: ';' :: x) =
      '>' :: textContentOfHtml f x := rfl

theorem t_quot (f : Nat) (x : Str) :
    textContentOfHtml (f + 1) ('&' :: 'q' :: 'u' :: 'o' :: 't' :: ';' :: x) =
      '"' :: textContentOfHtml f x := rfl

theorem t_nbsp (f : Nat) (x : Str) :
    textContentOfHtml (f + 1) ('&' :: 'n' :: 'b' :: 's' :: 'p' :: ';' :: x) =
      ' ' :: textContentOfHtml f x := rfl

theorem dropToGt_cons_ne (c : Char) (y : Str) (hc : c ≠ '>') :
    dropToGt (c :: y) = dropToGt y := by
  conv_lhs => unfold dropToGt
  split
  · rename_i heq
    exact absurd heq (List.cons_ne_nil _ _)
  · rename_i r heq
    injection heq with h1 _
    exact absurd h1 hc
  · rename_i c2 r hne heq
    injection heq with h1 h2
    rw [h2]

theorem dropToGt_no_gt : ∀ (t : Str), (∀ c ∈ t, c ≠ '>') → ∀ (rest : Str),
    dropToGt (t ++ '>' :: rest) = some rest := by
  intro t
  induction t with
  | nil => intro _ rest; rfl
  | cons c y ih =>
    intro hall rest
    have hc := hall c (List.mem_cons_self c y)
    show dropToGt (c :: (y ++ '>' :: rest)) = some rest
    rw [dropToGt_cons_ne _ _ hc, ih (fun d hd => hall d (List.mem_cons_of_mem _ hd)) rest]

theorem takeThruGt_cons_ne (c : Char) (y : Str) (hc : c ≠ '>') :
    takeThruGt (c :: y) =
      (match takeThruGt y with
       | some (m, r) => some (c :: m, r)
       | none => none) := by
  conv_lhs => unfold takeThruGt
  split
  · rename_i heq
    exact absurd heq (List.cons_ne_nil _ _)
  · rename_i r heq
    injection heq with h1 _
    exact absurd h1 hc
  · rename_i c2 r hne heq
    injection heq with h1 h2
    rw [← h1, ← h2]

theorem takeThruGt_no_gt : ∀ (t : Str), (∀ c ∈ t, c ≠ '>') → ∀ (rest : Str),
    takeThruGt (t ++ '>' :: rest) = some (t ++ ['>'], rest) := by
  intro t
  induction t with
  | nil => intro _ rest; rfl
  | cons c y ih =>
    intro hall rest
    have hc := hall c (List.mem_cons_self c y)
    show takeThruGt (c :: (y ++ '>' :: rest)) = _
    rw [takeThruGt_cons_ne _ _ hc, ih (fun d hd => hall d (List.mem_cons_of_mem _ hd)) rest]
    rfl

theorem hOpenSplit_eval (h d : Char) (t : Str) (rest : Str)
    (hh : lowerChar h = 'h') (hd : d = '1' ∨ d = '2') (ht : ∀ c ∈ t, c ≠ '>') :
    hOpenSplit ('<' :: h :: d :: (t ++ '>' :: rest)) =
      some ('<' :: h :: d :: (t ++ ['>']), rest) := by
  conv_lhs => unfold hOpenSplit
  split
  · rename_i c2 d2 rest2 heq
    injection heq with e1 heq
    injection heq with e2 heq
    injection heq with e3 heq
    subst e2 e3 heq
    rw [if_pos]
    · rw [takeThruGt_no_gt t ht rest]
    · rw [hh]
      rcases hd with rfl | rfl <;> decide
  · rename_i hne
    exact ((hne h d (t ++ '>' :: rest) rfl).elim)

theorem takeWhile_ws_run : ∀ (w : Str), (∀ c ∈ w, isJsWs c = true) → ∀ (y : Str),
    (w ++ y).takeWhile isJsWs = w ++ y.takeWhile isJsWs := by
  intro w
  induction w with
  | nil => intro _ y; simp
  | cons c v ih =>
    intro hall y
    have hc := hall c (List.mem_cons_self c v)
    show ((c :: (v ++ y)).takeWhile isJsWs) = _
    rw [List.takeWhile_cons_of_pos (by simp [hc]), ih (fun d hd => hall d (List.mem_cons_of_mem _ hd)) y]
    rfl

theorem dropWhile_ws_run : ∀ (w : Str), (∀ c ∈ w, isJsWs c = true) → ∀ (y : Str),
    (w ++ y).dropWhile isJsWs = y.dropWhile isJsWs := by
  intro w
  induction w with
  | nil => intro _ y; simp
  | cons c v ih =>
    intro hall y
    have hc := hall c (List.mem_cons_self c v)
    show ((c :: (v ++ y)).dropWhile isJsWs) = _
    rw [List.dropWhile_cons_of_pos (by simp [hc]), ih (fun d hd => hall d (List.mem_cons_of_mem _ hd)) y]

theorem takeWhile_ws_lt (y : Str) : ('<' :: y).takeWhile isJsWs = [] := by
  rw [List.takeWhile_cons_of_neg]
  simp [isJsWs]

theorem dropWhile_ws_lt (y : Str) : ('<' :: y).dropWhile isJsWs = '<' :: y := by
  rw [List.dropWhile_cons_of_neg]
  simp [isJsWs]

theorem injectSepGo_seg : ∀ (a : Str), SegOk a → ∀ (rest : Str) (F : Nat),
    (a ++ rest).length ≤ F →
    injectSepGo F (a ++ rest) = a ++ injectSepGo rest.length rest := by
  intro a ha
  induction ha with
  | nil =>
    intro rest F hF
    simp only [List.nil_append] at hF ⊢
    exact injectSepGo_fuelC F rest hF
  | @chr c s hlt hamp hnl hso ih =>
    intro rest F hF
    simp only [List.cons_append, List.length_cons] at hF ⊢
    cases F with
    | zero => omega
    | succ f =>
      rw [injectSepGo_step_none f c (s ++ rest) (closePOUSplit_ne_lt _ hlt),
        ih rest f (by omega)]
  | @tag t s ht hso ih =>
    intro rest F hF
    simp only [inlineLits, List.mem_cons, List.not_mem_nil, or_false] at ht
    rcases ht with rfl | rfl | rfl | rfl | rfl | rfl
    all_goals
      simp only [List.cons_append, List.nil_append, List.length_cons] at hF ⊢
    · obtain ⟨f, rfl⟩ : ∃ f, F = f + 3 := ⟨F - 3, by omega⟩
      rw [i_b f (s ++ rest), ih rest f (by omega)]
    · obtain ⟨f, rfl⟩ : ∃ f, F = f + 4 := ⟨F - 4, by omega⟩
      rw [i_cb f (s ++ rest), ih rest f (by omega)]
    · obtain ⟨f, rfl⟩ : ∃ f, F = f + 3 := ⟨F - 3, by omega⟩
      rw [i_i f (s ++ rest), ih rest f (by omega)]
    · obtain ⟨f, rfl⟩ : ∃ f, F = f + 4 := ⟨F - 4, by omega⟩
      rw [i_ci f (s ++ rest), ih rest f (by omega)]
    · obtain ⟨f, rfl⟩ : ∃ f, F = f + 3 := ⟨F - 3, by omega⟩
      rw [i_u f (s ++ rest), ih rest f (by omega)]
    · obtain ⟨f, rfl⟩ : ∃ f, F = f + 4 := ⟨F - 4, by omega⟩
      rw [i_cu f (s ++ rest), ih rest f (by omega)]
  | @ent t s ht hso ih =>
    intro rest F hF
    simp only [entityLits, List.mem_cons, List.not_mem_nil, or_false] at ht
    rcases ht with rfl | rfl | rfl | rfl | rfl
    all_goals
      simp only [List.cons_append, List.nil_append, List.length_cons] at hF ⊢
    · obtain ⟨f, rfl⟩ : ∃ f, F = ['&', 'a', 'm', 'p', ';'].length + f := ⟨F - 5, by simp; omega⟩
      rw [show (('&' :: 'a' :: 'm' :: 'p' :: ';' :: (s ++ rest))) =
          ['&', 'a', 'm', 'p', ';'] ++ (s ++ rest) from rfl,
        injectSepGo_run _ (by decide) f (s ++ rest),
        ih rest f (by simp only [List.length_cons, List.length_nil] at hF; omega)]
      rfl
    · obtain ⟨f, rfl⟩ : ∃ f, F = ['&', 'l', 't', ';'].length + f := ⟨F - 4, by simp; omega⟩
      rw [show (('&' :: 'l' :: 't' :: ';' :: (s ++ rest))) =
          ['&', 'l', 't', ';'] ++ (s ++ rest) from rfl,
        injectSepGo_run _ (by decide) f (s ++ rest),
        ih rest f (by simp only [List.length_cons, List.length_nil] at hF; omega)]
      rfl
    · obtain ⟨f, rfl⟩ : ∃ f, F = ['&', 'g', 't', ';'].length + f := ⟨F - 4, by simp; omega⟩
      rw [show (('&' :: 'g' :: 't' :: ';' :: (s ++ rest))) =
          ['&', 'g', 't', ';'] ++ (s ++ rest) from rfl,
        injectSepGo_run _ (by decide) f (s ++ rest),
        ih rest f (by simp only [List.length_cons, List.length_nil] at hF; omega)]
      rfl
    · obtain ⟨f, rfl⟩ : ∃ f, F = ['&', 'q', 'u', 'o', 't', ';'].length + f :=
        ⟨F - 6, by simp; omega⟩
      rw [show (('&' :: 'q' :: 'u' :: 'o' :: 't' :: ';' :: (s ++ rest))) =
          ['&', 'q', 'u', 'o', 't', ';'] ++ (s ++ rest) from rfl,
        injectSepGo_run _ (by decide) f (s ++ rest),
        ih rest f (by simp only [List.length_cons, List.length_nil] at hF; omega)]
      rfl
    · obtain ⟨f, rfl⟩ : ∃ f, F = ['&', 'n', 'b', 's', 'p', ';'].length + f :=
        ⟨F - 6, by simp; omega⟩
      rw [show (('&' :: 'n' :: 'b' :: 's' :: 'p' :: ';' :: (s ++ rest))) =
          ['&', 'n', 'b', 's', 'p', ';'] ++ (s ++ rest) from rfl,
        injectSepGo_run _ (by decide) f (s ++ rest),
        ih rest f (by simp only [List.length_cons, List.length_nil] at hF; omega)]
      rfl

theorem replaceBrNl_seg : ∀ (a : Str), SegOk a → ∀ (rest : Str) (F : Nat),
    (a ++ rest).length ≤ F →
    replaceBrNl F (a ++ rest) = a ++ replaceBrNl rest.length rest := by
  intro a ha
  induction ha with
  | nil =>
    intro rest F hF
    simp only [List.nil_append] at hF ⊢
    exact replaceBrNl_fuelC F rest hF
  | @chr c s hlt hamp hnl hso ih =>
    intro rest F hF
    simp only [List.cons_append, List.length_cons] at hF ⊢
    cases F with
    | zero => omega
    | succ f =>
      rw [replaceBrNl_step_none f c (s ++ rest) (brFullSplit_ne_lt _ hlt),
        ih rest f (by omega)]
  | @tag t s ht hso ih =>
    intro rest F hF
    simp only [inlineLits, List.mem_cons, List.not_mem_nil, or_false] at ht
    rcases ht with rfl | rfl | rfl | rfl | rfl | rfl
    all_goals
      simp only [List.cons_append, List.nil_append, List.length_cons] at hF ⊢
    · obtain ⟨f, rfl⟩ : ∃ f, F = f + 3 := ⟨F - 3, by omega⟩
      rw [b_b f (s ++ rest), ih rest f (by omega)]
    · obtain ⟨f, rfl⟩ : ∃ f, F = f + 4 := ⟨F - 4, by omega⟩
      rw [b_cb f (s ++ rest), ih rest f (by omega)]
    · obtain ⟨f, rfl⟩ : ∃ f, F = f + 3 := ⟨F - 3, by omega⟩
      rw [b_i f (s ++ rest), ih rest f (by omega)]
    · obtain ⟨f, rfl⟩ : ∃ f, F = f + 4 := ⟨F - 4, by omega⟩
      rw [b_ci f (s ++ rest), ih rest f (by omega)]
    · obtain ⟨f, rfl⟩ : ∃ f, F = f + 3 := ⟨F - 3, by omega⟩
      rw [b_u f (s ++ rest), ih rest f (by omega)]
    · obtain ⟨f, rfl⟩ : ∃ f, F = f + 4 := ⟨F - 4, by omega⟩
      rw [b_cu f (s ++ rest), ih rest f (by omega)]
  | @ent t s ht hso ih =>
    intro rest F hF
    simp only [entityLits, List.mem_cons, List.not_mem_nil, or_false] at ht
    rcases ht with rfl | rfl | rfl | rfl | rfl
    all_goals
      simp only [List.cons_append, List.nil_append, List.length_cons] at hF ⊢
    · obtain ⟨f, rfl⟩ : ∃ f, F = ['&', 'a', 'm', 'p', ';'].length + f := ⟨F - 5, by simp; omega⟩
      rw [show (('&' :: 'a' :: 'm' :: 'p' :: ';' :: (s ++ rest))) =
          ['&', 'a', 'm', 'p', ';'] ++ (s ++ rest) from rfl,
        replaceBrNl_run _ (by decide) f (s ++ rest),
        ih rest f (by simp only [List.length_cons, List.length_nil] at hF; omega)]
      rfl
    · obtain ⟨f, rfl⟩ : ∃ f, F = ['&', 'l', 't', ';'].length + f := ⟨F - 4, by simp; omega⟩
      rw [show (('&' :: 'l' :: 't' :: ';' :: (s ++ rest))) =
          ['&', 'l', 't', ';'] ++ (s ++ rest) from rfl,
        replaceBrNl_run _ (by decide) f (s ++ rest),
        ih rest f (by simp only [List.length_cons, List.length_nil] at hF; omega)]
      rfl
    · obtain ⟨f, rfl⟩ : ∃ f, F = ['&', 'g', 't', ';'].length + f := ⟨F - 4, by simp; omega⟩
      rw [show (('&' :: 'g' :: 't' :: ';' :: (s ++ rest))) =
          ['&', 'g', 't', ';'] ++ (s ++ rest) from rfl,
        replaceBrNl_run _ (by decide) f (s ++ rest),
        ih rest f (by simp only [List.length_cons, List.length_nil] at hF; omega)]
      rfl
    · obtain ⟨f, rfl⟩ : ∃ f, F = ['&', 'q', 'u', 'o', 't', ';'].length + f :=
        ⟨F - 6, by simp; omega⟩
      rw [show (('&' :: 'q' :: 'u' :: 'o' :: 't' :: ';' :: (s ++ rest))) =
          ['&', 'q', 'u', 'o', 't', ';'] ++ (s ++ rest) from rfl,
        replaceBrNl_run _ (by decide) f (s ++ rest),
        ih rest f (by simp only [List.length_cons, List.length_nil] at hF; omega)]
      rfl
    · obtain ⟨f, rfl⟩ : ∃ f, F = ['&', 'n', 'b', 's', 'p', ';'].length + f :=
        ⟨F - 6, by simp; omega⟩
      rw [show (('&' :: 'n' :: 'b' :: 's' :: 'p' :: ';' :: (s ++ rest))) =
          ['&', 'n', 'b', 's', 'p', ';'] ++ (s ++ rest) from rfl,
        replaceBrNl_run _ (by decide) f (s ++ rest),
        ih rest f (by simp only [List.length_cons, List.length_nil] at hF; omega)]
      rfl

theorem replaceClosePNl_seg : ∀ (a : Str), SegOk a → ∀ (rest : Str) (F : Nat),
    (a ++ rest).length ≤ F →
    replaceClosePNl F (a ++ rest) = a ++ replaceClosePNl rest.length rest := by
  intro a ha
  induction ha with
  | nil =>
    intro rest F hF
    simp only [List.nil_append] at hF ⊢
    exact replaceClosePNl_fuelC F rest hF
  | @chr c s hlt hamp hnl hso ih =>
    intro rest F hF
    simp only [List.cons_append, List.length_cons] at hF ⊢
    cases F with
    | zero => omega
    | succ f =>
      rw [replaceClosePNl_cons_ne f (s ++ rest) hlt,
        ih rest f (by omega)]
  | @tag t s ht hso ih =>
    intro rest F hF
    simp only [inlineLits, List.mem_cons, List.not_mem_nil, or_false] at ht
    rcases ht with rfl | rfl | rfl | rfl | rfl | rfl
    all_goals
      simp only [List.cons_append, List.nil_append, List.length_cons] at hF ⊢
    · obtain ⟨f, rfl⟩ : ∃ f, F = f + 3 := ⟨F - 3, by omega⟩
      rw [p_b f (s ++ rest), ih rest f (by omega)]
    · obtain ⟨f, rfl⟩ : ∃ f, F = f + 4 := ⟨F - 4, by omega⟩
      rw [p_cb f (s ++ rest), ih rest f (by omega)]
    · obtain ⟨f, rfl⟩ : ∃ f, F = f + 3 := ⟨F - 3, by omega⟩
      rw [p_i f (s ++ rest), ih rest f (by omega)]
    · obtain ⟨f, rfl⟩ : ∃ f, F = f + 4 := ⟨F - 4, by omega⟩
      rw [p_ci f (s ++ rest), ih rest f (by omega)]
    · obtain ⟨f, rfl⟩ : ∃ f, F = f + 3 := ⟨F - 3, by omega⟩
      rw [p_u f (s ++ rest), ih rest f (by omega)]
    · obtain ⟨f, rfl⟩ : ∃ f, F = f + 4 := ⟨F - 4, by omega⟩
      rw [p_cu f (s ++ rest), ih rest f (by omega)]
  | @ent t s ht hso ih =>
    intro rest F hF
    simp only [entityLits, List.mem_cons, List.not_mem_nil, or_false] at ht
    rcases ht with rfl | rfl | rfl | rfl | rfl
    all_goals
      simp only [List.cons_append, List.nil_append, List.length_cons] at hF ⊢
    · obtain ⟨f, rfl⟩ : ∃ f, F = ['&', 'a', 'm', 'p', ';'].length + f := ⟨F - 5, by simp; omega⟩
      rw [show (('&' :: 'a' :: 'm' :: 'p' :: ';' :: (s ++ rest))) =
          ['&', 'a', 'm', 'p', ';'] ++ (s ++ rest) from rfl,
        replaceClosePNl_run _ (by decide) f (s ++ rest),
        ih rest f (by simp only [List.length_cons, List.length_nil] at hF; omega)]
      rfl
    · obtain ⟨f, rfl⟩ : ∃ f, F = ['&', 'l', 't', ';'].length + f := ⟨F - 4, by simp; omega⟩
      rw [show (('&' :: 'l' :: 't' :: ';' :: (s ++ rest))) =
          ['&', 'l', 't', ';'] ++ (s ++ rest) from rfl,
        replaceClosePNl_run _ (by decide) f (s ++ rest),
        ih rest f (by simp only [List.length_cons, List.length_nil] at hF; omega)]
      rfl
    · obtain ⟨f, rfl⟩ : ∃ f, F = ['&', 'g', 't', ';'].length + f := ⟨F - 4, by simp; omega⟩
      rw [show (('&' :: 'g' :: 't' :: ';' :: (s ++ rest))) =
          ['&', 'g', 't', ';'] ++ (s ++ rest) from rfl,
        replaceClosePNl_run _ (by decide) f (s ++ rest),
        ih rest f (by simp only [List.length_cons, List.length_nil] at hF; omega)]
      rfl
    · obtain ⟨f, rfl⟩ : ∃ f, F = ['&', 'q', 'u', 'o', 't', ';'].length + f :=
        ⟨F - 6, by simp; omega⟩
      rw [show (('&' :: 'q' :: 'u' :: 'o' :: 't' :: ';' :: (s ++ rest))) =
          ['&', 'q', 'u', 'o', 't', ';'] ++ (s ++ rest) from rfl,
        replaceClosePNl_run _ (by decide) f (s ++ rest),
        ih rest f (by simp only [List.length_cons, List.length_nil] at hF; omega)]
      rfl
    · obtain ⟨f, rfl⟩ : ∃ f, F = ['&', 'n', 'b', 's', 'p', ';'].length + f :=
        ⟨F - 6, by simp; omega⟩
      rw [show (('&' :: 'n' :: 'b' :: 's' :: 'p' :: ';' :: (s ++ rest))) =
          ['&', 'n', 'b', 's', 'p', ';'] ++ (s ++ rest) from rfl,
        replaceClosePNl_run _ (by decide) f (s ++ rest),
        ih rest f (by simp only [List.length_cons, List.length_nil] at hF; omega)]
      rfl

theorem replaceCloseHNl_seg : ∀ (a : Str), SegOk a → ∀ (rest : Str) (F : Nat),
    (a ++ rest).length ≤ F →
    replaceCloseHNl F (a ++ rest) = a ++ replaceCloseHNl rest.length rest := by
  intro a ha
  induction ha with
  | nil =>
    intro rest F hF
    simp only [List.nil_append] at hF ⊢
    exact replaceCloseHNl_fuelC F rest hF
  | @chr c s hlt hamp hnl hso ih =>
    intro rest F hF
    simp only [List.cons_append, List.length_cons] at hF ⊢
    cases F with
    | zero => omega
    | succ f =>
      rw [replaceCloseHNl_cons_ne f (s ++ rest) hlt,
        ih rest f (by omega)]
  | @tag t s ht hso ih =>
    intro rest F hF
    simp only [inlineLits, List.mem_cons, List.not_mem_nil, or_false] at ht
    rcases ht with rfl | rfl | rfl | rfl | rfl | rfl
    all_goals
      simp only [List.cons_append, List.nil_append, List.length_cons] at hF ⊢
    · obtain ⟨f, rfl⟩ : ∃ f, F = f + 3 := ⟨F - 3, by omega⟩
      rw [h_b f (s ++ rest), ih rest f (by omega)]
    · obtain ⟨f, rfl⟩ : ∃ f, F = f + 4 := ⟨F - 4, by omega⟩
      rw [h_cb f (s ++ rest), ih rest f (by omega)]
    · obtain ⟨f, rfl⟩ : ∃ f, F = f + 3 := ⟨F - 3, by omega⟩
      rw [h_i f (s ++ rest), ih rest f (by omega)]
    · obtain ⟨f, rfl⟩ : ∃ f, F = f + 4 := ⟨F - 4, by omega⟩
      rw [h_ci f (s ++ rest), ih rest f (by omega)]
    · obtain ⟨f, rfl⟩ : ∃ f, F = f + 3 := ⟨F - 3, by omega⟩
      rw [h_u f (s ++ rest), ih rest f (by omega)]
    · obtain ⟨f, rfl⟩ : ∃ f, F = f + 4 := ⟨F - 4, by omega⟩
      rw [h_cu f (s ++ rest), ih rest f (by omega)]
  | @ent t s ht hso ih =>
    intro rest F hF
    simp only [entityLits, List.mem_cons, List.not_mem_nil, or_false] at ht
    rcases ht with rfl | rfl | rfl | rfl | rfl
    all_goals
      simp only [List.cons_append, List.nil_append, List.length_cons] at hF ⊢
    · obtain ⟨f, rfl⟩ : ∃ f, F = ['&', 'a', 'm', 'p', ';'].length + f := ⟨F - 5, by simp; omega⟩
      rw [show (('&' :: 'a' :: 'm' :: 'p' :: ';' :: (s ++ rest))) =
          ['&', 'a', 'm', 'p', ';'] ++ (s ++ rest) from rfl,
        replaceCloseHNl_run _ (by decide) f (s ++ rest),
        ih rest f (by simp only [List.length_cons, List.length_nil] at hF; omega)]
      rfl
    · obtain ⟨f, rfl⟩ : ∃ f, F = ['&', 'l', 't', ';'].length + f := ⟨F - 4, by simp; omega⟩
      rw [show (('&' :: 'l' :: 't' :: ';' :: (s ++ rest))) =
          ['&', 'l', 't', ';'] ++ (s ++ rest) from rfl,
        replaceCloseHNl_run _ (by decide) f (s ++ rest),
        ih rest f (by simp only [List.length_cons, List.length_nil] at hF; omega)]
      rfl
    · obtain ⟨f, rfl⟩ : ∃ f, F = ['&', 'g', 't', ';'].length + f := ⟨F - 4, by simp; omega⟩
      rw [show (('&' :: 'g' :: 't' :: ';' :: (s ++ rest))) =
          ['&', 'g', 't', ';'] ++ (s ++ rest) from rfl,
        replaceCloseHNl_run _ (by decide) f (s ++ rest),
        ih rest f (by simp only [List.length_cons, List.length_nil] at hF; omega)]
      rfl
    · obtain ⟨f, rfl⟩ : ∃ f, F = ['&', 'q', 'u', 'o', 't', ';'].length + f :=
        ⟨F - 6, by simp; omega⟩
      rw [show (('&' :: 'q' :: 'u' :: 'o' :: 't' :: ';' :: (s ++ rest))) =
          ['&', 'q', 'u', 'o', 't', ';'] ++ (s ++ rest) from rfl,
        replaceCloseHNl_run _ (by decide) f (s ++ rest),
        ih rest f (by simp only [List.length_cons, List.length_nil] at hF; omega)]
      rfl
    · obtain ⟨f, rfl⟩ : ∃ f, F = ['&', 'n', 'b', 's', 'p', ';'].length + f :=
        ⟨F - 6, by simp; omega⟩
      rw [show (('&' :: 'n' :: 'b' :: 's' :: 'p' :: ';' :: (s ++ rest))) =
          ['&', 'n', 'b', 's', 'p', ';'] ++ (s ++ rest) from rfl,
        replaceCloseHNl_run _ (by decide) f (s ++ rest),
        ih rest f (by simp only [List.length_cons, List.length_nil] at hF; omega)]
      rfl

theorem textContentOfHtml_seg : ∀ (a : Str), SegOk a → ∀ (rest : Str) (F : Nat),
    (a ++ rest).length ≤ F →
    textContentOfHtml F (a ++ rest) =
      textContentOfHtml a.length a ++ textContentOfHtml rest.length rest := by
  intro a ha
  induction ha with
  | nil =>
    intro rest F hF
    simp only [List.nil_append, List.length_nil] at hF ⊢
    rw [textContentOfHtml_fuelC F rest hF]
    rfl
  | @chr c s hlt hamp hnl hso ih =>
    intro rest F hF
    simp only [List.cons_append, List.length_cons] at hF ⊢
    cases F with
    | zero => omega
    | succ f =>
      rw [textContentOfHtml_cons_plain f (s ++ rest) hlt hamp, ih rest f (by omega),
        textContentOfHtml_cons_plain s.length s hlt hamp]
      rfl
  | @tag t s ht hso ih =>
    intro rest F hF
    simp only [inlineLits, List.mem_cons, List.not_mem_nil, or_false] at ht
    rcases ht with rfl | rfl | rfl | rfl | rfl | rfl
    all_goals
      simp only [List.cons_append, List.nil_append, List.length_cons] at hF ⊢
    · obtain ⟨f, rfl⟩ : ∃ f, F = f + 1 := ⟨F - 1, by omega⟩
      rw [t_b f (s ++ rest), ih rest f (by omega), t_b (s.length + 1 + 1) s,
        textContentOfHtml_fuelC (s.length + 1 + 1) s (by omega)]
    · obtain ⟨f, rfl⟩ : ∃ f, F = f + 1 := ⟨F - 1, by omega⟩
      rw [t_cb f (s ++ rest), ih rest f (by omega), t_cb (s.length + 1 + 1 + 1) s,
        textContentOfHtml_fuelC (s.length + 1 + 1 + 1) s (by omega)]
    · obtain ⟨f, rfl⟩ : ∃ f, F = f + 1 := ⟨F - 1, by omega⟩
      rw [t_i f (s ++ rest), ih rest f (by omega), t_i (s.length + 1 + 1) s,
        textContentOfHtml_fuelC (s.length + 1 + 1) s (by omega)]
    · obtain ⟨f, rfl⟩ : ∃ f, F = f + 1 := ⟨F - 1, by omega⟩
      rw [t_ci f (s ++ rest), ih rest f (by omega), t_ci (s.length + 1 + 1 + 1) s,
        textContentOfHtml_fuelC (s.length + 1 + 1 + 1) s (by omega)]
    · obtain ⟨f, rfl⟩ : ∃ f, F = f + 1 := ⟨F - 1, by omega⟩
      rw [t_u f (s ++ rest), ih rest f (by omega), t_u (s.length + 1 + 1) s,
        textContentOfHtml_fuelC (s.length + 1 + 1) s (by omega)]
    · obtain ⟨f, rfl⟩ : ∃ f, F = f + 1 := ⟨F - 1, by omega⟩
      rw [t_cu f (s ++ rest), ih rest f (by omega), t_cu (s.length + 1 + 1 + 1) s,
        textContentOfHtml_fuelC (s.length + 1 + 1 + 1) s (by omega)]
  | @ent t s ht hso ih =>
    intro rest F hF
    simp only [entityLits, List.mem_cons, List.not_mem_nil, or_false] at ht
    rcases ht with rfl | rfl | rfl | rfl | rfl
    all_goals
      simp only [List.cons_append, List.nil_append, List.length_cons] at hF ⊢
    · obtain ⟨f, rfl⟩ : ∃ f, F = f + 1 := ⟨F - 1, by omega⟩
      rw [t_amp f (s ++ rest), ih rest f (by omega), t_amp (s.length + 1 + 1 + 1 + 1) s,
        textContentOfHtml_fuelC (s.length + 1 + 1 + 1 + 1) s (by omega)]
      rfl
    · obtain ⟨f, rfl⟩ : ∃ f, F = f + 1 := ⟨F - 1, by omega⟩
      rw [t_lt f (s ++ rest), ih rest f (by omega), t_lt (s.length + 1 + 1 + 1) s,
        textContentOfHtml_fuelC (s.length + 1 + 1 + 1) s (by omega)]
      rfl
    · obtain ⟨f, rfl⟩ : ∃ f, F = f + 1 := ⟨F - 1, by omega⟩
      rw [t_gt f (s ++ rest), ih rest f (by omega), t_gt (s.length + 1 + 1 + 1) s,
        textContentOfHtml_fuelC (s.length + 1 + 1 + 1) s (by omega)]
      rfl
    · obtain ⟨f, rfl⟩ : ∃ f, F = f + 1 := ⟨F - 1, by omega⟩
      rw [t_quot f (s ++ rest), ih rest f (by omega),
        t_quot (s.length + 1 + 1 + 1 + 1 + 1) s,
        textContentOfHtml_fuelC (s.length + 1 + 1 + 1 + 1 + 1) s (by omega)]
      rfl
    · obtain ⟨f, rfl⟩ : ∃ f, F = f + 1 := ⟨F - 1, by omega⟩
      rw [t_nbsp f (s ++ rest), ih rest f (by omega),
        t_nbsp (s.length + 1 + 1 + 1 + 1 + 1) s,
        textContentOfHtml_fuelC (s.length + 1 + 1 + 1 + 1 + 1) s (by omega)]
      rfl

theorem t_cp (f : Nat) (x : Str) :
    textContentOfHtml (f + 1) ('<' :: '/' :: 'p' :: '>' :: x) = textContentOfHtml f x := rfl

theorem injectSepGo_hopen (d : Char) (hd : d ≠ '<') (t : Str) (ht : ∀ c ∈ t, c ≠ '<')
    (rest : Str) (F : Nat) (hF : ('<' :: 'h' :: d :: (t ++ '>' :: rest)).length ≤ F) :
    injectSepGo F ('<' :: 'h' :: d :: (t ++ '>' :: rest)) =
      '<' :: 'h' :: d :: (t ++ '>' :: injectSepGo rest.length rest) := by
  simp only [List.length_cons, List.length_append] at hF
  obtain ⟨f, rfl⟩ : ∃ f, F = f + 2 := ⟨F - 2, by omega⟩
  rw [i_hopen2 f _]
  cases f with
  | zero => omega
  | succ g =>
    rw [injectSepGo_step_none g d _ (closePOUSplit_ne_lt _ hd)]
    obtain ⟨n, rfl⟩ : ∃ n, g = t.length + n := ⟨g - t.length, by omega⟩
    rw [injectSepGo_run t ht n ('>' :: rest)]
    cases n with
    | zero => omega
    | succ m =>
      rw [injectSepGo_step_none m '>' _ (closePOUSplit_ne_lt _ (by decide)),
        injectSepGo_fuelC m rest (by omega)]

theorem injectSepGo_chd (d : Char) (hd : d ≠ '<') (rest : Str) (F : Nat)
    (hF : ('<' :: '/' :: 'h' :: d :: '>' :: rest).length ≤ F) :
    injectSepGo F ('<' :: '/' :: 'h' :: d :: '>' :: rest) =
      '<' :: '/' :: 'h' :: d :: '>' :: injectSepGo rest.length rest := by
  simp only [List.length_cons] at hF
  obtain ⟨f, rfl⟩ : ∃ f, F = f + 3 := ⟨F - 3, by omega⟩
  rw [i_ch3 f _]
  cases f with
  | zero => omega
  | succ g =>
    rw [injectSepGo_step_none g d _ (closePOUSplit_ne_lt _ hd)]
    cases g with
    | zero => omega
    | succ m =>
      rw [injectSepGo_step_none m '>' _ (closePOUSplit_ne_lt _ (by decide)),
        injectSepGo_fuelC m rest (by omega)]

theorem replaceBrNl_hopen (d : Char) (hd : d ≠ '<') (t : Str) (ht : ∀ c ∈ t, c ≠ '<')
    (rest : Str) (F : Nat) (hF : ('<' :: 'h' :: d :: (t ++ '>' :: rest)).length ≤ F) :
    replaceBrNl F ('<' :: 'h' :: d :: (t ++ '>' :: rest)) =
      '<' :: 'h' :: d :: (t ++ '>' :: replaceBrNl rest.length rest) := by
  simp only [List.length_cons, List.length_append] at hF
  obtain ⟨f, rfl⟩ : ∃ f, F = f + 2 := ⟨F - 2, by omega⟩
  rw [b_hopen2 f _]
  cases f with
  | zero => omega
  | succ g =>
    rw [replaceBrNl_step_none g d _ (brFullSplit_ne_lt _ hd)]
    obtain ⟨n, rfl⟩ : ∃ n, g = t.length + n := ⟨g - t.length, by omega⟩
    rw [replaceBrNl_run t ht n ('>' :: rest)]
    cases n with
    | zero => omega
    | succ m =>
      rw [replaceBrNl_step_none m '>' _ (brFullSplit_ne_lt _ (by decide)),
        replaceBrNl_fuelC m rest (by omega)]

theorem replaceBrNl_chd (d : Char) (hd : d ≠ '<') (rest : Str) (F : Nat)
    (hF : ('<' :: '/' :: 'h' :: d :: '>' :: rest).length ≤ F) :
    replaceBrNl F ('<' :: '/' :: 'h' :: d :: '>' :: rest) =
      '<' :: '/' :: 'h' :: d :: '>' :: replaceBrNl rest.length rest := by
  simp only [List.length_cons] at hF
  obtain ⟨f, rfl⟩ : ∃ f, F = f + 3 := ⟨F - 3, by omega⟩
  rw [b_ch3 f _]
  cases f with
  | zero => omega
  | succ g =>
    rw [replaceBrNl_step_none g d _ (brFullSplit_ne_lt _ hd)]
    cases g with
    | zero => omega
    | succ m =>
      rw [replaceBrNl_step_none m '>' _ (brFullSplit_ne_lt _ (by decide)),
        replaceBrNl_fuelC m rest (by omega)]

theorem replaceClosePNl_hopen (d : Char) (hd : d ≠ '<') (t : Str) (ht : ∀ c ∈ t, c ≠ '<')
    (rest : Str) (F : Nat) (hF : ('<' :: 'h' :: d :: (t ++ '>' :: rest)).length ≤ F) :
    replaceClosePNl F ('<' :: 'h' :: d :: (t ++ '>' :: rest)) =
      '<' :: 'h' :: d :: (t ++ '>' :: replaceClosePNl rest.length rest) := by
  simp only [List.length_cons, List.length_append] at hF
  obtain ⟨f, rfl⟩ : ∃ f, F = f + 2 := ⟨F - 2, by omega⟩
  rw [p_hopen2 f _]
  cases f with
  | zero => omega
  | succ g =>
    rw [replaceClosePNl_cons_ne g _ hd]
    obtain ⟨n, rfl⟩ : ∃ n, g = t.length + n := ⟨g - t.length, by omega⟩
    rw [replaceClosePNl_run t ht n ('>' :: rest)]
    cases n with
    | zero => omega
    | succ m =>
      rw [replaceClosePNl_cons_ne m _ (show '>' ≠ '<' by decide),
        replaceClosePNl_fuelC m rest (by omega)]

theorem replaceClosePNl_chd (d : Char) (hd : d ≠ '<') (rest : Str) (F : Nat)
    (hF : ('<' :: '/' :: 'h' :: d :: '>' :: rest).length ≤ F) :
    replaceClosePNl F ('<' :: '/' :: 'h' :: d :: '>' :: rest) =
      '<' :: '/' :: 'h' :: d :: '>' :: replaceClosePNl rest.length rest := by
  simp only [List.length_cons] at hF
  obtain ⟨f, rfl⟩ : ∃ f, F = f + 3 := ⟨F - 3, by omega⟩
  rw [p_ch3 f _]
  cases f with
  | zero => omega
  | succ g =>
    rw [replaceClosePNl_cons_ne g _ hd]
    cases g with
    | zero => omega
    | succ m =>
      rw [replaceClosePNl_cons_ne m _ (show '>' ≠ '<' by decide),
        replaceClosePNl_fuelC m rest (by omega)]

theorem replaceCloseHNl_hopen (d : Char) (hd : d ≠ '<') (t : Str) (ht : ∀ c ∈ t, c ≠ '<')
    (rest : Str) (F : Nat) (hF : ('<' :: 'h' :: d :: (t ++ '>' :: rest)).length ≤ F) :
    replaceCloseHNl F ('<' :: 'h' :: d :: (t ++ '>' :: rest)) =
      '<' :: 'h' :: d :: (t ++ '>' :: replaceCloseHNl rest.length rest) := by
  simp only [List.length_cons, List.length_append] at hF
  obtain ⟨f, rfl⟩ : ∃ f, F = f + 2 := ⟨F - 2, by omega⟩
  rw [h_hopen2 f _]
  cases f with
  | zero => omega
  | succ g =>
    rw [replaceCloseHNl_cons_ne g _ hd]
    obtain ⟨n, rfl⟩ : ∃ n, g = t.length + n := ⟨g - t.length, by omega⟩
    rw [replaceCloseHNl_run t ht n ('>' :: rest)]
    cases n with
    | zero => omega
    | succ m =>
      rw [replaceCloseHNl_cons_ne m _ (show '>' ≠ '<' by decide),
        replaceCloseHNl_fuelC m rest (by omega)]

theorem textContentOfHtml_hopen (d : Char) (hd : d ≠ '>') (t : Str)
    (ht : ∀ c ∈ t, c ≠ '>') (rest : Str) (f : Nat) :
    textContentOfHtml (f + 1) ('<' :: 'h' :: d :: (t ++ '>' :: rest)) =
      textContentOfHtml f rest := by
  refine textContentOfHtml_step_skip f 'h' (d :: (t ++ '>' :: rest)) rest (by decide) ?_
  rw [dropToGt_cons_ne 'h' _ (by decide), dropToGt_cons_ne d _ hd, dropToGt_no_gt t ht rest]

theorem textContentOfHtml_chd (d : Char) (hd : d ≠ '>') (rest : Str) (f : Nat) :
    textContentOfHtml (f + 1) ('<' :: '/' :: 'h' :: d :: '>' :: rest) =
      textContentOfHtml f rest := by
  refine textContentOfHtml_step_skip f '/' ('h' :: d :: '>' :: rest) rest (by decide) ?_
  rw [dropToGt_cons_ne '/' _ (by decide), dropToGt_cons_ne 'h' _ (by decide),
    dropToGt_cons_ne d _ hd]
  rfl

theorem replaceBrNl_po (rest : Str) (F : Nat) (hF : rest.length + 3 ≤ F) :
    replaceBrNl F ('<' :: 'p' :: '>' :: rest) =
      '<' :: 'p' :: '>' :: replaceBrNl rest.length rest := by
  obtain ⟨f, rfl⟩ : ∃ f, F = f + 3 := ⟨F - 3, by omega⟩
  rw [b_popen f rest, replaceBrNl_fuelC f rest (by omega)]

theorem replaceBrNl_cpP (rest : Str) (F : Nat) (hF : rest.length + 4 ≤ F) :
    replaceBrNl F ('<' :: '/' :: 'p' :: '>' :: rest) =
      '<' :: '/' :: 'p' :: '>' :: replaceBrNl rest.length rest := by
  obtain ⟨f, rfl⟩ : ∃ f, F = f + 4 := ⟨F - 4, by omega⟩
  rw [b_cp f rest, replaceBrNl_fuelC f rest (by omega)]

theorem replaceClosePNl_po (rest : Str) (F : Nat) (hF : rest.length + 3 ≤ F) :
    replaceClosePNl F ('<' :: 'p' :: '>' :: rest) =
      '<' :: 'p' :: '>' :: replaceClosePNl rest.length rest := by
  obtain ⟨f, rfl⟩ : ∃ f, F = f + 3 := ⟨F - 3, by omega⟩
  rw [p_popen f rest, replaceClosePNl_fuelC f rest (by omega)]

theorem replaceClosePNl_cpM (rest : Str) (F : Nat) (hF : rest.length + 1 ≤ F) :
    replaceClosePNl F ('<' :: '/' :: 'p' :: '>' :: rest) =
      '\n' :: replaceClosePNl rest.length rest := by
  obtain ⟨f, rfl⟩ : ∃ f, F = f + 1 := ⟨F - 1, by omega⟩
  rw [p_cp f rest, replaceClosePNl_fuelC f rest (by omega)]

theorem replaceCloseHNl_po (rest : Str) (F : Nat) (hF : rest.length + 3 ≤ F) :
    replaceCloseHNl F ('<' :: 'p' :: '>' :: rest) =
      '<' :: 'p' :: '>' :: replaceCloseHNl rest.length rest := by
  obtain ⟨f, rfl⟩ : ∃ f, F = f + 3 := ⟨F - 3, by omega⟩
  rw [h_popen f rest, replaceCloseHNl_fuelC f rest (by omega)]

theorem replaceCloseHNl_ch1M (rest : Str) (F : Nat) (hF : rest.length + 1 ≤ F) :
    replaceCloseHNl F ('<' :: '/' :: 'h' :: '1' :: '>' :: rest) =
      '\n' :: replaceCloseHNl rest.length rest := by
  obtain ⟨f, rfl⟩ : ∃ f, F = f + 1 := ⟨F - 1, by omega⟩
  rw [h_ch1 f rest, replaceCloseHNl_fuelC f rest (by omega)]

theorem replaceCloseHNl_ch2M (rest : Str) (F : Nat) (hF : rest.length + 1 ≤ F) :
    replaceCloseHNl F ('<' :: '/' :: 'h' :: '2' :: '>' :: rest) =
      '\n' :: replaceCloseHNl rest.length rest := by
  obtain ⟨f, rfl⟩ : ∃ f, F = f + 1 := ⟨F - 1, by omega⟩
  rw [h_ch2 f rest, replaceCloseHNl_fuelC f rest (by omega)]

theorem replaceCloseHNl_nl (rest : Str) (F : Nat) (hF : rest.length + 1 ≤ F) :
    replaceCloseHNl F ('\n' :: rest) = '\n' :: replaceCloseHNl rest.length rest := by
  obtain ⟨f, rfl⟩ : ∃ f, F = f + 1 := ⟨F - 1, by omega⟩
  rw [replaceCloseHNl_cons_ne f rest (by decide), replaceCloseHNl_fuelC f rest (by omega)]

theorem textContentOfHtml_poM (rest : Str) (F : Nat) (hF : rest.length + 1 ≤ F) :
    textContentOfHtml F ('<' :: 'p' :: '>' :: rest) = textContentOfHtml rest.length rest := by
  obtain ⟨f, rfl⟩ : ∃ f, F = f + 1 := ⟨F - 1, by omega⟩
  rw [t_popen f rest, textContentOfHtml_fuelC f rest (by omega)]

theorem textContentOfHtml_hoM (d : Char) (hd : d ≠ '>') (t : Str)
    (ht : ∀ c ∈ t, c ≠ '>') (rest : Str) (F : Nat) (hF : rest.length + 1 ≤ F) :
    textContentOfHtml F ('<' :: 'h' :: d :: (t ++ '>' :: rest)) =
      textContentOfHtml rest.length rest := by
  obtain ⟨f, rfl⟩ : ∃ f, F = f + 1 := ⟨F - 1, by omega⟩
  rw [textContentOfHtml_hopen d hd t ht rest f, textContentOfHtml_fuelC f rest (by omega)]

theorem textContentOfHtml_nl (rest : Str) (F : Nat) (hF : rest.length + 1 ≤ F) :
    textContentOfHtml F ('\n' :: rest) = '\n' :: textContentOfHtml rest.length rest := by
  obtain ⟨f, rfl⟩ : ∃ f, F = f + 1 := ⟨F - 1, by omega⟩
  rw [textContentOfHtml_cons_plain f rest (by decide) (by decide),
    textContentOfHtml_fuelC f rest (by omega)]

theorem replaceBrNl_blocks : ∀ (ebs : List PBlock), (∀ b ∈ ebs, EBlockOk b) →
    ∀ (F : Nat), (blocksHtml ebs).length ≤ F →
    replaceBrNl F (blocksHtml ebs) = blocksHtml ebs := by
  intro ebs
  induction ebs with
  | nil =>
    intro _ F _
    cases F <;> rfl
  | cons b bs ih =>
    intro hall F hF
    have hb := hall b (List.mem_cons_self b bs)
    have hbs : ∀ x ∈ bs, EBlockOk x := fun x hx => hall x (List.mem_cons_of_mem _ hx)
    cases b with
    | para a =>
      have hsa : SegOk a := hb
      simp only [blocksHtml, blockHtml, List.cons_append, List.nil_append,
        List.append_assoc] at hF ⊢
      simp only [List.length_cons, List.length_append] at hF
      rw [replaceBrNl_po _ F (by simp only [List.length_append, List.length_cons]; omega),
        replaceBrNl_seg a hsa _ _ le_rfl,
        replaceBrNl_cpP _ _ (by simp only [List.length_append, List.length_cons]; omega),
        ih hbs _ le_rfl]
    | heading d t b2 =>
      obtain ⟨hdg, hta, hsb⟩ := hb
      have htlt : ∀ c ∈ t, c ≠ '<' := fun c hc => (hta c hc).2
      have hdlt : d ≠ '<' := by rcases hdg with rfl | rfl <;> decide
      simp only [blocksHtml, blockHtml, List.cons_append, List.nil_append,
        List.append_assoc] at hF ⊢
      rw [replaceBrNl_hopen d hdlt t htlt _ F (by simpa using hF),
        replaceBrNl_seg b2 hsb _ _ le_rfl,
        replaceBrNl_chd d hdlt _ _ le_rfl,
        ih hbs _ le_rfl]

theorem replaceClosePNl_blocks : ∀ (ebs : List PBlock), (∀ b ∈ ebs, EBlockOk b) →
    ∀ (F : Nat), (blocksHtml ebs).length ≤ F →
    replaceClosePNl F (blocksHtml ebs) = midP ebs := by
  intro ebs
  induction ebs with
  | nil =>
    intro _ F _
    cases F <;> rfl
  | cons b bs ih =>
    intro hall F hF
    have hb := hall b (List.mem_cons_self b bs)
    have hbs : ∀ x ∈ bs, EBlockOk x := fun x hx => hall x (List.mem_cons_of_mem _ hx)
    cases b with
    | para a =>
      have hsa : SegOk a := hb
      simp only [blocksHtml, blockHtml, midP, List.cons_append, List.nil_append,
        List.append_assoc] at hF ⊢
      simp only [List.length_cons, List.length_append] at hF
      rw [replaceClosePNl_po _ F (by simp only [List.length_append, List.length_cons]; omega),
        replaceClosePNl_seg a hsa _ _ le_rfl,
        replaceClosePNl_cpM _ _ (by simp only [List.length_append, List.length_cons]; omega),
        ih hbs _ le_rfl]
    | heading d t b2 =>
      obtain ⟨hdg, hta, hsb⟩ := hb
      have htlt : ∀ c ∈ t, c ≠ '<' := fun c hc => (hta c hc).2
      have hdlt : d ≠ '<' := by rcases hdg with rfl | rfl <;> decide
      simp only [blocksHtml, blockHtml, midP, List.cons_append, List.nil_append,
        List.append_assoc] at hF ⊢
      rw [replaceClosePNl_hopen d hdlt t htlt _ F (by simpa using hF),
        replaceClosePNl_seg b2 hsb _ _ le_rfl,
        replaceClosePNl_chd d hdlt _ _ le_rfl,
        ih hbs _ le_rfl]

theorem replaceCloseHNl_blocks : ∀ (ebs : List PBlock), (∀ b ∈ ebs, EBlockOk b) →
    ∀ (F : Nat), (midP ebs).length ≤ F →
    replaceCloseHNl F (midP ebs) = midH ebs := by
  intro ebs
  induction ebs with
  | nil =>
    intro _ F _
    cases F <;> rfl
  | cons b bs ih =>
    intro hall F hF
    have hb := hall b (List.mem_cons_self b bs)
    have hbs : ∀ x ∈ bs, EBlockOk x := fun x hx => hall x (List.mem_cons_of_mem _ hx)
    cases b with
    | para a =>
      have hsa : SegOk a := hb
      simp only [midP, midH, List.cons_append, List.nil_append,
        List.append_assoc] at hF ⊢
      simp only [List.length_cons, List.length_append] at hF
      rw [replaceCloseHNl_po _ F (by simp only [List.length_append, List.length_cons]; omega),
        replaceCloseHNl_seg a hsa _ _ le_rfl,
        replaceCloseHNl_nl _ _ (by simp only [List.length_append, List.length_cons]; omega),
        ih hbs _ le_rfl]
    | heading d t b2 =>
      obtain ⟨hdg, hta, hsb⟩ := hb
      have htlt : ∀ c ∈ t, c ≠ '<' := fun c hc => (hta c hc).2
      have hdlt : d ≠ '<' := by rcases hdg with rfl | rfl <;> decide
      simp only [midP, midH, List.cons_append, List.nil_append,
        List.append_assoc] at hF ⊢
      rw [replaceCloseHNl_hopen d hdlt t htlt _ F (by simpa using hF),
        replaceCloseHNl_seg b2 hsb _ _ le_rfl]
      rcases hdg with rfl | rfl
      · rw [replaceCloseHNl_ch1M _ _ (by simp only [List.length_append, List.length_cons]; omega), ih hbs _ le_rfl]
      · rw [replaceCloseHNl_ch2M _ _ (by simp only [List.length_append, List.length_cons]; omega), ih hbs _ le_rfl]

theorem textContentOfHtml_blocks : ∀ (ebs : List PBlock), (∀ b ∈ ebs, EBlockOk b) →
    ∀ (F : Nat), (midH ebs).length ≤ F →
    textContentOfHtml F (midH ebs) = rawLines ebs := by
  intro ebs
  induction ebs with
  | nil =>
    intro _ F _
    cases F <;> rfl
  | cons b bs ih =>
    intro hall F hF
    have hb := hall b (List.mem_cons_self b bs)
    have hbs : ∀ x ∈ bs, EBlockOk x := fun x hx => hall x (List.mem_cons_of_mem _ hx)
    cases b with
    | para a =>
      have hsa : SegOk a := hb
      simp only [midH, rawLines, blockSeg, List.cons_append, List.nil_append,
        List.append_assoc] at hF ⊢
      simp only [List.length_cons, List.length_append] at hF
      rw [textContentOfHtml_poM _ F (by simp only [List.length_append, List.length_cons]; omega),
        textContentOfHtml_seg a hsa _ _ le_rfl,
        textContentOfHtml_nl _ _ (by simp only [List.length_append, List.length_cons]; omega),
        ih hbs _ le_rfl]
    | heading d t b2 =>
      obtain ⟨hdg, hta, hsb⟩ := hb
      have htgt : ∀ c ∈ t, c ≠ '>' := fun c hc => (hta c hc).1
      have hdgt : d ≠ '>' := by rcases hdg with rfl | rfl <;> decide
      simp only [midH, rawLines, blockSeg, List.cons_append, List.nil_append,
        List.append_assoc] at hF ⊢
      simp only [List.length_cons, List.length_append] at hF
      rw [textContentOfHtml_hoM d hdgt t htgt _ F (by simp only [List.length_append, List.length_cons]; omega),
        textContentOfHtml_seg b2 hsb _ _ le_rfl,
        textContentOfHtml_nl _ _ (by simp only [List.length_append, List.length_cons]; omega),
        ih hbs _ le_rfl]

theorem injectSepGo_po (rest : Str) (F : Nat) (hF : rest.length + 3 ≤ F) :
    injectSepGo F ('<' :: 'p' :: '>' :: rest) =
      '<' :: 'p' :: '>' :: injectSepGo rest.length rest := by
  obtain ⟨f, rfl⟩ : ∃ f, F = f + 3 := ⟨F - 3, by omega⟩
  rw [injectSepGo_p_open f rest, injectSepGo_fuelC f rest (by omega)]

theorem hOpenSplit_p (x : Str) : hOpenSplit ('<' :: 'p' :: '>' :: x) = none := rfl

theorem sepChars_eval :
    chars "<p>&nbsp;</p>" =
      ['<', 'p', '>', '&', 'n', 'b', 's', 'p', ';', '<', '/', 'p', '>'] := rfl

theorem injectSepGo_blocks : ∀ (n : Nat) (bs : List PBlock), bs.length ≤ n →
    (∀ b ∈ bs, EBlockOk b) → ∀ (F : Nat), (blocksHtml bs).length ≤ F →
    injectSepGo F (blocksHtml bs) = blocksHtml (injSeps bs) := by
  intro n
  induction n with
  | zero =>
    intro bs hn hall F hF
    obtain rfl : bs = [] := List.eq_nil_of_length_eq_zero (by omega)
    cases F <;> rfl
  | succ n ih =>
    intro bs hn hall F hF
    cases bs with
    | nil => cases F <;> rfl
    | cons b bs' =>
      have hb := hall b (List.mem_cons_self b bs')
      have hbs : ∀ x ∈ bs', EBlockOk x := fun x hx => hall x (List.mem_cons_of_mem _ hx)
      simp only [List.length_cons] at hn
      cases b with
      | heading d t b2 =>
        obtain ⟨hdg, hta, hsb⟩ := hb
        have htlt : ∀ c ∈ t, c ≠ '<' := fun c hc => (hta c hc).2
        have hdlt : d ≠ '<' := by rcases hdg with rfl | rfl <;> decide
        simp only [blocksHtml, blockHtml, injSeps, List.cons_append, List.nil_append,
          List.append_assoc] at hF ⊢
        rw [injectSepGo_hopen d hdlt t htlt _ F (by simpa using hF),
          injectSepGo_seg b2 hsb _ _ le_rfl,
          injectSepGo_chd d hdlt _ _ (by simp only [List.length_append, List.length_cons]; omega),
          ih bs' (by omega) hbs _ le_rfl]
      | para a =>
        have hsa : SegOk a := hb
        cases bs' with
        | nil =>
          simp only [blocksHtml, blockHtml, injSeps, List.cons_append, List.nil_append,
            List.append_assoc] at hF ⊢
          rw [injectSepGo_po _ F (by simp only [List.length_append, List.length_cons] at hF ⊢; omega),
            injectSepGo_seg a hsa _ _ le_rfl]
          rfl
        | cons b2 bs'' =>
          have hb2 := hbs b2 (List.mem_cons_self b2 bs'')
          have hbs'' : ∀ x ∈ bs'', EBlockOk x :=
            fun x hx => hbs x (List.mem_cons_of_mem _ hx)
          cases b2 with
          | para a2 =>
            have hsa2 : SegOk a2 := hb2
            simp only [blocksHtml, blockHtml, injSeps, List.cons_append, List.nil_append,
              List.append_assoc] at hF ⊢
            rw [injectSepGo_po _ F (by simp only [List.length_append, List.length_cons] at hF ⊢; omega),
              injectSepGo_seg a hsa _ _ le_rfl]
            obtain ⟨f, hf⟩ : ∃ f,
                ('<' :: '/' :: 'p' :: '>' :: ('<' :: 'p' :: '>' ::
                  (a2 ++ ('<' :: '/' :: 'p' :: '>' :: blocksHtml bs'')))).length = f + 1 :=
              ⟨('<' :: 'p' :: '>' :: (a2 ++ ('<' :: '/' :: 'p' :: '>' ::
                  blocksHtml bs''))).length + 3, by simp⟩
            rw [hf, injectSepGo_step_miss f '<' _ _ _ (cpou_cp _)
              (by rw [dropWhile_ws_lt]; exact hOpenSplit_p _)]
            have hfx : ('<' :: 'p' :: '>' :: (a2 ++ ('<' :: '/' :: 'p' :: '>' ::
                blocksHtml bs''))).length ≤ f := by
              simp only [List.length_cons, List.length_append] at hf ⊢
              omega
            rw [injectSepGo_fuel _ _ le_rfl f _ hfx le_rfl]
            have hres := ih (PBlock.para a2 :: bs'') (by omega)
              (fun x hx => hbs x hx) _ le_rfl
            simp only [blocksHtml, blockHtml, injSeps, List.cons_append, List.nil_append,
              List.append_assoc] at hres
            rw [hres]
            rfl
          | heading d2 t2 b2s =>
            obtain ⟨hdg2, hta2, hsb2⟩ := hb2
            have htlt2 : ∀ c ∈ t2, c ≠ '<' := fun c hc => (hta2 c hc).2
            have htgt2 : ∀ c ∈ t2, c ≠ '>' := fun c hc => (hta2 c hc).1
            have hdlt2 : d2 ≠ '<' := by rcases hdg2 with rfl | rfl <;> decide
            simp only [blocksHtml, blockHtml, injSeps, sepBlock, List.cons_append,
              List.nil_append, List.append_assoc] at hF ⊢
            rw [injectSepGo_po _ F (by simp only [List.length_append, List.length_cons] at hF ⊢; omega),
              injectSepGo_seg a hsa _ _ le_rfl]
            obtain ⟨f, hf⟩ : ∃ f,
                ('<' :: '/' :: 'p' :: '>' :: ('<' :: 'h' :: d2 :: (t2 ++ '>' ::
                  (b2s ++ ('<' :: '/' :: 'h' :: d2 :: '>' :: blocksHtml bs''))))).length =
                  f + 1 :=
              ⟨('<' :: 'h' :: d2 :: (t2 ++ '>' :: (b2s ++ ('<' :: '/' :: 'h' :: d2 :: '>' ::
                  blocksHtml bs'')))).length + 3, by simp⟩
            rw [hf, injectSepGo_step_hit f '<' _ _ _ _ _ (cpou_cp _)
              (by
                rw [dropWhile_ws_lt]
                exact hOpenSplit_eval 'h' d2 t2 _ (by decide) hdg2 htgt2)]
            rw [takeWhile_ws_lt, sepChars_eval]
            rw [injectSepGo_seg b2s hsb2 _ f
              (by simp only [List.length_cons, List.length_append] at hf ⊢; omega)]
            rw [injectSepGo_chd d2 hdlt2 _ _
              (by simp only [List.length_append, List.length_cons]; omega)]
            rw [ih bs'' (by simp only [List.length_cons] at hn; omega) hbs'' _ le_rfl]
            simp only [List.cons_append, List.nil_append, List.append_assoc]

theorem injSeps_head_para (a : Str) (bs' : List PBlock) :
    ∃ tail, injSeps (.para a :: bs') = .para a :: tail := by
  cases bs' with
  | nil => exact ⟨[], rfl⟩
  | cons b2 bs'' =>
    cases b2 with
    | para a2 => exact ⟨injSeps (.para a2 :: bs''), rfl⟩
    | heading d t b => exact ⟨sepBlock :: .heading d t b :: injSeps bs'', rfl⟩

theorem injectHeadingSeparators_blocks (bs : List PBlock)
    (hall : ∀ b ∈ bs, EBlockOk b) :
    injectHeadingSeparators (blocksHtml bs) = blocksHtml (withSeps bs) := by
  unfold injectHeadingSeparators
  rw [injectSepGo_blocks bs.length bs le_rfl hall _ le_rfl]
  cases bs with
  | nil => rfl
  | cons b bs' =>
    cases b with
    | para a =>
      obtain ⟨tail, htail⟩ := injSeps_head_para a bs'
      rw [htail]
      show (match hOpenSplit ((blocksHtml (PBlock.para a :: tail)).dropWhile isJsWs) with
        | some _ => chars "<p>&nbsp;</p>" ++ blocksHtml (PBlock.para a :: tail)
        | none => blocksHtml (PBlock.para a :: tail)) = blocksHtml (withSeps (PBlock.para a :: bs'))
      simp only [blocksHtml, blockHtml, List.cons_append, List.nil_append, List.append_assoc]
      rw [dropWhile_ws_lt, hOpenSplit_p]
      show '<' :: 'p' :: '>' :: (a ++ ('<' :: '/' :: 'p' :: '>' :: blocksHtml tail)) =
        blocksHtml (withSeps (PBlock.para a :: bs'))
      show _ = blocksHtml (injSeps (PBlock.para a :: bs'))
      rw [htail]
      simp only [blocksHtml, blockHtml, List.cons_append, List.nil_append, List.append_assoc]
    | heading d t b2 =>
      have hb := hall _ (List.mem_cons_self _ bs')
      obtain ⟨hdg, hta, hsb⟩ := hb
      have htgt : ∀ c ∈ t, c ≠ '>' := fun c hc => (hta c hc).1
      show (match hOpenSplit ((blocksHtml (injSeps (PBlock.heading d t b2 :: bs'))).dropWhile
          isJsWs) with
        | some _ => chars "<p>&nbsp;</p>" ++ blocksHtml (injSeps (PBlock.heading d t b2 :: bs'))
        | none => blocksHtml (injSeps (PBlock.heading d t b2 :: bs'))) =
        blocksHtml (withSeps (PBlock.heading d t b2 :: bs'))
      simp only [injSeps, blocksHtml, blockHtml, List.cons_append, List.nil_append,
        List.append_assoc]
      rw [dropWhile_ws_lt, hOpenSplit_eval 'h' d t _ (by decide) hdg htgt]
      show chars "<p>&nbsp;</p>" ++ _ = _
      rw [sepChars_eval]
      rfl

theorem injSeps_mem : ∀ (n : Nat) (bs : List PBlock), bs.length ≤ n →
    ∀ b ∈ injSeps bs, b = sepBlock ∨ b ∈ bs := by
  intro n
  induction n with
  | zero =>
    intro bs hn b hb
    obtain rfl : bs = [] := List.eq_nil_of_length_eq_zero (by omega)
    exact absurd hb (by simp [injSeps])
  | succ n ih =>
    intro bs hn b hb
    cases bs with
    | nil => exact absurd hb (by simp [injSeps])
    | cons b1 bs' =>
      simp only [List.length_cons] at hn
      cases b1 with
      | heading d t b2 =>
        rw [show injSeps (PBlock.heading d t b2 :: bs') =
            PBlock.heading d t b2 :: injSeps bs' from rfl] at hb
        rcases List.mem_cons.mp hb with rfl | hb2
        · exact Or.inr (List.mem_cons_self _ _)
        · rcases ih bs' (by omega) b hb2 with h | h
          · exact Or.inl h
          · exact Or.inr (List.mem_cons_of_mem _ h)
      | para a =>
        cases bs' with
        | nil =>
          rw [show injSeps [PBlock.para a] = [PBlock.para a] from rfl] at hb
          exact Or.inr hb
        | cons b2 bs'' =>
          cases b2 with
          | para a2 =>
            rw [show injSeps (PBlock.para a :: PBlock.para a2 :: bs'') =
                PBlock.para a :: injSeps (PBlock.para a2 :: bs'') from rfl] at hb
            rcases List.mem_cons.mp hb with rfl | hb2
            · exact Or.inr (List.mem_cons_self _ _)
            · rcases ih (PBlock.para a2 :: bs'') (by simp only [List.length_cons] at hn ⊢; omega)
                b hb2 with h | h
              · exact Or.inl h
              · exact Or.inr (List.mem_cons_of_mem _ h)
          | heading d t b2s =>
            rw [show injSeps (PBlock.para a :: PBlock.heading d t b2s :: bs'') =
                PBlock.para a :: sepBlock :: PBlock.heading d t b2s :: injSeps bs''
                from rfl] at hb
            rcases List.mem_cons.mp hb with rfl | hb2
            · exact Or.inr (List.mem_cons_self _ _)
            · rcases List.mem_cons.mp hb2 with rfl | hb3
              · exact Or.inl rfl
              · rcases List.mem_cons.mp hb3 with rfl | hb4
                · exact Or.inr (List.mem_cons_of_mem _ (List.mem_cons_self _ _))
                · rcases ih bs'' (by simp only [List.length_cons] at hn ⊢; omega) b hb4 with h | h
                  · exact Or.inl h
                  · exact Or.inr (List.mem_cons_of_mem _ (List.mem_cons_of_mem _ h))

theorem sepBlock_EB : EBlockOk sepBlock := by
  show SegOk ['&', 'n', 'b', 's', 'p', ';']
  exact SegOk.ent (t := ['&', 'n', 'b', 's', 'p', ';']) (s := [])
    (by simp [entityLits]) SegOk.nil

theorem withSeps_mem (bs : List PBlock) (b : PBlock) (hb : b ∈ withSeps bs) :
    b = sepBlock ∨ b ∈ bs := by
  cases bs with
  | nil => exact absurd hb (by simp [withSeps, injSeps])
  | cons b1 bs' =>
    cases b1 with
    | para a =>
      exact injSeps_mem (PBlock.para a :: bs').length _ le_rfl b hb
    | heading d t b2 =>
      rw [show withSeps (PBlock.heading d t b2 :: bs') =
          sepBlock :: injSeps (PBlock.heading d t b2 :: bs') from rfl] at hb
      rcases List.mem_cons.mp hb with rfl | hb2
      · exact Or.inl rfl
      · exact injSeps_mem (PBlock.heading d t b2 :: bs').length _ le_rfl b hb2

theorem withSeps_EB (bs : List PBlock) (hall : ∀ b ∈ bs, BlockWF b) :
    ∀ b ∈ withSeps bs, EBlockOk b := by
  intro b hb
  rcases withSeps_mem bs b hb with rfl | h
  · exact sepBlock_EB
  · exact (hall b h).1

theorem segText_no_nl : ∀ (a : Str), SegOk a →
    ∀ c ∈ textContentOfHtml a.length a, c ≠ '\n' := by
  intro a ha
  induction ha with
  | nil => intro c hc; exact absurd hc (by simp [textContentOfHtml])
  | @chr c0 s hlt hamp hnl hso ih =>
    intro c hc
    rw [show (c0 :: s).length = s.length + 1 from by simp,
      textContentOfHtml_cons_plain s.length s hlt hamp] at hc
    rcases List.mem_cons.mp hc with rfl | hc2
    · exact hnl
    · exact ih c hc2
  | @tag t s ht hso ih =>
    intro c hc
    simp only [inlineLits, List.mem_cons, List.not_mem_nil, or_false] at ht
    rcases ht with rfl | rfl | rfl | rfl | rfl | rfl
    all_goals
      simp only [List.cons_append, List.nil_append, List.length_cons] at hc
    · rw [t_b (s.length + 1 + 1) s,
        textContentOfHtml_fuelC (s.length + 1 + 1) s (by omega)] at hc
      exact ih c hc
    · rw [t_cb (s.length + 1 + 1 + 1) s,
        textContentOfHtml_fuelC (s.length + 1 + 1 + 1) s (by omega)] at hc
      exact ih c hc
    · rw [t_i (s.length + 1 + 1) s,
        textContentOfHtml_fuelC (s.length + 1 + 1) s (by omega)] at hc
      exact ih c hc
    · rw [t_ci (s.length + 1 + 1 + 1) s,
        textContentOfHtml_fuelC (s.length + 1 + 1 + 1) s (by omega)] at hc
      exact ih c hc
    · rw [t_u (s.length + 1 + 1) s,
        textContentOfHtml_fuelC (s.length + 1 + 1) s (by omega)] at hc
      exact ih c hc
    · rw [t_cu (s.length + 1 + 1 + 1) s,
        textContentOfHtml_fuelC (s.length + 1 + 1 + 1) s (by omega)] at hc
      exact ih c hc
  | @ent t s ht hso ih =>
    intro c hc
    simp only [entityLits, List.mem_cons, List.not_mem_nil, or_false] at ht
    rcases ht with rfl | rfl | rfl | rfl | rfl
    all_goals
      simp only [List.cons_append, List.nil_append, List.length_cons] at hc
    · rw [t_amp (s.length + 1 + 1 + 1 + 1) s,
        textContentOfHtml_fuelC (s.length + 1 + 1 + 1 + 1) s (by omega)] at hc
      rcases List.mem_cons.mp hc with rfl | hc2
      · decide
      · exact ih c hc2
    · rw [t_lt (s.length + 1 + 1 + 1) s,
        textContentOfHtml_fuelC (s.length + 1 + 1 + 1) s (by omega)] at hc
      rcases List.mem_cons.mp hc with rfl | hc2
      · decide
      · exact ih c hc2
    · rw [t_gt (s.length + 1 + 1 + 1) s,
        textContentOfHtml_fuelC (s.length + 1 + 1 + 1) s (by omega)] at hc
      rcases List.mem_cons.mp hc with rfl | hc2
      · decide
      · exact ih c hc2
    · rw [t_quot (s.length + 1 + 1 + 1 + 1 + 1) s,
        textContentOfHtml_fuelC (s.length + 1 + 1 + 1 + 1 + 1) s (by omega)] at hc
      rcases List.mem_cons.mp hc with rfl | hc2
      · decide
      · exact ih c hc2
    · rw [t_nbsp (s.length + 1 + 1 + 1 + 1 + 1) s,
        textContentOfHtml_fuelC (s.length + 1 + 1 + 1 + 1 + 1) s (by omega)] at hc
      rcases List.mem_cons.mp hc with rfl | hc2
      · decide
      · exact ih c hc2

theorem replaceNbsp_no_nl (x : Str) (hx : ∀ c ∈ x, c ≠ '\n') :
    ∀ c ∈ replaceNbsp x, c ≠ '\n' := by
  intro c hc
  unfold replaceNbsp at hc
  obtain ⟨y, hy, hfy⟩ := List.mem_map.mp hc
  by_cases h : y = ' '
  · rw [if_pos h] at hfy
    rw [← hfy]
    decide
  · rw [if_neg h] at hfy
    rw [← hfy]
    exact hx y hy

theorem blockLine_no_nl (b : PBlock) (hb : EBlockOk b) :
    ∀ c ∈ blockLine b, c ≠ '\n' := by
  have hseg : SegOk (blockSeg b) := by
    cases b with
    | para a => exact hb
    | heading d t b2 => exact hb.2.2
  exact replaceNbsp_no_nl _ (segText_no_nl _ hseg)

theorem replaceNbsp_append (x y : Str) :
    replaceNbsp (x ++ y) = replaceNbsp x ++ replaceNbsp y := List.map_append _ x y

theorem replaceNbsp_nl (y : Str) : replaceNbsp ('\n' :: y) = '\n' :: replaceNbsp y := by
  simp [replaceNbsp]

theorem lines_split : ∀ (ebs : List PBlock), (∀ b ∈ ebs, EBlockOk b) →
    splitNl (replaceNbsp (rawLines ebs)) = ebs.map blockLine ++ [[]] := by
  intro ebs
  induction ebs with
  | nil => intro _; rfl
  | cons b bs ih =>
    intro hall
    have hb := hall b (List.mem_cons_self b bs)
    have hbs : ∀ x ∈ bs, EBlockOk x := fun x hx => hall x (List.mem_cons_of_mem _ hx)
    have hseg : SegOk (blockSeg b) := by
      cases b with
      | para a => exact hb
      | heading d t b2 => exact hb.2.2
    show splitNl (replaceNbsp (textContentOfHtml (blockSeg b).length (blockSeg b) ++
      '\n' :: rawLines bs)) = _
    rw [replaceNbsp_append, replaceNbsp_nl,
      splitNl_plain _ _ (replaceNbsp_no_nl _ (segText_no_nl _ hseg)), ih hbs]
    rfl

theorem joinNl_cons_ne_nil (l : Str) (ls : List Str) (h : ls ≠ []) :
    joinNl (l :: ls) = l ++ '\n' :: joinNl ls := by
  cases ls with
  | nil => exact absurd rfl h
  | cons l2 ls' => rfl

theorem joinNl_cons2 (l l2 : Str) (ls : List Str) :
    joinNl (l :: l2 :: ls) = l ++ '\n' :: joinNl (l2 :: ls) := rfl

theorem sep_norm : normLine (blockLine sepBlock) = [] := rfl

theorem join_core : ∀ (n : Nat) (bs : List PBlock), bs.length ≤ n → bs ≠ [] →
    (∀ b ∈ bs, BlockWF b) →
    joinNl (((injSeps bs).map blockLine).map normLine ++ [[]]) =
      coreFrom bs ++ ['\n'] := by
  intro n
  induction n with
  | zero =>
    intro bs hn hne _
    obtain rfl : bs = [] := List.eq_nil_of_length_eq_zero (by omega)
    exact absurd rfl hne
  | succ n ih =>
    intro bs hn hne hall
    cases bs with
    | nil => exact absurd rfl hne
    | cons b bs' =>
      have hb := hall b (List.mem_cons_self b bs')
      have hbs : ∀ x ∈ bs', BlockWF x := fun x hx => hall x (List.mem_cons_of_mem _ hx)
      simp only [List.length_cons] at hn
      cases bs' with
      | nil =>
        cases b with
        | para a =>
          show joinNl ([normLine (blockLine (PBlock.para a))] ++ [[]]) = _
          rw [hb.2.2]
          show blockLine (PBlock.para a) ++ '\n' :: joinNl [[]] = _
          simp [coreFrom, blocksTextGo, joinNl]
        | heading d t b2 =>
          show joinNl ([normLine (blockLine (PBlock.heading d t b2))] ++ [[]]) = _
          rw [hb.2.2]
          show blockLine (PBlock.heading d t b2) ++ '\n' :: joinNl [[]] = _
          simp [coreFrom, blocksTextGo, joinNl]
      | cons b2 bs'' =>
        have hb2 : BlockWF b2 := hbs b2 (List.mem_cons_self b2 bs'')
        cases b with
        | heading d t bseg =>
          rw [show injSeps (PBlock.heading d t bseg :: b2 :: bs'') =
              PBlock.heading d t bseg :: injSeps (b2 :: bs'') from rfl]
          simp only [List.map_cons, List.cons_append]
          rw [hb.2.2]
          rw [joinNl_cons_ne_nil _
            (List.map normLine (List.map blockLine (injSeps (b2 :: bs''))) ++ [[]])
            (by simp)]
          rw [ih (b2 :: bs'') (by omega) (by simp) hbs]
          show _ = coreFrom (PBlock.heading d t bseg :: b2 :: bs'') ++ ['\n']
          cases b2 <;> simp [coreFrom, blocksTextGo, isHeadingB]
        | para a =>
          cases b2 with
          | para a2 =>
            rw [show injSeps (PBlock.para a :: PBlock.para a2 :: bs'') =
                PBlock.para a :: injSeps (PBlock.para a2 :: bs'') from rfl]
            simp only [List.map_cons, List.cons_append]
            rw [hb.2.2]
            rw [joinNl_cons_ne_nil _
              (List.map normLine (List.map blockLine (injSeps (PBlock.para a2 :: bs''))) ++
                [[]])
              (by simp)]
            rw [ih (PBlock.para a2 :: bs'') (by omega) (by simp) hbs]
            show _ = coreFrom (PBlock.para a :: PBlock.para a2 :: bs'') ++ ['\n']
            simp [coreFrom, blocksTextGo, isHeadingB]
          | heading d2 t2 bs2 =>
            rw [show injSeps (PBlock.para a :: PBlock.heading d2 t2 bs2 :: bs'') =
                PBlock.para a :: sepBlock :: PBlock.heading d2 t2 bs2 :: injSeps bs''
                from rfl]
            simp only [List.map_cons, List.cons_append]
            rw [hb.2.2, sep_norm, hb2.2.2]
            rw [joinNl_cons2, joinNl_cons2]
            rw [joinNl_cons_ne_nil _
              (List.map normLine (List.map blockLine (injSeps bs'')) ++ [[]])
              (by simp)]
            have hrec : joinNl (((injSeps (PBlock.heading d2 t2 bs2 :: bs'')).map
                blockLine).map normLine ++ [[]]) =
                coreFrom (PBlock.heading d2 t2 bs2 :: bs'') ++ ['\n'] :=
              ih (PBlock.heading d2 t2 bs2 :: bs'')
                (by simp only [List.length_cons] at hn ⊢; omega) (by simp) hbs
            rw [show injSeps (PBlock.heading d2 t2 bs2 :: bs'') =
                PBlock.heading d2 t2 bs2 :: injSeps bs'' from rfl] at hrec
            simp only [List.map_cons, List.cons_append] at hrec
            rw [hb2.2.2] at hrec
            rw [joinNl_cons_ne_nil _
              (List.map normLine (List.map blockLine (injSeps bs'')) ++ [[]])
              (by simp)] at hrec
            rw [hrec]
            show _ = coreFrom (PBlock.para a :: PBlock.heading d2 t2 bs2 :: bs'') ++ ['\n']
            simp [coreFrom, blocksTextGo, isHeadingB]

theorem collapse_id_nonl : ∀ (x : Str), (∀ c ∈ x, c ≠ '\n') →
    ∀ (F : Nat) (rest : Str),
    collapseNl F (x ++ rest) = x ++ collapseNl (F - x.length) rest := by
  intro x
  induction x with
  | nil => intro _ F rest; simp
  | cons c y ih =>
    intro hall F rest
    have hc := hall c (List.mem_cons_self c y)
    cases F with
    | zero =>
      show (c :: (y ++ rest)) = _
      rw [show collapseNl (0 - (c :: y).length) rest = rest from by
        rw [Nat.zero_sub]; rfl]
      rfl
    | succ f =>
      show collapseNl (f + 1) (c :: (y ++ rest)) = _
      rw [collapseNl_cons_ne f _ hc, ih (fun d hd => hall d (List.mem_cons_of_mem _ hd)) f rest,
        show (f + 1) - (c :: y).length = f - y.length from by simp]
      rfl

theorem collapse_nl_single : ∀ (F : Nat), collapseNl F ['\n'] = ['\n'] := by
  intro F
  cases F with
  | zero => rfl
  | succ f =>
    rw [collapseNl_step_nl f []]
    simp [collapseNl_nil]

theorem collapse_go : ∀ (bs : List PBlock) (prev : PBlock), (∀ b ∈ bs, BlockWF b) →
    ∀ (F : Nat),
    collapseNl F (blocksTextGo prev bs ++ ['\n']) = blocksTextGo prev bs ++ ['\n'] := by
  intro bs
  induction bs with
  | nil =>
    intro prev _ F
    show collapseNl F ['\n'] = _
    rw [collapse_nl_single]
    rfl
  | cons b bs' ih =>
    intro prev hall F
    have hb := hall b (List.mem_cons_self b bs')
    have hbs : ∀ x ∈ bs', BlockWF x := fun x hx => hall x (List.mem_cons_of_mem _ hx)
    have hnl : ∀ c ∈ blockLine b, c ≠ '\n' := blockLine_no_nl b hb.1
    obtain ⟨c0, L, hL⟩ : ∃ c0 L, blockLine b = c0 :: L := by
      cases hL : blockLine b with
      | nil => exact absurd hL hb.2.1
      | cons c0 L => exact ⟨c0, L, rfl⟩
    have hc0 : c0 ≠ '\n' := by
      apply hnl
      rw [hL]
      exact List.mem_cons_self _ _
    show collapseNl F
      (((if isHeadingB b && !isHeadingB prev then '\n' :: '\n' :: [] else '\n' :: []) ++
        blockLine b ++ blocksTextGo b bs') ++ ['\n']) =
      ((if isHeadingB b && !isHeadingB prev then '\n' :: '\n' :: [] else '\n' :: []) ++
        blockLine b ++ blocksTextGo b bs') ++ ['\n']
    rw [hL]
    by_cases hsep : (isHeadingB b && !isHeadingB prev) = true
    · rw [if_pos hsep]
      simp only [List.cons_append, List.nil_append, List.append_assoc]
      cases F with
      | zero => rfl
      | succ f =>
        rw [collapseNl_step_nl f _]
        rw [List.takeWhile_cons_of_pos (by decide)]
        rw [show List.takeWhile (fun c => decide (c = '\n'))
            (c0 :: (L ++ (blocksTextGo b bs' ++ ['\n']))) = [] from
          List.takeWhile_cons_of_neg (by simp [hc0])]
        rw [if_neg (by simp)]
        rw [List.dropWhile_cons_of_pos (by decide)]
        rw [show List.dropWhile (fun c => decide (c = '\n'))
            (c0 :: (L ++ (blocksTextGo b bs' ++ ['\n']))) =
            c0 :: (L ++ (blocksTextGo b bs' ++ ['\n'])) from
          List.dropWhile_cons_of_neg (by simp [hc0])]
        rw [show (c0 :: (L ++ (blocksTextGo b bs' ++ ['\n']))) =
            (c0 :: L) ++ (blocksTextGo b bs' ++ ['\n']) from rfl]
        rw [collapse_id_nonl (c0 :: L) (by rw [← hL]; exact hnl) f _]
        rw [ih b hbs _]
        rfl
    · rw [if_neg hsep]
      simp only [List.cons_append, List.nil_append, List.append_assoc]
      cases F with
      | zero => rfl
      | succ f =>
        rw [collapseNl_step_nl f _]
        rw [show List.takeWhile (fun c => decide (c = '\n'))
            (c0 :: (L ++ (blocksTextGo b bs' ++ ['\n']))) = [] from
          List.takeWhile_cons_of_neg (by simp [hc0])]
        rw [if_pos rfl]
        rw [show List.dropWhile (fun c => decide (c = '\n'))
            (c0 :: (L ++ (blocksTextGo b bs' ++ ['\n']))) =
            c0 :: (L ++ (blocksTextGo b bs' ++ ['\n'])) from
          List.dropWhile_cons_of_neg (by simp [hc0])]
        rw [show (c0 :: (L ++ (blocksTextGo b bs' ++ ['\n']))) =
            (c0 :: L) ++ (blocksTextGo b bs' ++ ['\n']) from rfl]
        rw [collapse_id_nonl (c0 :: L) (by rw [← hL]; exact hnl) f _]
        rw [ih b hbs _]
        rfl

theorem collapse_core (bs : List PBlock) (hall : ∀ b ∈ bs, BlockWF b) (F : Nat) :
    collapseNl F (blocksTextCore bs ++ ['\n']) = blocksTextCore bs ++ ['\n'] := by
  cases bs with
  | nil =>
    show collapseNl F ['\n'] = _
    rw [collapse_nl_single]
    rfl
  | cons b bs' =>
    have hb := hall b (List.mem_cons_self b bs')
    have hbs : ∀ x ∈ bs', BlockWF x := fun x hx => hall x (List.mem_cons_of_mem _ hx)
    have hnl : ∀ c ∈ blockLine b, c ≠ '\n' := blockLine_no_nl b hb.1
    obtain ⟨c0, L, hL⟩ : ∃ c0 L, blockLine b = c0 :: L := by
      cases hL : blockLine b with
      | nil => exact absurd hL hb.2.1
      | cons c0 L => exact ⟨c0, L, rfl⟩
    have hc0 : c0 ≠ '\n' := by
      apply hnl
      rw [hL]
      exact List.mem_cons_self _ _
    show collapseNl F
      (((if isHeadingB b then ['\n'] else []) ++ blockLine b ++ blocksTextGo b bs') ++
        ['\n']) =
      ((if isHeadingB b then ['\n'] else []) ++ blockLine b ++ blocksTextGo b bs') ++
        ['\n']
    rw [hL]
    by_cases hh : isHeadingB b = true
    · rw [if_pos hh]
      simp only [List.cons_append, List.nil_append, List.append_assoc]
      cases F with
      | zero => rfl
      | succ f =>
        rw [collapseNl_step_nl f _]
        rw [show List.takeWhile (fun c => decide (c = '\n'))
            (c0 :: (L ++ (blocksTextGo b bs' ++ ['\n']))) = [] from
          List.takeWhile_cons_of_neg (by simp [hc0])]
        rw [if_pos rfl]
        rw [show List.dropWhile (fun c => decide (c = '\n'))
            (c0 :: (L ++ (blocksTextGo b bs' ++ ['\n']))) =
            c0 :: (L ++ (blocksTextGo b bs' ++ ['\n'])) from
          List.dropWhile_cons_of_neg (by simp [hc0])]
        rw [show (c0 :: (L ++ (blocksTextGo b bs' ++ ['\n']))) =
            (c0 :: L) ++ (blocksTextGo b bs' ++ ['\n']) from rfl]
        rw [collapse_id_nonl (c0 :: L) (by rw [← hL]; exact hnl) f _]
        rw [collapse_go bs' b hbs _]
        rfl
    · rw [if_neg hh]
      simp only [List.nil_append, List.append_assoc]
      rw [show (c0 :: L ++ (blocksTextGo b bs' ++ ['\n'])) =
          (c0 :: L) ++ (blocksTextGo b bs' ++ ['\n']) from rfl]
      rw [collapse_id_nonl (c0 :: L) (by rw [← hL]; exact hnl) F _]
      rw [collapse_go bs' b hbs _]

theorem trimJs_cons_ws (c : Char) (z : Str) (hc : isJsWs c = true) :
    trimJs (c :: z) = trimJs z := by
  unfold trimJs
  rw [List.dropWhile_cons_of_pos (by simp [hc])]

theorem trimJs_app_nl : ∀ (x : Str), trimJs (x ++ ['\n']) = trimJs x := by
  intro x
  induction x with
  | nil => rfl
  | cons c y ih =>
    by_cases hc : isJsWs c = true
    · rw [show (c :: y) ++ ['\n'] = c :: (y ++ ['\n']) from rfl,
        trimJs_cons_ws c _ hc, trimJs_cons_ws c _ hc, ih]
    · unfold trimJs
      rw [show (c :: y) ++ ['\n'] = c :: (y ++ ['\n']) from rfl]
      rw [List.dropWhile_cons_of_neg (by simp [hc]),
        List.dropWhile_cons_of_neg (by simp [hc])]
      rw [List.reverse_cons, List.reverse_cons]
      rw [show (y ++ ['\n']).reverse = '\n' :: y.reverse from by
        rw [List.reverse_append]; rfl]
      rw [show ('\n' :: y.reverse) ++ [c] = '\n' :: (y.reverse ++ [c]) from rfl]
      rw [List.dropWhile_cons_of_pos (by decide)]

theorem blocksHtml_ne_nil (b : PBlock) (bs : List PBlock) : blocksHtml (b :: bs) ≠ [] := by
  cases b <;> simp [blocksHtml, blockHtml]

theorem withSeps_join (bs : List PBlock) (hne : bs ≠ [])
    (hall : ∀ b ∈ bs, BlockWF b) :
    joinNl (((withSeps bs).map blockLine).map normLine ++ [[]]) =
      blocksTextCore bs ++ ['\n'] := by
  cases bs with
  | nil => exact absurd rfl hne
  | cons b bs' =>
    cases b with
    | para a =>
      rw [show withSeps (PBlock.para a :: bs') = injSeps (PBlock.para a :: bs') from rfl]
      rw [join_core (PBlock.para a :: bs').length _ le_rfl (by simp) hall]
      rw [show blocksTextCore (PBlock.para a :: bs') =
        coreFrom (PBlock.para a :: bs') from rfl]
    | heading d t b2 =>
      rw [show withSeps (PBlock.heading d t b2 :: bs') =
          sepBlock :: injSeps (PBlock.heading d t b2 :: bs') from rfl]
      simp only [List.map_cons, List.cons_append]
      rw [sep_norm]
      rw [joinNl_cons_ne_nil _
        (List.map normLine (List.map blockLine (injSeps (PBlock.heading d t b2 :: bs'))) ++
          [[]]) (by simp)]
      rw [join_core (PBlock.heading d t b2 :: bs').length _ le_rfl (by simp) hall]
      rw [show blocksTextCore (PBlock.heading d t b2 :: bs') =
        '\n' :: coreFrom (PBlock.heading d t b2 :: bs') from rfl]
      rfl

theorem mtp_blocks (bs : List PBlock) (hall : ∀ b ∈ bs, BlockWF b) :
    markupToPlainText (blocksHtml bs) = trimJs (blocksTextCore bs) := by
  cases bs with
  | nil => rfl
  | cons b bs' =>
    have hEBtop : ∀ x ∈ (b :: bs'), EBlockOk x := fun x hx => (hall x hx).1
    have hEB : ∀ x ∈ withSeps (b :: bs'), EBlockOk x := withSeps_EB _ hall
    unfold markupToPlainText
    rw [if_neg (blocksHtml_ne_nil b bs')]
    simp only [injectHeadingSeparators_blocks (b :: bs') hEBtop]
    rw [replaceBrNl_blocks _ hEB _ le_rfl]
    rw [replaceClosePNl_blocks _ hEB _ le_rfl]
    rw [replaceCloseHNl_blocks _ hEB _ le_rfl]
    rw [textContentOfHtml_blocks _ hEB _ le_rfl]
    rw [lines_split _ hEB]
    rw [List.map_append]
    rw [show List.map normLine [([] : Str)] = [([] : Str)] from rfl]
    rw [withSeps_join (b :: bs') (by simp) hall]
    rw [collapse_core (b :: bs') hall _]
    rw [trimJs_app_nl]

theorem cpou_col (x : Str) :
    closePOUSplit ('<' :: '/' :: 'o' :: 'l' :: '>' :: x) =
      some (['<', '/', 'o', 'l', '>'], x) := rfl

theorem cpou_cul (x : Str) :
    closePOUSplit ('<' :: '/' :: 'u' :: 'l' :: '>' :: x) =
      some (['<', '/', 'u', 'l', '>'], x) := rfl

theorem inj_law : ∀ (closer : Str),
    closer ∈ [chars "</p>", chars "</ol>", chars "</ul>"] →
    ∀ (w : Str), (∀ c ∈ w, isJsWs c = true) →
    ∀ (h d : Char), lowerChar h = 'h' → (d = '1' ∨ d = '2') →
    ∀ (t : Str), (∀ c ∈ t, c ≠ '>') →
    ∀ (rest : Str) (F : Nat),
    injectSepGo (F + 1) (closer ++ w ++ ('<' :: h :: d :: (t ++ '>' :: rest))) =
      closer ++ chars "<p>&nbsp;</p>" ++ w ++ ('<' :: h :: d :: (t ++ ['>'])) ++
        injectSepGo F rest := by
  intro closer hcl w hw h d hh hd t ht rest F
  have hdrop : (w ++ ('<' :: h :: d :: (t ++ '>' :: rest))).dropWhile isJsWs =
      '<' :: h :: d :: (t ++ '>' :: rest) := by
    rw [dropWhile_ws_run w hw, dropWhile_ws_lt]
  have htake : (w ++ ('<' :: h :: d :: (t ++ '>' :: rest))).takeWhile isJsWs = w := by
    rw [takeWhile_ws_run w hw, takeWhile_ws_lt, List.append_nil]
  have hhop : hOpenSplit ((w ++ ('<' :: h :: d :: (t ++ '>' :: rest))).dropWhile isJsWs) =
      some ('<' :: h :: d :: (t ++ ['>']), rest) := by
    rw [hdrop]
    exact hOpenSplit_eval h d t rest hh hd ht
  simp only [List.mem_cons, List.not_mem_nil, or_false] at hcl
  rcases hcl with rfl | rfl | rfl
  · rw [show chars "</p>" = ['<', '/', 'p', '>'] from rfl]
    simp only [List.cons_append, List.nil_append]
    rw [injectSepGo_step_hit F '<' _ _ _ _ _ (cpou_cp _) hhop, htake]
    simp only [List.cons_append, List.nil_append, List.append_assoc]
  · rw [show chars "</ol>" = ['<', '/', 'o', 'l', '>'] from rfl]
    simp only [List.cons_append, List.nil_append]
    rw [injectSepGo_step_hit F '<' _ _ _ _ _ (cpou_col _) hhop, htake]
    simp only [List.cons_append, List.nil_append, List.append_assoc]
  · rw [show chars "</ul>" = ['<', '/', 'u', 'l', '>'] from rfl]
    simp only [List.cons_append, List.nil_append]
    rw [injectSepGo_step_hit F '<' _ _ _ _ _ (cpou_cul _) hhop, htake]
    simp only [List.cons_append, List.nil_append, List.append_assoc]

/-- C10: the plain-text projector inserts a `<p>&nbsp;</p>` separator
paragraph in front of every `<h1>`/`<h2>` open tag that follows a closing
`</p>`, `</ol>` or `</ul>` (across optional whitespace), stated as a step
law of the injection scanner for an arbitrary match position and
continuation; it also inserts one in front of a heading at the very start
of the markup, where the final trim removes its trace again.  Consequently,
for every cleaned html forming a sequence of well-formed paragraph and
heading blocks, the plain text is the trimmed concatenation of the block
text lines in which a heading directly following a paragraph is preceded by
exactly one blank line, and every other block by a single newline — made
explicit by the closed form of `blocksTextCore`/`blocksTextGo` on a
paragraph directly followed by a heading. -/
theorem c10_heading_blank_line :
    (∀ (closer : Str), closer ∈ [chars "</p>", chars "</ol>", chars "</ul>"] →
      ∀ (w : Str), (∀ c ∈ w, isJsWs c = true) →
      ∀ (h d : Char), lowerChar h = 'h' → (d = '1' ∨ d = '2') →
      ∀ (t : Str), (∀ c ∈ t, c ≠ '>') →
      ∀ (rest : Str) (F : Nat),
      injectSepGo (F + 1) (closer ++ w ++ ('<' :: h :: d :: (t ++ '>' :: rest))) =
        closer ++ chars "<p>&nbsp;</p>" ++ w ++ ('<' :: h :: d :: (t ++ ['>'])) ++
          injectSepGo F rest) ∧
    (∀ (bs : List PBlock), (∀ b ∈ bs, BlockWF b) →
      markupToPlainText (blocksHtml bs) = trimJs (blocksTextCore bs)) ∧
    (∀ (prev : PBlock) (a : Str) (d : Char) (t b : Str) (v : List PBlock),
      blocksTextCore (.para a :: .heading d t b :: v) =
        blockLine (.para a) ++ '\n' :: '\n' ::
          (blockLine (.heading d t b) ++ blocksTextGo (.heading d t b) v) ∧
      blocksTextGo prev (.para a :: .heading d t b :: v) =
        '\n' :: (blockLine (.para a) ++ '\n' :: '\n' ::
          (blockLine (.heading d t b) ++ blocksTextGo (.heading d t b) v))) := by
  refine ⟨inj_law, mtp_blocks, ?_⟩
  intro prev a d t b v
  constructor
  · rfl
  · rfl

/-- Witness for C10 at concrete inputs: the injection law at `</ol>`, a
space, an upper-case `<H2 id="x">` tag and a symbolic-free tail, and the
end-to-end plain-text law on a two-block markup with a multi-word
paragraph containing an inline tag and an entity followed by an attributed
heading with entities. -/
theorem c10_heading_blank_line_witness :
    injectSepGo (20 + 1)
        (chars "</ol>" ++ [' '] ++
          ('<' :: 'H' :: '2' :: (chars " id=\"x\"" ++ '>' :: chars "tail"))) =
      chars "</ol>" ++ chars "<p>&nbsp;</p>" ++ [' '] ++
        ('<' :: 'H' :: '2' :: (chars " id=\"x\"" ++ ['>'])) ++
        injectSepGo 20 (chars "tail") ∧
    markupToPlainText (blocksHtml
        [PBlock.para (chars "Hello <b>big</b> world &amp; co"),
         PBlock.heading '2' (chars " style=\"m\"") (chars "Next &lt;works&gt; fine")]) =
      trimJs (blocksTextCore
        [PBlock.para (chars "Hello <b>big</b> world &amp; co"),
         PBlock.heading '2' (chars " style=\"m\"") (chars "Next &lt;works&gt; fine")]) ∧
    blocksTextCore (.para (chars "P one") :: .heading '1' [] (chars "H two") :: []) =
      blockLine (.para (chars "P one")) ++ '\n' :: '\n' ::
        (blockLine (.heading '1' [] (chars "H two")) ++
          blocksTextGo (.heading '1' [] (chars "H two")) []) := by
  refine ⟨?_, ?_, ?_⟩
  · exact c10_heading_blank_line.1 (chars "</ol>") (by decide) [' '] (by decide) 'H' '2' (by decide)
      (Or.inr rfl) (chars " id=\"x\"") (by decide) (chars "tail") 20
  · exact c10_heading_blank_line.2.1 _
      (by
        intro x hx
        simp only [List.mem_cons, List.not_mem_nil, or_false] at hx
        rcases hx with rfl | rfl
        · exact ⟨segOkB_sound 64 _ (by decide), by decide, by decide⟩
        · exact ⟨⟨Or.inr rfl, by decide, segOkB_sound 64 _ (by decide)⟩, by decide, by decide⟩)
  · exact (c10_heading_blank_line.2.2 (.para []) (chars "P one") '1' [] (chars "H two") []).1
